import Mathlib

/-!
Color mixing (`src/Components/ColorMix/Color.jsx`).

A shallow embedding of the two colour mixers of `Color.jsx`,
`mixColorsWithWeights` and `mixColorsSubtractive`, of the helpers they are
built from, and of the name lookup `getColorName`.

Conventions of the embedding.

* A JavaScript string is a `String`; the pattern test and the slicing work on
  its list of characters.
* A call either returns a string or throws the `TypeError` raised by reading a
  property of `undefined`; the outcome is an `Except JSError String`.
* The arithmetic of the mixers is embedded twice.
  - Exactly (`mixColorsWithWeights`, `mixColorsSubtractive`): a weight is a
    rational (`ℚ`) and a number computed by the program is an `Option ℚ`,
    where `none` stands for `NaN` (in this embedding the only source of `NaN`
    is `parseInt` on a text without a leading hexadecimal digit).  These
    definitions agree with the program wherever no operation of the program
    rounds or overflows, as on the small integer weights of the concrete
    runs.
  - In IEEE 754 doubles (`Double`, `IEEE.mixColorsWithWeights`,
    `IEEE.mixColorsSubtractive`): every operation returns the exact result
    rounded to the nearest double, ties to the even mantissa, infinity beyond
    the largest double, and `NaN` where IEEE 754 gives it.  The statements
    about scaling, rounding and overflow are made on these definitions; for
    natural weights with a sum of at most `2 ^ 40` the weighted mixer returns
    the same outcome in both embeddings (`mixColorsWithWeights_exact`).
-/

deriving instance DecidableEq for Except

namespace ColorMix

/-! ## Numbers and errors -/

/-- The exception a mixer can raise: a property read on `undefined`. -/
inductive JSError where
  | typeError
  deriving DecidableEq, Repr

/-- The function `Math.round` on an exact number: the nearest integer, ties
going up. -/
def mathRound (x : ℚ) : ℤ := ⌊x + 1 / 2⌋

/-- The method `Number.prototype.toString(16)` on an integer: lower-case
digits, with a minus sign in front of a negative number. -/
def toString16 (n : ℤ) : String :=
  if n < 0 then "-" ++ String.mk (Nat.toDigits 16 n.natAbs)
  else String.mk (Nat.toDigits 16 n.natAbs)

/-- The local helper `toHex` of both mixers (lines 58-61 and 107-110):
`Math.round(c).toString(16)`, with a zero in front of a single digit.
`Math.round(NaN)` is `NaN`, whose text is `"NaN"`. -/
def toHex (c : Option ℚ) : String :=
  let hex := match c with
    | none => "NaN"
    | some q => toString16 (mathRound q)
  if hex.length = 1 then "0" ++ hex else hex

/-- The clamp `Math.max(0, Math.min(255, c))`; both functions return `NaN` on
a `NaN` argument. -/
def clamp (c : Option ℚ) : Option ℚ :=
  c.map fun q => max 0 (min 255 q)

/-! ## The colour pattern and the decoding of a colour -/

/-- The character class `[0-9A-Fa-f]`. -/
def isHexDigit (c : Char) : Bool :=
  (decide ('0' ≤ c) && decide (c ≤ '9')) ||
  (decide ('A' ≤ c) && decide (c ≤ 'F')) ||
  (decide ('a' ≤ c) && decide (c ≤ 'f'))

/-- The test of the colour pattern (`#`, then six characters of the class
`[0-9A-Fa-f]`, anchored at both ends): the whole string is `#` followed by
exactly six hexadecimal digits. -/
def isValidColor (color : String) : Bool :=
  match color.data with
  | [h, d1, d2, d3, d4, d5, d6] =>
    h == '#' && isHexDigit d1 && isHexDigit d2 && isHexDigit d3 &&
      isHexDigit d4 && isHexDigit d5 && isHexDigit d6
  | _ => false

/-- The value of one hexadecimal digit, `none` for any other character. -/
def hexDigitValue (c : Char) : Option ℕ :=
  if '0' ≤ c ∧ c ≤ '9' then some (c.toNat - 48)
  else if 'a' ≤ c ∧ c ≤ 'f' then some (c.toNat - 87)
  else if 'A' ≤ c ∧ c ≤ 'F' then some (c.toNat - 55)
  else none

/-- The digit loop of `parseInt(text, 16)`: reads hexadecimal digits up to the
first character that is not one.  The accumulator is `none` while no digit has
been read. -/
def parseDigits : List Char → Option ℕ → Option ℕ
  | [], acc => acc
  | c :: cs, acc =>
    match hexDigitValue c with
    | none => acc
    | some d => parseDigits cs (some (acc.getD 0 * 16 + d))

/-- The call `parseInt(text, 16)` on a text that starts with neither white space, a sign
nor `0x` (the mixers only ever pass two characters of a string that matched the
colour pattern): the value of the leading hexadecimal digits, `NaN` (`none`)
when there is none. -/
def parseInt16 (text : List Char) : Option ℚ :=
  (parseDigits text none).map fun n => (n : ℚ)

/-- The call `text.substr(start, len)` on the characters of a string. -/
def substr (text : List Char) (start len : ℕ) : List Char :=
  (text.drop start).take len

/-- The three channels of a decoded colour (the object with the fields `r`,
`g` and `b`). -/
structure RGB where
  r : Option ℚ
  g : Option ℚ
  b : Option ℚ
  deriving DecidableEq

/-- The decoding of one colour (lines 14-19 and 90-93): drop the first `#`,
then parse the three pairs of digits. -/
def hexToRgb (color : String) : RGB :=
  let hex := color.data.erase '#'
  { r := parseInt16 (substr hex 0 2)
    g := parseInt16 (substr hex 2 2)
    b := parseInt16 (substr hex 4 2) }

/-! ## What both mixers compute before their loop -/

/-- The list `validColors` of both mixers (lines 9 and 71): the colours that
pass the pattern test, in their order. -/
def validColors (colors : List String) : List String :=
  colors.filter isValidColor

/-- The list `validWeights` of both mixers (lines 23 and 75):
`weights.filter(weight => weight > 0)`. -/
def validWeights (weights : List ℚ) : List ℚ :=
  weights.filter fun weight => decide (weight > 0)

/-- The list `validColorIndices` of both mixers (lines 24 and 76):
`weights.map((weight, index) => weight > 0 ? index : -1)
.filter(index => index !== -1)`, the positions, in the weight list, of the
strictly positive weights. -/
def validColorIndices (weights : List ℚ) : List ℤ :=
  (weights.enum.map fun p => if p.2 > 0 then (p.1 : ℤ) else -1).filter
    fun index => decide (index ≠ -1)

/-- The array read `xs[i]`: `undefined` (`none`) outside the array. -/
def jsIndex {α : Type} (xs : List α) (i : ℤ) : Option α :=
  if 0 ≤ i then xs[i.toNat]? else none

/-! ## `mixColorsWithWeights` -/

/-- The variables of the loop of `mixColorsWithWeights` (lines 30-31). -/
structure MixState where
  totalWeight : ℚ
  r : Option ℚ
  g : Option ℚ
  b : Option ℚ
  deriving DecidableEq

/-- The update `acc += channel * weight` in exact arithmetic, `NaN` as soon as
the channel is `NaN` (`IEEE.weightedStep` has the same update in doubles). -/
def addWeighted (acc channel : Option ℚ) (weight : ℚ) : Option ℚ :=
  acc.bind fun a => channel.map fun c => a + c * weight

/-- One pass through the body of the `forEach` of lines 34-41, for the pair
`(colorIndex, validWeights[weightIndex])`, in exact arithmetic
(`IEEE.weightedStep` is the same pass in doubles).  Reading `.r` of
`rgbColors[colorIndex]` throws when the index is outside `rgbColors`. -/
def weightedStep (rgbColors : List RGB) (st : MixState) (p : ℤ × ℚ) :
    Except JSError MixState :=
  match jsIndex rgbColors p.1 with
  | none => .error .typeError
  | some c =>
    .ok { totalWeight := st.totalWeight + p.2
          r := addWeighted st.r c.r p.2
          g := addWeighted st.g c.g p.2
          b := addWeighted st.b c.b p.2 }

/-- Lines 44-47: each sum divided by the total weight and rounded, the quotient
being exact (`IEEE.weightedFinish` has the quotient in doubles). -/
def normalize (sum : Option ℚ) (totalWeight : ℚ) : Option ℚ :=
  sum.map fun s => ((mathRound (s / totalWeight) : ℤ) : ℚ)

/-- The state of the loop of `mixColorsWithWeights` on entry (lines 30-31). -/
def weightedInit : MixState :=
  { totalWeight := 0, r := some 0, g := some 0, b := some 0 }

/-- Lines 44-63 of `mixColorsWithWeights`: normalise, clamp and encode, or
return white when the total weight is not positive. -/
def weightedFinish (st : MixState) : String :=
  if st.totalWeight > 0 then
    let r := clamp (normalize st.r st.totalWeight)
    let g := clamp (normalize st.g st.totalWeight)
    let b := clamp (normalize st.b st.totalWeight)
    "#" ++ toHex r ++ toHex g ++ toHex b
  else "#FFFFFF"

/-- The function `mixColorsWithWeights` (lines 5-64).  The `forEach` walks
`validColorIndices` together with `validWeights` (which have the same length,
see `length_validColorIndices`), so the loop is a fold over their zip. -/
def mixColorsWithWeights (colors : List String) (weights : List ℚ) :
    Except JSError String :=
  if colors.length = 0 then .ok "#FFFFFF"
  else
    let vc := validColors colors
    if vc.length = 0 then .ok "#FFFFFF"
    else
      let rgbColors := vc.map hexToRgb
      let vw := validWeights weights
      let idx := validColorIndices weights
      if vw.length = 0 then .ok "#FFFFFF"
      else
        match (idx.zip vw).foldlM (weightedStep rgbColors) weightedInit with
        | .error e => .error e
        | .ok st => .ok (weightedFinish st)

/-! ## `mixColorsSubtractive` -/

/-- The update `Math.round(acc * (1 - weightRatio) + channel * weightRatio)` in
exact arithmetic (`IEEE.blend` is the same update in doubles). -/
def blend (acc channel : Option ℚ) (weightRatio : ℚ) : Option ℚ :=
  acc.bind fun a => channel.map fun c =>
    ((mathRound (a * (1 - weightRatio) + c * weightRatio) : ℤ) : ℚ)

/-- One pass through the body of the `forEach` of lines 86-100, in exact
arithmetic (`IEEE.subtractiveStep` is the same pass in doubles).  Calling
`.replace` on `validColors[colorIndex]` throws when the index is outside
`validColors`.  The divisor `totalWeight` is positive at every pass, as every
weight of `validWeights` is. -/
def subtractiveStep (vc : List String) (st : MixState) (p : ℤ × ℚ) :
    Except JSError MixState :=
  let totalWeight := st.totalWeight + p.2
  match jsIndex vc p.1 with
  | none => .error .typeError
  | some color =>
    let c := hexToRgb color
    let weightRatio := p.2 / totalWeight
    .ok { totalWeight := totalWeight
          r := blend st.r c.r weightRatio
          g := blend st.g c.g weightRatio
          b := blend st.b c.b weightRatio }

/-- The state of the loop of `mixColorsSubtractive` on entry (lines 83-84):
white. -/
def subtractiveInit : MixState :=
  { totalWeight := 0, r := some 255, g := some 255, b := some 255 }

/-- Lines 102-112 of `mixColorsSubtractive`: clamp and encode. -/
def subtractiveFinish (st : MixState) : String :=
  "#" ++ toHex (clamp st.r) ++ toHex (clamp st.g) ++ toHex (clamp st.b)

/-- The function `mixColorsSubtractive` (lines 67-113). -/
def mixColorsSubtractive (colors : List String) (weights : List ℚ) :
    Except JSError String :=
  if colors.length = 0 then .ok "#FFFFFF"
  else
    let vc := validColors colors
    if vc.length = 0 then .ok "#FFFFFF"
    else
      let vw := validWeights weights
      let idx := validColorIndices weights
      if vw.length = 0 then .ok "#FFFFFF"
      else
        match (idx.zip vw).foldlM (subtractiveStep vc) subtractiveInit with
        | .error e => .error e
        | .ok st => .ok (subtractiveFinish st)

/-! ## Vocabulary of the proofs -/

/-- A channel as decoded from a valid colour: an integer from 0 to 255. -/
def IsChannel (x : Option ℚ) : Prop := ∃ n : ℕ, n ≤ 255 ∧ x = some (n : ℚ)

/-- A decoded colour whose three channels are integers from 0 to 255. -/
def RGB.Good (c : RGB) : Prop := IsChannel c.r ∧ IsChannel c.g ∧ IsChannel c.b

/-- The pairs `(colorIndex, weight)` the loops walk through, written as a
recursion on the weight list: position `n + i` and weight `w` for every
strictly positive `w` at position `i`. -/
def selectedFrom (n : ℕ) : List ℚ → List (ℤ × ℚ)
  | [] => []
  | w :: ws =>
    if w > 0 then ((n : ℤ), w) :: selectedFrom (n + 1) ws else selectedFrom (n + 1) ws

/-- The loop and the encoding of `mixColorsWithWeights`, over the selected
pairs. -/
def weightedLoop (rgbColors : List RGB) (pairs : List (ℤ × ℚ)) : Except JSError String :=
  match pairs.foldlM (weightedStep rgbColors) weightedInit with
  | .error e => .error e
  | .ok st => .ok (weightedFinish st)

/-- The loop and the encoding of `mixColorsSubtractive`, over the selected
pairs. -/
def subtractiveLoop (vc : List String) (pairs : List (ℤ × ℚ)) : Except JSError String :=
  match pairs.foldlM (subtractiveStep vc) subtractiveInit with
  | .error e => .error e
  | .ok st => .ok (subtractiveFinish st)

/-- A loop state with every sum multiplied by `k`. -/
def scaleState (k : ℚ) (st : MixState) : MixState :=
  { totalWeight := k * st.totalWeight
    r := st.r.map fun x => k * x
    g := st.g.map fun x => k * x
    b := st.b.map fun x => k * x }

/-- The two-character encoding `toHex` produces for an integer channel `n`. -/
def hexPair (n : ℕ) : String :=
  let hex := String.mk (Nat.toDigits 16 n)
  if hex.length = 1 then "0" ++ hex else hex

/-- The check that `hexPair n` is two hexadecimal digits that parse back to
`n`. -/
def byteOk (n : ℕ) : Bool :=
  match (hexPair n).data with
  | [x, y] => isHexDigit x && isHexDigit y && (parseDigits [x, y] none == some n)
  | _ => false

/-- The hex encoding of three channels, as both mixers build it in their last
line: `#` followed by `toHex` of each channel. -/
def encode (c : RGB) : String :=
  "#" ++ toHex c.r ++ toHex c.g ++ toHex c.b

/-- A loop state none of whose channels is `NaN`. -/
def MixState.Defined (st : MixState) : Prop :=
  (∃ x, st.r = some x) ∧ (∃ x, st.g = some x) ∧ (∃ x, st.b = some x)

/-- The shape of a result: seven characters, `#` and six hexadecimal digits. -/
def WellFormed (s : String) : Prop := s.length = 7 ∧ isValidColor s = true

/-- The state after one pass of the loop of `mixColorsSubtractive` that found
`color` at its index. -/
def subtractiveUpdate (st : MixState) (color : String) (weight : ℚ) : MixState :=
  { totalWeight := st.totalWeight + weight
    r := blend st.r (hexToRgb color).r (weight / (st.totalWeight + weight))
    g := blend st.g (hexToRgb color).g (weight / (st.totalWeight + weight))
    b := blend st.b (hexToRgb color).b (weight / (st.totalWeight + weight)) }

/-! ## `getColorName` -/

/-- What `getColorName` can return: a string, or the function or object that
every object literal inherits from `Object.prototype` under the name `key`. -/
inductive JSValue where
  | string (s : String)
  | inherited (key : String)
  deriving DecidableEq

/-- The object literal `colorMap` of `getColorName` (lines 117-127), as its list
of keys and names in source order; no key occurs twice. -/
def colorMap : List (String × String) :=
  [("#FF0000", "Red"), ("#FF4500", "Orange Red"), ("#FF8C00", "Dark Orange"),
   ("#FFD700", "Gold"), ("#FFFF00", "Yellow"), ("#ADFF2F", "Green Yellow"),
   ("#00FF00", "Lime"), ("#00FA9A", "Medium Spring Green"), ("#00FFFF", "Cyan"),
   ("#00BFFF", "Deep Sky Blue"), ("#0000FF", "Blue"), ("#8A2BE2", "Blue Violet"),
   ("#FF00FF", "Magenta"), ("#FF1493", "Deep Pink"), ("#FF69B4", "Hot Pink"),
   ("#FFB6C1", "Light Pink"), ("#FFE4E1", "Misty Rose"), ("#F5F5DC", "Beige"),
   ("#DEB887", "Burly Wood"), ("#D2691E", "Chocolate"), ("#8B4513", "Saddle Brown"),
   ("#654321", "Dark Brown"), ("#2F4F4F", "Dark Slate Gray"), ("#000000", "Black"),
   ("#FFFFFF", "White"), ("#C0C0C0", "Silver"), ("#808080", "Gray"),
   ("#404040", "Dark Gray"), ("#202020", "Very Dark Gray"), ("#101010", "Almost Black"),
   ("#080808", "Near Black"), ("#2563EB", "Blue"), ("#EF4444", "Red"),
   ("#22C55E", "Green")]

/-- The property names an object literal inherits from `Object.prototype` in a
browser (ECMAScript, with its Annex B); the value under each of them is a
function or an object, hence truthy. -/
def objectPrototypeKeys : List String :=
  ["constructor", "hasOwnProperty", "isPrototypeOf", "propertyIsEnumerable",
   "toLocaleString", "toString", "valueOf", "__proto__", "__defineGetter__",
   "__defineSetter__", "__lookupGetter__", "__lookupSetter__"]

/-- The function `getColorName` (lines 116-129): `colorMap[hex] || 'Custom'`.
The property read finds an own key of the literal, else a name inherited from
`Object.prototype`, else `undefined`; the operator `||` replaces a falsy value
(`undefined` or the empty string) by `'Custom'`. -/
def getColorName (hex : String) : JSValue :=
  match colorMap.lookup hex with
  | some name => if name = "" then .string "Custom" else .string name
  | none => if hex ∈ objectPrototypeKeys then .inherited hex else .string "Custom"

/-- The two lists cut to the length of the shorter one. -/
def truncateToShorter (colors : List String) (weights : List ℚ) : List String × List ℚ :=
  (colors.take (min colors.length weights.length),
    weights.take (min colors.length weights.length))

/-- The two lists without the positions whose weight is zero or negative. -/
def dropNonPositive (colors : List String) (weights : List ℚ) : List String × List ℚ :=
  ((colors.zip weights).filter fun p => decide (p.2 > 0)).unzip

/-! ## Vocabulary: letter case, ranges and bounds -/

/-- The character class `[0-9a-f]`. -/
def isLowerHexDigit (c : Char) : Bool :=
  (decide ('0' ≤ c) && decide (c ≤ '9')) || (decide ('a' ≤ c) && decide (c ≤ 'f'))

/-- The test of the pattern `#`, then six characters of the class `[0-9a-f]`,
anchored at both ends. -/
def isLowerHexColor (s : String) : Bool :=
  match s.data with
  | [h, d1, d2, d3, d4, d5, d6] =>
    h == '#' && isLowerHexDigit d1 && isLowerHexDigit d2 && isLowerHexDigit d3 &&
      isLowerHexDigit d4 && isLowerHexDigit d5 && isLowerHexDigit d6
  | _ => false

/-- The check that `hexPair n` is two characters of the class `[0-9a-f]`. -/
def byteLower (n : ℕ) : Bool :=
  match (hexPair n).data with
  | [x, y] => isLowerHexDigit x && isLowerHexDigit y
  | _ => false

/-- A loop state whose three channels are integers from 0 to 255. -/
def MixState.Byte (st : MixState) : Prop :=
  IsChannel st.r ∧ IsChannel st.g ∧ IsChannel st.b

/-- A sum of `mixColorsWithWeights` that lies between 0 and 255 times the total
weight. -/
def SumBounded (sum : Option ℚ) (totalWeight : ℚ) : Prop :=
  ∃ x, sum = some x ∧ 0 ≤ x ∧ x ≤ 255 * totalWeight

/-- A loop state of `mixColorsWithWeights` whose total weight is not negative
and whose three sums lie between 0 and 255 times the total weight. -/
def MixState.Bounded (st : MixState) : Prop :=
  0 ≤ st.totalWeight ∧ SumBounded st.r st.totalWeight ∧
    SumBounded st.g st.totalWeight ∧ SumBounded st.b st.totalWeight

/-- A channel that neither the clamp nor the rounding inside `toHex` changes. -/
def Unchanged (x : Option ℚ) : Prop :=
  clamp x = x ∧ ∀ q, x = some q → ((mathRound q : ℤ) : ℚ) = q

/-! ## The weighted mean in the words of the claims -/

/-- The indices `i` of the original weight list with `weights[i] > 0`, in
increasing order. -/
def positivePositions (weights : List ℚ) : List ℕ :=
  (List.range weights.length).filter fun i => decide (weights.getD i 0 > 0)

/-- The channel `ch` of the `i`-th colour of the list `V` (0 when there is no
such colour). -/
def channelAt (ch : RGB → Option ℚ) (V : List String) (i : ℕ) : ℚ :=
  ((V[i]?).bind fun color => ch (hexToRgb color)).getD 0

/-- The sum of `weights[i]` over the indices `i` with `weights[i] > 0`. -/
def positiveWeightSum (weights : List ℚ) : ℚ :=
  ((positivePositions weights).map fun i => weights.getD i 0).sum

/-- The sum of `weights[i] * channel(V[i])` over the indices `i` with
`weights[i] > 0`. -/
def pairedChannelSum (ch : RGB → Option ℚ) (V : List String) (weights : List ℚ) : ℚ :=
  ((positivePositions weights).map fun i => weights.getD i 0 * channelAt ch V i).sum

/-- The exact weighted mean of the channel `ch`, the weight at position `i`
being paired with the `i`-th colour of `V`. -/
def pairedMean (ch : RGB → Option ℚ) (V : List String) (weights : List ℚ) : ℚ :=
  pairedChannelSum ch V weights / positiveWeightSum weights

/-- The channel `ch` of the decoded colour at index `i`, as the loop of
`mixColorsWithWeights` reads it (0 when the read fails or gives `NaN`). -/
def channelOf (ch : RGB → Option ℚ) (rgbColors : List RGB) (i : ℤ) : ℚ :=
  ((jsIndex rgbColors i).bind ch).getD 0

/-- The state of the loop of `mixColorsWithWeights` after the pairs `pairs`,
started with the total weight `t` and the sums `x`, `y` and `z`. -/
def weightedSums (rgbColors : List RGB) (t x y z : ℚ) (pairs : List (ℤ × ℚ)) : MixState :=
  { totalWeight := t + (pairs.map Prod.snd).sum
    r := some (x + (pairs.map fun p => channelOf RGB.r rgbColors p.1 * p.2).sum)
    g := some (y + (pairs.map fun p => channelOf RGB.g rgbColors p.1 * p.2).sum)
    b := some (z + (pairs.map fun p => channelOf RGB.b rgbColors p.1 * p.2).sum) }

/-- An accumulator channel `acc` of `mixColorsSubtractive` that is within `err`
of the exact mean `sum / total`, stated without the division. -/
def Near (acc : Option ℚ) (total sum err : ℚ) : Prop :=
  ∃ a, acc = some a ∧ |a * total - sum| ≤ total * err

/-- A loop state of `mixColorsSubtractive` with a positive total weight whose
three channels are within `err` of the exact means of the sums `sr`, `sg` and
`sb`. -/
def NearState (st : MixState) (sr sg sb err : ℚ) : Prop :=
  0 < st.totalWeight ∧ 0 ≤ err ∧ Near st.r st.totalWeight sr err ∧
    Near st.g st.totalWeight sg err ∧ Near st.b st.totalWeight sb err

/-! ## IEEE doubles

The mixers compute with JavaScript numbers, that is IEEE 754 doubles.  The
definitions above carry the arithmetic out exactly; they agree with the code
wherever no operation of the code rounds or overflows.  The definitions below
embed the same lines with the arithmetic of doubles: every operation returns
the exact result rounded to the nearest double, ties to the even mantissa, and
infinity beyond the largest double. -/

/-- A JavaScript number: a finite double, carried as the rational number it
denotes, plus or minus infinity, or `NaN`.  A value `fin q` is a double when
`Double.ofRat q = fin q`; the operations below return doubles on doubles.  The
sign of zero is not kept: the mixers divide only by a total weight that is
positive, and no other operation of theirs can tell the two zeros apart. -/
inductive Double where
  | fin (q : ℚ)
  | inf
  | negInf
  | nan
  deriving DecidableEq

/-- The power `2 ^ e` for an integer exponent. -/
def pow2 (e : ℤ) : ℚ :=
  if 0 ≤ e then ((2 ^ e.toNat : ℕ) : ℚ) else 1 / ((2 ^ (-e).toNat : ℕ) : ℚ)

/-- The number of halvings that bring `n` below 2, counted with at most `fuel`
steps. -/
def halvings : ℕ → ℕ → ℕ
  | 0, _ => 0
  | fuel + 1, n => if n < 2 then 0 else halvings fuel (n / 2) + 1

/-- The binary logarithm of a natural number, rounded down (0 for 0). -/
def log2 (n : ℕ) : ℕ := halvings n n

/-- The exponent `e` with `2 ^ e ≤ a < 2 ^ (e + 1)`, for a positive `a`. -/
def binade (a : ℚ) : ℤ :=
  let d : ℤ := (log2 a.num.natAbs : ℤ) - (log2 a.den : ℤ)
  if pow2 d ≤ a then d else d - 1

/-- The nearest integer, a tie going to the even one. -/
def roundHalfEven (x : ℚ) : ℤ :=
  if x - ⌊x⌋ < 1 / 2 then ⌊x⌋
  else if 1 / 2 < x - ⌊x⌋ then ⌊x⌋ + 1
  else if ⌊x⌋ % 2 = 0 then ⌊x⌋ else ⌊x⌋ + 1

/-- The double nearest to the exact number `x` (IEEE 754 round to nearest, ties
to even): 53 significant bits, the exponent at least -1022 (below that the
doubles are the multiples of `2 ^ -1074`), and infinity when the rounded value
reaches `2 ^ 1024`. -/
def Double.ofRat (x : ℚ) : Double :=
  if x = 0 then .fin 0
  else
    let s := pow2 (max (binade |x|) (-1022) - 52)
    let y := (roundHalfEven (|x| / s) : ℚ) * s
    if pow2 1024 ≤ y then (if 0 < x then .inf else .negInf)
    else .fin (if 0 < x then y else -y)

/-- The sum of two doubles. -/
def Double.add : Double → Double → Double
  | .fin a, .fin b => Double.ofRat (a + b)
  | .nan, _ => .nan
  | _, .nan => .nan
  | .inf, .negInf => .nan
  | .negInf, .inf => .nan
  | .inf, _ => .inf
  | _, .inf => .inf
  | .negInf, _ => .negInf
  | _, .negInf => .negInf

/-- The negation of a double. -/
def Double.neg : Double → Double
  | .fin a => .fin (-a)
  | .inf => .negInf
  | .negInf => .inf
  | .nan => .nan

/-- The difference of two doubles. -/
def Double.sub (x y : Double) : Double := x.add y.neg

/-- The sign of a double that is not `NaN`: -1, 0 or 1. -/
def Double.sign : Double → ℤ
  | .fin a => if 0 < a then 1 else if a < 0 then -1 else 0
  | .inf => 1
  | .negInf => -1
  | .nan => 0

/-- The infinity of the given sign, `NaN` for the sign 0 (infinity times zero). -/
def Double.infOfSign (s : ℤ) : Double :=
  if 0 < s then .inf else if s < 0 then .negInf else .nan

/-- The product of two doubles. -/
def Double.mul : Double → Double → Double
  | .fin a, .fin b => Double.ofRat (a * b)
  | .nan, _ => .nan
  | _, .nan => .nan
  | x, y => Double.infOfSign (x.sign * y.sign)

/-- The quotient of two doubles.  A finite number divided by zero gives the
infinity of its sign (the zero taken as positive), zero by zero `NaN`. -/
def Double.div : Double → Double → Double
  | .fin a, .fin b => if b = 0 then Double.infOfSign (Double.sign (.fin a)) else Double.ofRat (a / b)
  | .nan, _ => .nan
  | _, .nan => .nan
  | .fin _, _ => .fin 0
  | x, .fin b => Double.infOfSign (x.sign * (if 0 ≤ b then 1 else -1))
  | _, _ => .nan

/-- The test `x > 0` on a double; it is false on `NaN`. -/
def Double.isPositive : Double → Bool
  | .fin a => decide (0 < a)
  | .inf => true
  | _ => false

/-- The function `Math.round` on a double: the nearest integer, ties going up;
infinities and `NaN` are returned as they are. -/
def Double.round : Double → Double
  | .fin a => .fin (mathRound a)
  | x => x

/-- The function `Math.min` on two doubles; `NaN` if either is. -/
def Double.min : Double → Double → Double
  | .nan, _ => .nan
  | _, .nan => .nan
  | .negInf, _ => .negInf
  | _, .negInf => .negInf
  | .inf, y => y
  | x, .inf => x
  | .fin a, .fin b => .fin (Min.min a b)

/-- The function `Math.max` on two doubles; `NaN` if either is. -/
def Double.max : Double → Double → Double
  | .nan, _ => .nan
  | _, .nan => .nan
  | .inf, _ => .inf
  | _, .inf => .inf
  | .negInf, y => y
  | x, .negInf => x
  | .fin a, .fin b => .fin (Max.max a b)

/-- The number a channel parsed by `parseInt` is: an integer below 256, or
`NaN`. -/
def Double.ofChannel : Option ℚ → Double
  | none => .nan
  | some q => .fin q

/-- The clamp `Math.max(0, Math.min(255, c))` on a double (lines 53-55 and
103-105). -/
def Double.clamp (c : Double) : Double :=
  Double.max (.fin 0) (Double.min (.fin 255) c)

/-- The local helper `toHex` on a double (lines 58-61 and 107-110):
`Math.round(c).toString(16)`, with a zero in front of a single character. -/
def Double.toHex (c : Double) : String :=
  let hex := match c.round with
    | .nan => "NaN"
    | .inf => "Infinity"
    | .negInf => "-Infinity"
    | .fin q => toString16 ⌊q⌋
  if hex.length = 1 then "0" ++ hex else hex

/-! ## The mixers over doubles -/

/-- The list `validWeights` (lines 23 and 75) for weights that are doubles. -/
def IEEE.validWeights (weights : List Double) : List Double :=
  weights.filter Double.isPositive

/-- The list `validColorIndices` (lines 24 and 76) for weights that are
doubles. -/
def IEEE.validColorIndices (weights : List Double) : List ℤ :=
  (weights.enum.map fun p => if p.2.isPositive then (p.1 : ℤ) else -1).filter
    fun index => decide (index ≠ -1)

/-- The variables of the loops (lines 30-31 and 83-84), as doubles. -/
structure IEEE.MixState where
  totalWeight : Double
  r : Double
  g : Double
  b : Double
  deriving DecidableEq

/-- One pass through the body of the `forEach` of lines 34-41:
`totalWeight += weight` and `r += rgbColors[colorIndex].r * weight`, in
doubles. -/
def IEEE.weightedStep (rgbColors : List RGB) (st : IEEE.MixState) (p : ℤ × Double) :
    Except JSError IEEE.MixState :=
  match jsIndex rgbColors p.1 with
  | none => .error .typeError
  | some c =>
    .ok { totalWeight := st.totalWeight.add p.2
          r := st.r.add ((Double.ofChannel c.r).mul p.2)
          g := st.g.add ((Double.ofChannel c.g).mul p.2)
          b := st.b.add ((Double.ofChannel c.b).mul p.2) }

/-- The state of the loop of `mixColorsWithWeights` on entry. -/
def IEEE.weightedInit : IEEE.MixState :=
  { totalWeight := .fin 0, r := .fin 0, g := .fin 0, b := .fin 0 }

/-- Lines 44-63 of `mixColorsWithWeights` in doubles: `Math.round(r /
totalWeight)` for each channel, the clamp and the encoding, or white when the
total weight is not positive. -/
def IEEE.weightedFinish (st : IEEE.MixState) : String :=
  if st.totalWeight.isPositive then
    let r := ((st.r.div st.totalWeight).round).clamp
    let g := ((st.g.div st.totalWeight).round).clamp
    let b := ((st.b.div st.totalWeight).round).clamp
    "#" ++ r.toHex ++ g.toHex ++ b.toHex
  else "#FFFFFF"

/-- The function `mixColorsWithWeights` (lines 5-64) with the arithmetic of
doubles. -/
def IEEE.mixColorsWithWeights (colors : List String) (weights : List Double) :
    Except JSError String :=
  if colors.length = 0 then .ok "#FFFFFF"
  else
    let vc := validColors colors
    if vc.length = 0 then .ok "#FFFFFF"
    else
      let rgbColors := vc.map hexToRgb
      let vw := IEEE.validWeights weights
      let idx := IEEE.validColorIndices weights
      if vw.length = 0 then .ok "#FFFFFF"
      else
        match (idx.zip vw).foldlM (IEEE.weightedStep rgbColors) IEEE.weightedInit with
        | .error e => .error e
        | .ok st => .ok (IEEE.weightedFinish st)

/-- The update of line 97 in doubles:
`Math.round(acc * (1 - weightRatio) + channel * weightRatio)`. -/
def IEEE.blend (acc channel weightRatio : Double) : Double :=
  ((acc.mul ((Double.fin 1).sub weightRatio)).add (channel.mul weightRatio)).round

/-- One pass through the body of the `forEach` of lines 86-100, in doubles. -/
def IEEE.subtractiveStep (vc : List String) (st : IEEE.MixState) (p : ℤ × Double) :
    Except JSError IEEE.MixState :=
  let totalWeight := st.totalWeight.add p.2
  match jsIndex vc p.1 with
  | none => .error .typeError
  | some color =>
    let c := hexToRgb color
    let weightRatio := p.2.div totalWeight
    .ok { totalWeight := totalWeight
          r := IEEE.blend st.r (Double.ofChannel c.r) weightRatio
          g := IEEE.blend st.g (Double.ofChannel c.g) weightRatio
          b := IEEE.blend st.b (Double.ofChannel c.b) weightRatio }

/-- The state of the loop of `mixColorsSubtractive` on entry: white. -/
def IEEE.subtractiveInit : IEEE.MixState :=
  { totalWeight := .fin 0, r := .fin 255, g := .fin 255, b := .fin 255 }

/-- Lines 102-112 of `mixColorsSubtractive` in doubles: clamp and encode. -/
def IEEE.subtractiveFinish (st : IEEE.MixState) : String :=
  "#" ++ st.r.clamp.toHex ++ st.g.clamp.toHex ++ st.b.clamp.toHex

/-- The function `mixColorsSubtractive` (lines 67-113) with the arithmetic of
doubles. -/
def IEEE.mixColorsSubtractive (colors : List String) (weights : List Double) :
    Except JSError String :=
  if colors.length = 0 then .ok "#FFFFFF"
  else
    let vc := validColors colors
    if vc.length = 0 then .ok "#FFFFFF"
    else
      let vw := IEEE.validWeights weights
      let idx := IEEE.validColorIndices weights
      if vw.length = 0 then .ok "#FFFFFF"
      else
        match (idx.zip vw).foldlM (IEEE.subtractiveStep vc) IEEE.subtractiveInit with
        | .error e => .error e
        | .ok st => .ok (IEEE.subtractiveFinish st)

/-! ## Vocabulary: weights that are natural numbers -/

/-- A list of natural numbers as a weight list of the exact embedding. -/
def ratWeights (ws : List ℕ) : List ℚ := ws.map fun (n : ℕ) => (n : ℚ)

/-- A list of natural numbers as a weight list of doubles (a natural number
below `2 ^ 53` is a double, see `ofRat_natCast`). -/
def natWeights (ws : List ℕ) : List Double :=
  ws.map fun (n : ℕ) => Double.fin (n : ℚ)

/-- The loop state in doubles that holds the numbers of an exact loop state. -/
def IEEE.ofExact (st : ColorMix.MixState) : IEEE.MixState :=
  { totalWeight := .fin st.totalWeight
    r := Double.ofChannel st.r
    g := Double.ofChannel st.g
    b := Double.ofChannel st.b }

/-- The loop and the encoding of `mixColorsWithWeights` in doubles, over the
selected pairs. -/
def IEEE.weightedLoop (rgbColors : List RGB) (pairs : List (ℤ × Double)) :
    Except JSError String :=
  match pairs.foldlM (IEEE.weightedStep rgbColors) IEEE.weightedInit with
  | .error e => .error e
  | .ok st => .ok (IEEE.weightedFinish st)

/-- The loop and the encoding of `mixColorsSubtractive` in doubles, over the
selected pairs. -/
def IEEE.subtractiveLoop (vc : List String) (pairs : List (ℤ × Double)) :
    Except JSError String :=
  match pairs.foldlM (IEEE.subtractiveStep vc) IEEE.subtractiveInit with
  | .error e => .error e
  | .ok st => .ok (IEEE.subtractiveFinish st)

/-- The selected pairs of the exact embedding, their weights as doubles. -/
def IEEE.selected (weights : List ℚ) : List (ℤ × Double) :=
  (selectedFrom 0 weights).map fun p => (p.1, Double.fin p.2)

/-- An exact loop state of `mixColorsWithWeights` whose total weight and sums
are natural numbers, each sum at most 255 times the total weight. -/
def MixState.NatBounded (st : MixState) : Prop :=
  ∃ t x y z : ℕ, st = ⟨(t : ℚ), some (x : ℚ), some (y : ℚ), some (z : ℚ)⟩ ∧
    x ≤ 255 * t ∧ y ≤ 255 * t ∧ z ≤ 255 * t

/-- A double that is an integer from 0 to 255. -/
def Double.IsByte (d : Double) : Prop := ∃ n : ℕ, n ≤ 255 ∧ d = .fin (n : ℚ)

/-- A double that neither the clamp nor the rounding inside `toHex` changes. -/
def Double.Unchanged (d : Double) : Prop := d.clamp = d ∧ d.round = d

/-- A loop state of `mixColorsSubtractive` in doubles whose total weight is the
natural number `total > 0` and whose three channels are integers from 0 to 255,
each within `err` of the exact mean of the sum `sr`, `sg` or `sb` (stated
without the division). -/
def IEEE.NearState (st : IEEE.MixState) (total : ℕ) (sr sg sb err : ℚ) : Prop :=
  0 < total ∧ 0 ≤ err ∧ ∃ a b d : ℕ, a ≤ 255 ∧ b ≤ 255 ∧ d ≤ 255 ∧
    st = ⟨.fin (total : ℚ), .fin (a : ℚ), .fin (b : ℚ), .fin (d : ℚ)⟩ ∧
    |(a : ℚ) * total - sr| ≤ total * err ∧ |(b : ℚ) * total - sg| ≤ total * err ∧
    |(d : ℚ) * total - sb| ≤ total * err

/-! ## Theorems -/

/-! ### Hexadecimal digits and the decoding of a valid colour -/

theorem char_le_iff (a b : Char) : a ≤ b ↔ a.toNat ≤ b.toNat := by
  rfl

theorem hexDigitValue_of_isHexDigit (c : Char) (h : isHexDigit c = true) :
    ∃ n : ℕ, n < 16 ∧ hexDigitValue c = some n := by
  simp only [isHexDigit, Bool.or_eq_true, Bool.and_eq_true, decide_eq_true_eq, char_le_iff] at h
  have e0 : ('0' : Char).toNat = 48 := rfl
  have e9 : ('9' : Char).toNat = 57 := rfl
  have eA : ('A' : Char).toNat = 65 := rfl
  have eF : ('F' : Char).toNat = 70 := rfl
  have ea : ('a' : Char).toNat = 97 := rfl
  have ef : ('f' : Char).toNat = 102 := rfl
  rw [e0, e9, eA, eF, ea, ef] at h
  simp only [hexDigitValue, char_le_iff, e0, e9, eA, eF, ea, ef]
  rcases h with (h | h) | h
  · exact ⟨c.toNat - 48, by omega, by rw [if_pos h]⟩
  · refine ⟨c.toNat - 55, by omega, ?_⟩
    rw [if_neg (by omega), if_neg (by omega), if_pos h]
  · refine ⟨c.toNat - 87, by omega, ?_⟩
    rw [if_neg (by omega), if_pos h]

theorem isValidColor_iff (color : String) :
    isValidColor color = true ↔
      ∃ d1 d2 d3 d4 d5 d6, color.data = ['#', d1, d2, d3, d4, d5, d6] ∧
        isHexDigit d1 = true ∧ isHexDigit d2 = true ∧ isHexDigit d3 = true ∧
        isHexDigit d4 = true ∧ isHexDigit d5 = true ∧ isHexDigit d6 = true := by
  unfold isValidColor
  constructor
  · intro h
    split at h
    · rename_i h0 d1 d2 d3 d4 d5 d6 heq
      simp only [Bool.and_eq_true, beq_iff_eq] at h
      obtain ⟨⟨⟨⟨⟨⟨h0, h1⟩, h2⟩, h3⟩, h4⟩, h5⟩, h6⟩ := h
      exact ⟨d1, d2, d3, d4, d5, d6, by rw [heq, h0], h1, h2, h3, h4, h5, h6⟩
    · exact absurd h (by simp)
  · rintro ⟨d1, d2, d3, d4, d5, d6, heq, h1, h2, h3, h4, h5, h6⟩
    rw [heq]
    simp [h1, h2, h3, h4, h5, h6]

theorem parseInt16_pair (x y : Char) (hx : isHexDigit x = true) (hy : isHexDigit y = true) :
    IsChannel (parseInt16 [x, y]) := by
  obtain ⟨a, ha, hxa⟩ := hexDigitValue_of_isHexDigit x hx
  obtain ⟨b, hb, hyb⟩ := hexDigitValue_of_isHexDigit y hy
  refine ⟨a * 16 + b, by omega, ?_⟩
  simp [parseInt16, parseDigits, hxa, hyb]

theorem hexToRgb_good (color : String) (h : isValidColor color = true) :
    (hexToRgb color).Good := by
  obtain ⟨d1, d2, d3, d4, d5, d6, heq, h1, h2, h3, h4, h5, h6⟩ := (isValidColor_iff color).1 h
  have he : color.data.erase '#' = [d1, d2, d3, d4, d5, d6] := by
    rw [heq]; exact List.erase_cons_head _ _
  refine ⟨?_, ?_, ?_⟩
  · have : (hexToRgb color).r = parseInt16 [d1, d2] := by
      simp [hexToRgb, he, substr]
    rw [this]; exact parseInt16_pair _ _ h1 h2
  · have : (hexToRgb color).g = parseInt16 [d3, d4] := by
      simp [hexToRgb, he, substr]
    rw [this]; exact parseInt16_pair _ _ h3 h4
  · have : (hexToRgb color).b = parseInt16 [d5, d6] := by
      simp [hexToRgb, he, substr]
    rw [this]; exact parseInt16_pair _ _ h5 h6

/-! ### The pairs the loops walk through -/

theorem indicesFrom_cons (n : ℕ) (w : ℚ) (ws : List ℚ) :
    (((w :: ws).enumFrom n).map fun p => if p.2 > 0 then (p.1 : ℤ) else -1).filter
        (fun index => decide (index ≠ -1)) =
      if w > 0 then
        (n : ℤ) :: ((ws.enumFrom (n + 1)).map fun p => if p.2 > 0 then (p.1 : ℤ) else -1).filter
          (fun index => decide (index ≠ -1))
      else
        ((ws.enumFrom (n + 1)).map fun p => if p.2 > 0 then (p.1 : ℤ) else -1).filter
          (fun index => decide (index ≠ -1)) := by
  by_cases hw : w > 0
  · have hn : ((n : ℤ) ≠ -1) := by omega
    simp [List.enumFrom, hw, hn]
  · simp [List.enumFrom, hw]

theorem zip_indicesFrom (n : ℕ) (ws : List ℚ) :
    (((ws.enumFrom n).map fun p => if p.2 > 0 then (p.1 : ℤ) else -1).filter
        (fun index => decide (index ≠ -1))).zip (validWeights ws) = selectedFrom n ws := by
  induction ws generalizing n with
  | nil => rfl
  | cons w ws ih =>
    rw [indicesFrom_cons]
    by_cases hw : w > 0
    · simp only [hw, if_true, validWeights, selectedFrom]
      rw [List.filter_cons_of_pos (by simpa using hw), List.zip_cons_cons]
      congr 1
      exact ih (n + 1)
    · simp only [hw, if_false, validWeights, selectedFrom]
      rw [List.filter_cons_of_neg (by simpa using hw)]
      exact ih (n + 1)

theorem zip_validColorIndices (ws : List ℚ) :
    (validColorIndices ws).zip (validWeights ws) = selectedFrom 0 ws :=
  zip_indicesFrom 0 ws

theorem length_indicesFrom (n : ℕ) (ws : List ℚ) :
    (((ws.enumFrom n).map fun p => if p.2 > 0 then (p.1 : ℤ) else -1).filter
        (fun index => decide (index ≠ -1))).length = (validWeights ws).length := by
  induction ws generalizing n with
  | nil => rfl
  | cons w ws ih =>
    rw [indicesFrom_cons]
    by_cases hw : w > 0
    · simp only [hw, if_true, validWeights]
      rw [List.filter_cons_of_pos (by simpa using hw)]
      simp only [List.length_cons]
      congr 1
      exact ih (n + 1)
    · simp only [hw, if_false, validWeights]
      rw [List.filter_cons_of_neg (by simpa using hw)]
      exact ih (n + 1)

/-- The two lists the loops walk side by side have the same length, so the zip
loses no element. -/
theorem length_validColorIndices (ws : List ℚ) :
    (validColorIndices ws).length = (validWeights ws).length :=
  length_indicesFrom 0 ws

theorem selectedFrom_weight_pos (n : ℕ) (ws : List ℚ) :
    ∀ p ∈ selectedFrom n ws, 0 < p.2 := by
  induction ws generalizing n with
  | nil => intro p hp; simp [selectedFrom] at hp
  | cons w ws ih =>
    intro p hp
    by_cases hw : w > 0
    · simp only [selectedFrom, hw, if_true, List.mem_cons] at hp
      rcases hp with rfl | hp
      · exact hw
      · exact ih _ p hp
    · simp only [selectedFrom, hw, if_false] at hp
      exact ih _ p hp

/-! ### The mixers in terms of their loops, and the early returns -/

theorem validColors_eq_nil_of_nil (colors : List String) (h : colors.length = 0) :
    validColors colors = [] := by
  rw [List.length_eq_zero] at h
  rw [h]; rfl

theorem mixColorsWithWeights_eq (colors : List String) (weights : List ℚ) :
    mixColorsWithWeights colors weights =
      if validColors colors = [] then .ok "#FFFFFF"
      else if validWeights weights = [] then .ok "#FFFFFF"
      else weightedLoop ((validColors colors).map hexToRgb) (selectedFrom 0 weights) := by
  unfold mixColorsWithWeights weightedLoop
  by_cases h0 : colors.length = 0
  · rw [if_pos h0, if_pos (validColors_eq_nil_of_nil colors h0)]
  · rw [if_neg h0]
    simp only [List.length_eq_zero, zip_validColorIndices]

theorem mixColorsSubtractive_eq (colors : List String) (weights : List ℚ) :
    mixColorsSubtractive colors weights =
      if validColors colors = [] then .ok "#FFFFFF"
      else if validWeights weights = [] then .ok "#FFFFFF"
      else subtractiveLoop (validColors colors) (selectedFrom 0 weights) := by
  unfold mixColorsSubtractive subtractiveLoop
  by_cases h0 : colors.length = 0
  · rw [if_pos h0, if_pos (validColors_eq_nil_of_nil colors h0)]
  · rw [if_neg h0]
    simp only [List.length_eq_zero, zip_validColorIndices]

theorem validColors_eq_nil (colors : List String)
    (h : ∀ c ∈ colors, isValidColor c = false) : validColors colors = [] := by
  unfold validColors
  rw [List.filter_eq_nil_iff]
  intro c hc
  simp [h c hc]

theorem validWeights_eq_nil (weights : List ℚ)
    (h : ∀ w ∈ weights, ¬ 0 < w) : validWeights weights = [] := by
  unfold validWeights
  rw [List.filter_eq_nil_iff]
  intro w hw
  simpa using h w hw

/-- C1. When no colour of the list matches the pattern, or no weight of the
list is strictly positive, both mixers return exactly `#FFFFFF`. -/
theorem white_when_nothing_to_mix (colors : List String) (weights : List ℚ)
    (h : (∀ c ∈ colors, isValidColor c = false) ∨ (∀ w ∈ weights, ¬ 0 < w)) :
    mixColorsWithWeights colors weights = .ok "#FFFFFF" ∧
      mixColorsSubtractive colors weights = .ok "#FFFFFF" := by
  rw [mixColorsWithWeights_eq, mixColorsSubtractive_eq]
  rcases h with h | h
  · simp only [validColors_eq_nil colors h, if_true, and_self]
  · by_cases hc : validColors colors = []
    · simp only [hc, if_true, and_self]
    · simp only [hc, validWeights_eq_nil weights h, if_true, if_false, and_self]

theorem white_when_nothing_to_mix_witness :
    ((∀ c ∈ ["red", "#FFF", "#ZZZZZZ"], isValidColor c = false) ∨
        (∀ w ∈ [(1 : ℚ), 2, 3], ¬ 0 < w)) ∧
      (mixColorsWithWeights ["red", "#FFF", "#ZZZZZZ"] [1, 2, 3] = .ok "#FFFFFF" ∧
        mixColorsSubtractive ["red", "#FFF", "#ZZZZZZ"] [1, 2, 3] = .ok "#FFFFFF") :=
  ⟨Or.inl (by decide), white_when_nothing_to_mix _ _ (Or.inl (by decide))⟩

/-! ### Scaling the weights -/

theorem scaled_pos_iff (k : ℚ) (hk : 0 < k) (w : ℚ) : 0 < k * w ↔ 0 < w := by
  constructor
  · intro h
    by_contra hn
    have : k * w ≤ 0 := mul_nonpos_of_nonneg_of_nonpos hk.le (not_lt.1 hn)
    linarith
  · intro h; exact mul_pos hk h

theorem validWeights_scale (k : ℚ) (hk : 0 < k) (ws : List ℚ) :
    validWeights (ws.map fun w => k * w) = (validWeights ws).map fun w => k * w := by
  induction ws with
  | nil => rfl
  | cons w ws ih =>
    have hiff := scaled_pos_iff k hk w
    unfold validWeights at ih ⊢
    by_cases hw : 0 < w
    · rw [List.map_cons, List.filter_cons_of_pos (by simpa using hiff.2 hw),
        List.filter_cons_of_pos (by simpa using hw), List.map_cons, ih]
    · rw [List.map_cons, List.filter_cons_of_neg (by simpa using fun h => hw (hiff.1 h)),
        List.filter_cons_of_neg (by simpa using hw), ih]

theorem selectedFrom_scale (k : ℚ) (hk : 0 < k) (n : ℕ) (ws : List ℚ) :
    selectedFrom n (ws.map fun w => k * w) =
      (selectedFrom n ws).map fun p => (p.1, k * p.2) := by
  induction ws generalizing n with
  | nil => rfl
  | cons w ws ih =>
    have hiff := scaled_pos_iff k hk w
    by_cases hw : 0 < w
    · simp only [List.map_cons, selectedFrom, gt_iff_lt, hiff.2 hw, hw, if_true, ih]
    · have hkw : ¬ 0 < k * w := fun h => hw (hiff.1 h)
      simp only [List.map_cons, selectedFrom, gt_iff_lt, hkw, hw, if_false, ih]

theorem addWeighted_scale (k : ℚ) (acc channel : Option ℚ) (w : ℚ) :
    addWeighted (acc.map fun x => k * x) channel (k * w) =
      (addWeighted acc channel w).map fun x => k * x := by
  cases acc <;> cases channel <;> simp [addWeighted]
  ring

theorem weightedStep_scale (k : ℚ) (rgbColors : List RGB) (st : MixState) (p : ℤ × ℚ) :
    weightedStep rgbColors (scaleState k st) (p.1, k * p.2) =
      (weightedStep rgbColors st p).map (scaleState k) := by
  unfold weightedStep
  cases jsIndex rgbColors p.1 with
  | none => rfl
  | some c =>
    simp only [Except.map, scaleState, addWeighted_scale, mul_add]

theorem foldlM_weightedStep_scale (k : ℚ) (rgbColors : List RGB) (pairs : List (ℤ × ℚ))
    (st : MixState) :
    (pairs.map fun p => (p.1, k * p.2)).foldlM (weightedStep rgbColors) (scaleState k st) =
      (pairs.foldlM (weightedStep rgbColors) st).map (scaleState k) := by
  induction pairs generalizing st with
  | nil => rfl
  | cons p ps ih =>
    rw [List.map_cons, List.foldlM_cons, List.foldlM_cons, weightedStep_scale]
    cases weightedStep rgbColors st p with
    | error e => rfl
    | ok st1 => exact ih st1

theorem scaleState_weightedInit (k : ℚ) : scaleState k weightedInit = weightedInit := by
  simp [scaleState, weightedInit]

theorem normalize_scale (k : ℚ) (hk : 0 < k) (sum : Option ℚ) (t : ℚ) :
    normalize (sum.map fun x => k * x) (k * t) = normalize sum t := by
  cases sum with
  | none => rfl
  | some s =>
    simp only [normalize, Option.map_some']
    rw [mul_div_mul_left _ _ (ne_of_gt hk)]

theorem weightedFinish_scale (k : ℚ) (hk : 0 < k) (st : MixState) :
    weightedFinish (scaleState k st) = weightedFinish st := by
  have hiff := scaled_pos_iff k hk st.totalWeight
  unfold weightedFinish
  by_cases ht : st.totalWeight > 0
  · rw [if_pos ht, if_pos (show (scaleState k st).totalWeight > 0 from hiff.2 ht)]
    simp only [scaleState, normalize_scale k hk]
  · rw [if_neg ht, if_neg (show ¬ (scaleState k st).totalWeight > 0 from fun h => ht (hiff.1 h))]

theorem weightedLoop_scale (k : ℚ) (hk : 0 < k) (rgbColors : List RGB)
    (pairs : List (ℤ × ℚ)) :
    weightedLoop rgbColors (pairs.map fun p => (p.1, k * p.2)) =
      weightedLoop rgbColors pairs := by
  unfold weightedLoop
  have h := foldlM_weightedStep_scale k rgbColors pairs weightedInit
  rw [scaleState_weightedInit] at h
  rw [h]
  cases pairs.foldlM (weightedStep rgbColors) weightedInit with
  | error e => rfl
  | ok st => simp only [Except.map, weightedFinish_scale k hk]

/-- In exact arithmetic, multiplying every weight by the same constant `k > 0`
does not change the outcome of `mixColorsWithWeights` (the returned string or
the exception). -/
theorem mixColorsWithWeights_scale_invariant (colors : List String) (weights : List ℚ)
    (k : ℚ) (hk : 0 < k) :
    mixColorsWithWeights colors (weights.map fun w => k * w) =
      mixColorsWithWeights colors weights := by
  rw [mixColorsWithWeights_eq, mixColorsWithWeights_eq, validWeights_scale k hk,
    selectedFrom_scale k hk, weightedLoop_scale k hk]
  simp only [List.map_eq_nil_iff]

/-! ### The encoding of a channel -/

theorem byteOk_all : ∀ n : Fin 256, byteOk n.val = true := by
  decide!

theorem hexPair_spec (n : ℕ) (hn : n ≤ 255) :
    ∃ x y, hexPair n = String.mk [x, y] ∧ isHexDigit x = true ∧ isHexDigit y = true ∧
      parseDigits [x, y] none = some n := by
  have h := byteOk_all ⟨n, by omega⟩
  simp only [byteOk] at h
  split at h
  · rename_i x y heq
    simp only [Bool.and_eq_true, beq_iff_eq] at h
    exact ⟨x, y, String.ext heq, h.1.1, h.1.2, h.2⟩
  · exact absurd h (by simp)

theorem mathRound_natCast (n : ℕ) : mathRound (n : ℚ) = (n : ℤ) := by
  unfold mathRound
  rw [Int.floor_eq_iff]
  constructor
  · push_cast; linarith
  · push_cast; linarith

theorem mathRound_intCast (z : ℤ) : mathRound (z : ℚ) = z := by
  unfold mathRound
  rw [Int.floor_eq_iff]
  constructor <;> linarith

theorem toString16_natCast (n : ℕ) : toString16 (n : ℤ) = String.mk (Nat.toDigits 16 n) := by
  unfold toString16
  rw [if_neg (by omega), Int.natAbs_ofNat]

theorem toHex_of_round (q : ℚ) (n : ℕ) (h : mathRound q = (n : ℤ)) :
    toHex (some q) = hexPair n := by
  simp only [toHex, hexPair, h, toString16_natCast]

theorem toHex_natCast (n : ℕ) : toHex (some (n : ℚ)) = hexPair n :=
  toHex_of_round _ n (mathRound_natCast n)

theorem mathRound_clamp (q : ℚ) :
    ∃ n : ℕ, n ≤ 255 ∧ mathRound (max 0 (min 255 q)) = (n : ℤ) := by
  have h0 : (0 : ℚ) ≤ max 0 (min 255 q) := le_max_left _ _
  have h1 : max 0 (min 255 q) ≤ (255 : ℚ) := max_le (by norm_num) (min_le_left _ _)
  have hlo : 0 ≤ mathRound (max 0 (min 255 q)) := by
    unfold mathRound
    apply Int.floor_nonneg.2
    linarith
  have hhi : mathRound (max 0 (min 255 q)) < 256 := by
    unfold mathRound
    rw [Int.floor_lt]
    push_cast
    linarith
  refine ⟨(mathRound (max 0 (min 255 q))).toNat, by omega, ?_⟩
  rw [Int.toNat_of_nonneg hlo]

/-- After the clamp a channel that is not `NaN` is encoded as two hexadecimal
digits. -/
theorem toHex_clamp (q : ℚ) :
    ∃ x y, toHex (clamp (some q)) = String.mk [x, y] ∧
      isHexDigit x = true ∧ isHexDigit y = true := by
  obtain ⟨n, hn, hr⟩ := mathRound_clamp q
  obtain ⟨x, y, hxy, hx, hy, _⟩ := hexPair_spec n hn
  refine ⟨x, y, ?_, hx, hy⟩
  rw [← hxy]
  exact toHex_of_round _ n hr

theorem clamp_natCast (n : ℕ) (hn : n ≤ 255) : clamp (some (n : ℚ)) = some (n : ℚ) := by
  have h1 : min (255 : ℚ) (n : ℚ) = n := min_eq_right (by exact_mod_cast hn)
  have h2 : max (0 : ℚ) (n : ℚ) = n := max_eq_right (by positivity)
  simp only [clamp, Option.map_some', h1, h2]

/-! ### A single colour -/

theorem hexToRgb_encode (a b d : ℕ) (ha : a ≤ 255) (hb : b ≤ 255) (hd : d ≤ 255) :
    hexToRgb (encode { r := some (a : ℚ), g := some (b : ℚ), b := some (d : ℚ) }) =
      { r := some (a : ℚ), g := some (b : ℚ), b := some (d : ℚ) } := by
  obtain ⟨x1, y1, e1, -, -, p1⟩ := hexPair_spec a ha
  obtain ⟨x2, y2, e2, -, -, p2⟩ := hexPair_spec b hb
  obtain ⟨x3, y3, e3, -, -, p3⟩ := hexPair_spec d hd
  have hdata : (encode { r := some (a : ℚ), g := some (b : ℚ), b := some (d : ℚ) }).data =
      ['#', x1, y1, x2, y2, x3, y3] := by
    simp only [encode, toHex_natCast, e1, e2, e3]
    rfl
  have he : (encode { r := some (a : ℚ), g := some (b : ℚ), b := some (d : ℚ) }).data.erase '#' =
      [x1, y1, x2, y2, x3, y3] := by
    rw [hdata]; exact List.erase_cons_head _ _
  simp [hexToRgb, he, substr, parseInt16, p1, p2, p3]

theorem validColors_singleton (c : String) (hc : isValidColor c = true) :
    validColors [c] = [c] := by
  simp [validColors, hc]

theorem validWeights_singleton (w : ℚ) (hw : 0 < w) : validWeights [w] = [w] := by
  simp [validWeights, hw]

theorem selectedFrom_singleton (w : ℚ) (hw : 0 < w) : selectedFrom 0 [w] = [((0 : ℤ), w)] := by
  simp [selectedFrom, hw]

theorem normalize_single (a : ℕ) (w : ℚ) (hw : 0 < w) :
    normalize (addWeighted (some 0) (some (a : ℚ)) w) (0 + w) = some (a : ℚ) := by
  have h : (0 + (a : ℚ) * w) / (0 + w) = (a : ℚ) := by
    field_simp
  simp only [normalize, addWeighted, Option.some_bind, Option.map_some', h, mathRound_natCast,
    Int.cast_natCast]

theorem blend_single (a : ℕ) (w : ℚ) (hw : 0 < w) :
    blend (some 255) (some (a : ℚ)) (w / (0 + w)) = some (a : ℚ) := by
  have h : (255 : ℚ) * (1 - w / (0 + w)) + (a : ℚ) * (w / (0 + w)) = (a : ℚ) := by
    field_simp
  simp only [blend, Option.some_bind, Option.map_some', h, mathRound_natCast, Int.cast_natCast]

/-- In exact arithmetic, for a single valid colour with a positive weight both
mixers return the hex encoding of the three channels decoded from the colour, and decoding that
result gives the channels of the colour again, whatever the weight. -/
theorem single_colour_round_trip (c : String) (w : ℚ)
    (hc : isValidColor c = true) (hw : 0 < w) :
    mixColorsWithWeights [c] [w] = .ok (encode (hexToRgb c)) ∧
      mixColorsSubtractive [c] [w] = .ok (encode (hexToRgb c)) ∧
      hexToRgb (encode (hexToRgb c)) = hexToRgb c := by
  obtain ⟨⟨a, ha, hr⟩, ⟨b, hb, hg⟩, ⟨d, hd, hbl⟩⟩ := hexToRgb_good c hc
  have hrgb : hexToRgb c = { r := some (a : ℚ), g := some (b : ℚ), b := some (d : ℚ) } := by
    cases hcol : hexToRgb c with
    | mk r g bl =>
      rw [hcol] at hr hg hbl
      simp only at hr hg hbl
      rw [hr, hg, hbl]
  have hne : ([c] : List String) ≠ [] := by simp
  have hnw : ([w] : List ℚ) ≠ [] := by simp
  refine ⟨?_, ?_, ?_⟩
  · rw [mixColorsWithWeights_eq, validColors_singleton c hc, validWeights_singleton w hw,
      selectedFrom_singleton w hw, if_neg hne, if_neg hnw]
    have hpos : (0 : ℚ) + w > 0 := by linarith
    simp only [weightedLoop, List.foldlM_cons, List.foldlM_nil, weightedStep, jsIndex,
      List.map_cons, List.map_nil, weightedInit, weightedFinish, encode, le_refl, if_true,
      Int.toNat_zero, List.getElem?_cons_zero, bind, Except.bind, pure, Except.pure, hpos,
      hr, hg, hbl, normalize_single _ w hw, clamp_natCast _ ha, clamp_natCast _ hb, clamp_natCast _ hd]
  · rw [mixColorsSubtractive_eq, validColors_singleton c hc, validWeights_singleton w hw,
      selectedFrom_singleton w hw, if_neg hne, if_neg hnw]
    simp only [subtractiveLoop, List.foldlM_cons, List.foldlM_nil, subtractiveStep, jsIndex,
      subtractiveInit, subtractiveFinish, encode, le_refl, if_true,
      Int.toNat_zero, List.getElem?_cons_zero, bind, Except.bind, pure, Except.pure,
      hr, hg, hbl, blend_single _ w hw, clamp_natCast _ ha, clamp_natCast _ hb, clamp_natCast _ hd]
  · rw [hrgb]
    exact hexToRgb_encode a b d ha hb hd

/-! ### The shape of a returned string -/

theorem jsIndex_mem {α : Type} (xs : List α) (i : ℤ) (x : α) (h : jsIndex xs i = some x) :
    x ∈ xs := by
  unfold jsIndex at h
  split at h
  · exact List.getElem?_mem h
  · exact absurd h (by simp)

theorem isValidColor_of_mem_validColors (colors : List String) (c : String)
    (h : c ∈ validColors colors) : isValidColor c = true := by
  unfold validColors at h
  exact (List.mem_filter.1 h).2

theorem good_of_mem_rgbColors (colors : List String) (c : RGB)
    (h : c ∈ (validColors colors).map hexToRgb) : c.Good := by
  obtain ⟨s, hs, rfl⟩ := List.mem_map.1 h
  exact hexToRgb_good s (isValidColor_of_mem_validColors colors s hs)

theorem addWeighted_defined (acc channel : Option ℚ) (w : ℚ)
    (ha : ∃ x, acc = some x) (hc : IsChannel channel) :
    ∃ x, addWeighted acc channel w = some x := by
  obtain ⟨x, rfl⟩ := ha
  obtain ⟨n, -, rfl⟩ := hc
  exact ⟨_, rfl⟩

theorem blend_defined (acc channel : Option ℚ) (t : ℚ)
    (ha : ∃ x, acc = some x) (hc : IsChannel channel) :
    ∃ x, blend acc channel t = some x := by
  obtain ⟨x, rfl⟩ := ha
  obtain ⟨n, -, rfl⟩ := hc
  exact ⟨_, rfl⟩

theorem weightedStep_defined (rgbColors : List RGB) (hgood : ∀ c ∈ rgbColors, c.Good)
    (st st1 : MixState) (p : ℤ × ℚ) (hst : st.Defined)
    (h : weightedStep rgbColors st p = .ok st1) : st1.Defined := by
  unfold weightedStep at h
  cases hj : jsIndex rgbColors p.1 with
  | none => rw [hj] at h; exact absurd h (by simp)
  | some c =>
    rw [hj] at h
    simp only [Except.ok.injEq] at h
    obtain ⟨gr, gg, gb⟩ := hgood c (jsIndex_mem _ _ _ hj)
    rw [← h]
    exact ⟨addWeighted_defined _ _ _ hst.1 gr, addWeighted_defined _ _ _ hst.2.1 gg,
      addWeighted_defined _ _ _ hst.2.2 gb⟩

theorem subtractiveStep_defined (vc : List String) (hvalid : ∀ c ∈ vc, isValidColor c = true)
    (st st1 : MixState) (p : ℤ × ℚ) (hst : st.Defined)
    (h : subtractiveStep vc st p = .ok st1) : st1.Defined := by
  unfold subtractiveStep at h
  cases hj : jsIndex vc p.1 with
  | none => rw [hj] at h; exact absurd h (by simp)
  | some c =>
    rw [hj] at h
    simp only [Except.ok.injEq] at h
    obtain ⟨gr, gg, gb⟩ := hexToRgb_good c (hvalid c (jsIndex_mem _ _ _ hj))
    rw [← h]
    exact ⟨blend_defined _ _ _ hst.1 gr, blend_defined _ _ _ hst.2.1 gg,
      blend_defined _ _ _ hst.2.2 gb⟩

theorem foldlM_defined (step : MixState → ℤ × ℚ → Except JSError MixState)
    (hstep : ∀ st st1 p, st.Defined → step st p = .ok st1 → st1.Defined)
    (pairs : List (ℤ × ℚ)) (st st1 : MixState) (hst : st.Defined)
    (h : pairs.foldlM step st = .ok st1) : st1.Defined := by
  induction pairs generalizing st with
  | nil =>
    simp only [List.foldlM_nil, pure, Except.pure, Except.ok.injEq] at h
    rw [← h]; exact hst
  | cons p ps ih =>
    rw [List.foldlM_cons] at h
    cases hs : step st p with
    | error e => rw [hs] at h; exact absurd h (by simp [bind, Except.bind])
    | ok st2 =>
      rw [hs] at h
      exact ih st2 (hstep st st2 p hst hs) h

theorem weightedInit_defined : weightedInit.Defined :=
  ⟨⟨_, rfl⟩, ⟨_, rfl⟩, ⟨_, rfl⟩⟩

theorem subtractiveInit_defined : subtractiveInit.Defined :=
  ⟨⟨_, rfl⟩, ⟨_, rfl⟩, ⟨_, rfl⟩⟩

theorem wellFormed_white : WellFormed "#FFFFFF" := by
  constructor <;> decide

theorem wellFormed_of_pairs (x1 y1 x2 y2 x3 y3 : Char)
    (h1 : isHexDigit x1 = true) (h2 : isHexDigit y1 = true) (h3 : isHexDigit x2 = true)
    (h4 : isHexDigit y2 = true) (h5 : isHexDigit x3 = true) (h6 : isHexDigit y3 = true) :
    WellFormed ("#" ++ String.mk [x1, y1] ++ String.mk [x2, y2] ++ String.mk [x3, y3]) := by
  have hs : "#" ++ String.mk [x1, y1] ++ String.mk [x2, y2] ++ String.mk [x3, y3] =
      String.mk ['#', x1, y1, x2, y2, x3, y3] := rfl
  rw [hs]
  constructor
  · rfl
  · simp [isValidColor, h1, h2, h3, h4, h5, h6]

theorem wellFormed_clamped (r g b : ℚ) :
    WellFormed ("#" ++ toHex (clamp (some r)) ++ toHex (clamp (some g)) ++
      toHex (clamp (some b))) := by
  obtain ⟨x1, y1, e1, h1, h2⟩ := toHex_clamp r
  obtain ⟨x2, y2, e2, h3, h4⟩ := toHex_clamp g
  obtain ⟨x3, y3, e3, h5, h6⟩ := toHex_clamp b
  rw [e1, e2, e3]
  exact wellFormed_of_pairs _ _ _ _ _ _ h1 h2 h3 h4 h5 h6

theorem weightedFinish_wellFormed (st : MixState) (hst : st.Defined) :
    WellFormed (weightedFinish st) := by
  obtain ⟨⟨r, hr⟩, ⟨g, hg⟩, ⟨b, hb⟩⟩ := hst
  unfold weightedFinish
  by_cases ht : st.totalWeight > 0
  · rw [if_pos ht]
    simp only [hr, hg, hb, normalize, Option.map_some']
    exact wellFormed_clamped _ _ _
  · rw [if_neg ht]; exact wellFormed_white

theorem subtractiveFinish_wellFormed (st : MixState) (hst : st.Defined) :
    WellFormed (subtractiveFinish st) := by
  obtain ⟨⟨r, hr⟩, ⟨g, hg⟩, ⟨b, hb⟩⟩ := hst
  unfold subtractiveFinish
  rw [hr, hg, hb]
  exact wellFormed_clamped _ _ _

theorem weightedLoop_wellFormed (colors : List String) (pairs : List (ℤ × ℚ)) (s : String)
    (h : weightedLoop ((validColors colors).map hexToRgb) pairs = .ok s) : WellFormed s := by
  unfold weightedLoop at h
  cases hf : pairs.foldlM (weightedStep ((validColors colors).map hexToRgb)) weightedInit with
  | error e => rw [hf] at h; exact absurd h (by simp)
  | ok st =>
    rw [hf] at h
    simp only [Except.ok.injEq] at h
    rw [← h]
    apply weightedFinish_wellFormed
    exact foldlM_defined _
      (fun st st1 p => weightedStep_defined _ (good_of_mem_rgbColors colors) st st1 p)
      pairs _ _ weightedInit_defined hf

theorem subtractiveLoop_wellFormed (colors : List String) (pairs : List (ℤ × ℚ)) (s : String)
    (h : subtractiveLoop (validColors colors) pairs = .ok s) : WellFormed s := by
  unfold subtractiveLoop at h
  cases hf : pairs.foldlM (subtractiveStep (validColors colors)) subtractiveInit with
  | error e => rw [hf] at h; exact absurd h (by simp)
  | ok st =>
    rw [hf] at h
    simp only [Except.ok.injEq] at h
    rw [← h]
    apply subtractiveFinish_wellFormed
    exact foldlM_defined _
      (fun st st1 p => subtractiveStep_defined _
        (isValidColor_of_mem_validColors colors) st st1 p)
      pairs _ _ subtractiveInit_defined hf

theorem mixColorsWithWeights_wellFormed (colors : List String) (weights : List ℚ) (s : String)
    (h : mixColorsWithWeights colors weights = .ok s) : WellFormed s := by
  rw [mixColorsWithWeights_eq] at h
  split at h
  · simp only [Except.ok.injEq] at h; rw [← h]; exact wellFormed_white
  · split at h
    · simp only [Except.ok.injEq] at h; rw [← h]; exact wellFormed_white
    · exact weightedLoop_wellFormed colors _ s h

theorem mixColorsSubtractive_wellFormed (colors : List String) (weights : List ℚ) (s : String)
    (h : mixColorsSubtractive colors weights = .ok s) : WellFormed s := by
  rw [mixColorsSubtractive_eq] at h
  split at h
  · simp only [Except.ok.injEq] at h; rw [← h]; exact wellFormed_white
  · split at h
    · simp only [Except.ok.injEq] at h; rw [← h]; exact wellFormed_white
    · exact subtractiveLoop_wellFormed colors _ s h

/-- In exact arithmetic, every string returned by `mixColorsWithWeights` or by
`mixColorsSubtractive` has exactly seven characters and matches the colour
pattern: `#` followed by six hexadecimal digits, two per channel. -/
theorem returned_string_is_hex_colour (colors : List String) (weights : List ℚ) (s : String)
    (h : mixColorsWithWeights colors weights = .ok s ∨
      mixColorsSubtractive colors weights = .ok s) :
    s.length = 7 ∧ isValidColor s = true := by
  rcases h with h | h
  · exact mixColorsWithWeights_wellFormed colors weights s h
  · exact mixColorsSubtractive_wellFormed colors weights s h

/-! ### Red and blue in either order -/

theorem subtractiveStep_eq (vc : List String) (st : MixState) (p : ℤ × ℚ) :
    subtractiveStep vc st p =
      match jsIndex vc p.1 with
      | none => .error .typeError
      | some color => .ok (subtractiveUpdate st color p.2) := rfl

theorem red_then_blue :
    subtractiveUpdate (subtractiveUpdate subtractiveInit "#FF0000" 1) "#0000FF" 1 =
      { totalWeight := 2, r := some 128, g := some 0, b := some 128 } := by
  decide!

theorem blue_then_red :
    subtractiveUpdate (subtractiveUpdate subtractiveInit "#0000FF" 1) "#FF0000" 1 =
      { totalWeight := 2, r := some 128, g := some 0, b := some 128 } := by
  decide!

theorem subtractiveLoop_two_then_rest (first second : String) (tail : List String)
    (rest : List (ℤ × ℚ)) :
    subtractiveLoop (first :: second :: tail) (((0 : ℤ), (1 : ℚ)) :: ((1 : ℤ), (1 : ℚ)) :: rest) =
      match rest.foldlM (subtractiveStep (first :: second :: tail))
          (subtractiveUpdate (subtractiveUpdate subtractiveInit first 1) second 1) with
      | .error e => .error e
      | .ok st => .ok (subtractiveFinish st) := by
  simp [subtractiveLoop, List.foldlM_cons, subtractiveStep_eq, jsIndex, bind, Except.bind]

theorem subtractiveStep_third (first second : String) (tail : List String) (st : MixState)
    (w : ℚ) :
    subtractiveStep (first :: second :: tail) st ((2 : ℤ), w) =
      match tail[0]? with
      | none => .error .typeError
      | some color => .ok (subtractiveUpdate st color w) := by
  simp [subtractiveStep_eq, jsIndex]

theorem selectedFrom_one_one (w : ℚ) :
    selectedFrom 0 [1, 1, w] =
      ((0 : ℤ), (1 : ℚ)) :: ((1 : ℤ), (1 : ℚ)) :: (if w > 0 then [((2 : ℤ), w)] else []) := by
  by_cases hw : w > 0 <;> simp [selectedFrom, hw]

theorem validColors_two_valid (first second x : String)
    (h1 : isValidColor first = true) (h2 : isValidColor second = true) :
    validColors [first, second, x] =
      first :: second :: (if isValidColor x = true then [x] else []) := by
  by_cases hx : isValidColor x = true <;> simp [validColors, h1, h2, hx]

theorem mixColorsSubtractive_of_ne (colors : List String) (weights : List ℚ)
    (hc : validColors colors ≠ []) (hw : validWeights weights ≠ []) :
    mixColorsSubtractive colors weights =
      subtractiveLoop (validColors colors) (selectedFrom 0 weights) := by
  rw [mixColorsSubtractive_eq, if_neg hc, if_neg hw]

theorem mixColorsWithWeights_of_ne (colors : List String) (weights : List ℚ)
    (hc : validColors colors ≠ []) (hw : validWeights weights ≠ []) :
    mixColorsWithWeights colors weights =
      weightedLoop ((validColors colors).map hexToRgb) (selectedFrom 0 weights) := by
  rw [mixColorsWithWeights_eq, if_neg hc, if_neg hw]

/-- Red then blue, or blue then red, with weight 1 each: whatever comes third,
the two calls of `mixColorsSubtractive` have the same outcome. -/
theorem red_blue_order_irrelevant (x : String) (w : ℚ) :
    mixColorsSubtractive ["#FF0000", "#0000FF", x] [1, 1, w] =
      mixColorsSubtractive ["#0000FF", "#FF0000", x] [1, 1, w] := by
  have hw : validWeights [1, 1, w] ≠ [] := by simp [validWeights]
  have h1 : validColors ["#FF0000", "#0000FF", x] =
      "#FF0000" :: "#0000FF" :: (if isValidColor x = true then [x] else []) :=
    validColors_two_valid _ _ x (by decide) (by decide)
  have h2 : validColors ["#0000FF", "#FF0000", x] =
      "#0000FF" :: "#FF0000" :: (if isValidColor x = true then [x] else []) :=
    validColors_two_valid _ _ x (by decide) (by decide)
  rw [mixColorsSubtractive_of_ne _ _ (by rw [h1]; simp) hw,
    mixColorsSubtractive_of_ne _ _ (by rw [h2]; simp) hw, h1, h2,
    selectedFrom_one_one, subtractiveLoop_two_then_rest, subtractiveLoop_two_then_rest,
    red_then_blue, blue_then_red]
  by_cases hpos : w > 0
  · simp only [hpos, if_true, List.foldlM_cons, List.foldlM_nil, subtractiveStep_third]
  · simp only [hpos, if_false, List.foldlM_nil]

/-! ### When the loops run to their end -/

theorem selectedFrom_index_range (n : ℕ) (ws : List ℚ) :
    ∀ p ∈ selectedFrom n ws, (n : ℤ) ≤ p.1 ∧ p.1 < (n : ℤ) + ws.length := by
  induction ws generalizing n with
  | nil => intro p hp; simp [selectedFrom] at hp
  | cons w ws ih =>
    intro p hp
    have hrec : ∀ q ∈ selectedFrom (n + 1) ws,
        (n : ℤ) ≤ q.1 ∧ q.1 < (n : ℤ) + (w :: ws).length := by
      intro q hq
      have := ih (n + 1) q hq
      simp only [List.length_cons]
      push_cast at this ⊢
      omega
    by_cases hw : w > 0
    · simp only [selectedFrom, hw, if_true, List.mem_cons] at hp
      rcases hp with rfl | hp
      · simp only [List.length_cons]
        push_cast
        omega
      · exact hrec p hp
    · simp only [selectedFrom, hw, if_false] at hp
      exact hrec p hp

theorem jsIndex_some_of_lt {α : Type} (xs : List α) (i : ℤ) (h0 : 0 ≤ i)
    (h1 : i < xs.length) : ∃ x, jsIndex xs i = some x := by
  have hlt : i.toNat < xs.length := by omega
  exact ⟨xs[i.toNat], by rw [jsIndex, if_pos h0, List.getElem?_eq_getElem hlt]⟩

/-- The loop of `mixColorsWithWeights` runs to its end when every selected
index lies inside the list of decoded colours. -/
theorem foldlM_weightedStep_ok (rgbColors : List RGB) (pairs : List (ℤ × ℚ))
    (h : ∀ p ∈ pairs, 0 ≤ p.1 ∧ p.1 < rgbColors.length) (st : MixState) :
    ∃ st1, pairs.foldlM (weightedStep rgbColors) st = .ok st1 := by
  induction pairs generalizing st with
  | nil => exact ⟨st, rfl⟩
  | cons p ps ih =>
    obtain ⟨c, hc⟩ := jsIndex_some_of_lt rgbColors p.1 (h p (List.mem_cons_self _ _)).1
      (h p (List.mem_cons_self _ _)).2
    rw [List.foldlM_cons]
    simp only [weightedStep, hc, bind, Except.bind]
    exact ih (fun q hq => h q (List.mem_cons_of_mem _ hq)) _

/-- The loop of `mixColorsSubtractive` runs to its end when every selected
index lies inside the list of valid colours. -/
theorem foldlM_subtractiveStep_ok (vc : List String) (pairs : List (ℤ × ℚ))
    (h : ∀ p ∈ pairs, 0 ≤ p.1 ∧ p.1 < vc.length) (st : MixState) :
    ∃ st1, pairs.foldlM (subtractiveStep vc) st = .ok st1 := by
  induction pairs generalizing st with
  | nil => exact ⟨st, rfl⟩
  | cons p ps ih =>
    obtain ⟨c, hc⟩ := jsIndex_some_of_lt vc p.1 (h p (List.mem_cons_self _ _)).1
      (h p (List.mem_cons_self _ _)).2
    rw [List.foldlM_cons]
    simp only [subtractiveStep, hc, bind, Except.bind]
    exact ih (fun q hq => h q (List.mem_cons_of_mem _ hq)) _

theorem validColors_of_all_valid (colors : List String)
    (h : ∀ c ∈ colors, isValidColor c = true) : validColors colors = colors := by
  unfold validColors
  exact List.filter_eq_self.2 h

/-- Both mixers return a string when every colour is valid and there are no
more weights than colours: no index can then leave the list of valid
colours. -/
theorem mixers_return_on_valid_colours (colors : List String) (weights : List ℚ)
    (hvalid : ∀ c ∈ colors, isValidColor c = true) (hlen : weights.length ≤ colors.length) :
    (∃ s, mixColorsWithWeights colors weights = .ok s) ∧
      ∃ s, mixColorsSubtractive colors weights = .ok s := by
  have hvc := validColors_of_all_valid colors hvalid
  have hrange : ∀ p ∈ selectedFrom 0 weights, 0 ≤ p.1 ∧ p.1 < (colors.length : ℤ) := by
    intro p hp
    have := selectedFrom_index_range 0 weights p hp
    push_cast at this
    omega
  rw [mixColorsWithWeights_eq, mixColorsSubtractive_eq, hvc]
  constructor
  · by_cases hc : colors = []
    · rw [if_pos hc]; exact ⟨_, rfl⟩
    · rw [if_neg hc]
      by_cases hw : validWeights weights = []
      · rw [if_pos hw]; exact ⟨_, rfl⟩
      · rw [if_neg hw]
        obtain ⟨st1, h1⟩ := foldlM_weightedStep_ok (colors.map hexToRgb)
          (selectedFrom 0 weights) (by simpa using hrange) weightedInit
        exact ⟨weightedFinish st1, by rw [weightedLoop, h1]⟩
  · by_cases hc : colors = []
    · rw [if_pos hc]; exact ⟨_, rfl⟩
    · rw [if_neg hc]
      by_cases hw : validWeights weights = []
      · rw [if_pos hw]; exact ⟨_, rfl⟩
      · rw [if_neg hw]
        obtain ⟨st1, h1⟩ := foldlM_subtractiveStep_ok colors
          (selectedFrom 0 weights) hrange subtractiveInit
        exact ⟨subtractiveFinish st1, by rw [subtractiveLoop, h1]⟩

theorem subtractiveStep_totalWeight (vc : List String) (st st1 : MixState) (p : ℤ × ℚ)
    (h : subtractiveStep vc st p = .ok st1) : st1.totalWeight = st.totalWeight + p.2 := by
  rw [subtractiveStep_eq] at h
  cases hj : jsIndex vc p.1 with
  | none => rw [hj] at h; exact absurd h (by simp)
  | some c =>
    rw [hj] at h
    simp only [Except.ok.injEq] at h
    rw [← h]; rfl

/-- The total weight never decreases below zero while the loop of
`mixColorsSubtractive` walks over positive weights, so each pass divides by a
strictly positive `totalWeight`. -/
theorem subtractive_divisor_pos (vc : List String) (st st1 : MixState) (p : ℤ × ℚ)
    (hst : 0 ≤ st.totalWeight) (hp : 0 < p.2) (h : subtractiveStep vc st p = .ok st1) :
    0 < st.totalWeight + p.2 ∧ 0 ≤ st1.totalWeight := by
  rw [subtractiveStep_totalWeight vc st st1 p h]
  constructor <;> linarith

/-! ### The behaviour at concrete inputs -/

/-- C2. The mixers do raise an error: with a malformed colour in front, or with
more weights than colours, a positive weight selects an index past the end of
the list of valid colours and both mixers throw a `TypeError`. -/
theorem mixers_throw_on_index_past_valid_colours :
    mixColorsWithWeights ["red", "#000000"] [0, 1] = .error .typeError ∧
      mixColorsSubtractive ["red", "#000000"] [0, 1] = .error .typeError ∧
      mixColorsWithWeights ["#000000"] [0, 1] = .error .typeError ∧
      mixColorsSubtractive ["#000000"] [0, 1] = .error .typeError := by
  decide!

/-- C3. A malformed colour is not treated as absent together with its weight:
with `red` in front, the weight 1 given to black is applied to white, while on
the lists without the malformed position both mixers return black. -/
theorem malformed_colour_shifts_the_pairing :
    mixColorsWithWeights ["red", "#000000", "#FFFFFF"] [0, 1, 0] = .ok "#ffffff" ∧
      mixColorsWithWeights ["#000000", "#FFFFFF"] [1, 0] = .ok "#000000" ∧
      mixColorsSubtractive ["red", "#000000", "#FFFFFF"] [0, 1, 0] = .ok "#ffffff" ∧
      mixColorsSubtractive ["#000000", "#FFFFFF"] [1, 0] = .ok "#000000" := by
  decide!

/-- C4. With a malformed colour in the list `mixColorsWithWeights` is not
invariant under a permutation of the (colour, weight) pairs: swapping the first
two pairs changes the result from white to black. -/
theorem permutation_changes_result_with_malformed_colour :
    (List.zip ["red", "#000000", "#FFFFFF"] [(0 : ℚ), 1, 0]).Perm
        (List.zip ["#000000", "red", "#FFFFFF"] [(1 : ℚ), 0, 0]) ∧
      mixColorsWithWeights ["red", "#000000", "#FFFFFF"] [0, 1, 0] = .ok "#ffffff" ∧
      mixColorsWithWeights ["#000000", "red", "#FFFFFF"] [1, 0, 0] = .ok "#000000" :=
  ⟨List.Perm.swap _ _ _, by decide!, by decide!⟩

/-- C7, as stated: the call does not return the upper-case string
`#8A5498`. -/
theorem example_mix_is_not_upper_case :
    mixColorsWithWeights ["#2563EB", "#EF4444"] [2, 2] ≠ .ok "#8A5498" := by
  decide!

/-- C7, amended. `mixColorsWithWeights(['#2563EB','#EF4444'], [2,2])` returns
`#8a5498`, in lower-case digits: the channels (37,99,235) and (239,68,68)
average to (138, 83.5, 151.5), rounded half-up to (138,84,152), which are also
the channels of `#8A5498`. -/
theorem example_mix_is_lower_case :
    hexToRgb "#2563EB" = { r := some 37, g := some 99, b := some 235 } ∧
      hexToRgb "#EF4444" = { r := some 239, g := some 68, b := some 68 } ∧
      mixColorsWithWeights ["#2563EB", "#EF4444"] [2, 2] = .ok "#8a5498" ∧
      hexToRgb "#8a5498" = { r := some 138, g := some 84, b := some 152 } ∧
      hexToRgb "#8A5498" = hexToRgb "#8a5498" := by
  decide!

/-- C9. `mixColorsSubtractive` is sensitive to the order of its input: three
distinct valid colours, all with weight 1, give `#020202` in one order and
`#010101` in the reversed order. -/
theorem subtractive_depends_on_order :
    ∃ (colors reordered : List String) (w : ℚ),
      colors.Nodup ∧ (∀ c ∈ colors, isValidColor c = true) ∧ 0 < w ∧
        colors.Perm reordered ∧
        mixColorsSubtractive colors (List.replicate colors.length w) ≠
          mixColorsSubtractive reordered (List.replicate reordered.length w) ∧
        colors = ["#000000", "#010101", "#030303"] ∧ reordered = colors.reverse ∧
        mixColorsSubtractive colors [1, 1, 1] = .ok "#020202" ∧
        mixColorsSubtractive reordered [1, 1, 1] = .ok "#010101" :=
  ⟨["#000000", "#010101", "#030303"], ["#030303", "#010101", "#000000"], 1,
    by decide, by decide, by norm_num,
    (List.reverse_perm ["#000000", "#010101", "#030303"]).symm,
    by decide!, rfl, rfl, by decide!, by decide!⟩

/-- C10, as stated: there is no third colour and weight for which the red/blue
pair and the blue/red pair, with weights 1 and 1, give different results. -/
theorem no_third_step_separates_red_blue :
    ¬ ∃ (x : String) (w : ℚ), isValidColor x = true ∧ 0 < w ∧
        mixColorsSubtractive ["#FF0000", "#0000FF", x] [1, 1, w] ≠
          mixColorsSubtractive ["#0000FF", "#FF0000", x] [1, 1, w] := by
  rintro ⟨x, w, -, -, h⟩
  exact h (red_blue_order_irrelevant x w)

/-- C10, amended. For every third colour and every third weight the two calls
have the same outcome: after red and blue with weight 1 each, in either order,
the accumulator is (128, 0, 128), which alone gives `#800080`. -/
theorem red_blue_pair_gives_same_result_in_both_orders :
    (∀ (x : String) (w : ℚ),
        mixColorsSubtractive ["#FF0000", "#0000FF", x] [1, 1, w] =
          mixColorsSubtractive ["#0000FF", "#FF0000", x] [1, 1, w]) ∧
      mixColorsSubtractive ["#FF0000", "#0000FF"] [1, 1] = .ok "#800080" ∧
      mixColorsSubtractive ["#0000FF", "#FF0000"] [1, 1] = .ok "#800080" :=
  ⟨red_blue_order_irrelevant, by decide!, by decide!⟩

/-! ### Lengths, non-positive weights and colour names at concrete inputs -/

/-- C11. Weights without a paired colour are not ignored: a positive weight past
the end of the colour list makes both mixers throw, while on the lists cut to
the shorter length they return the colour.  Nor is a colour without a paired
weight ignored when a malformed colour stands before it. -/
theorem extra_elements_are_not_ignored :
    mixColorsWithWeights ["#000000"] [1, 1] = .error .typeError ∧
      mixColorsSubtractive ["#000000"] [1, 1] = .error .typeError ∧
      truncateToShorter ["#000000"] [1, 1] = (["#000000"], [1]) ∧
      mixColorsWithWeights ["#000000"] [1] = .ok "#000000" ∧
      mixColorsSubtractive ["#000000"] [1] = .ok "#000000" ∧
      mixColorsWithWeights ["red", "#000000"] [1] = .ok "#000000" ∧
      truncateToShorter ["red", "#000000"] [1] = (["red"], [1]) ∧
      mixColorsWithWeights ["red"] [1] = .ok "#FFFFFF" := by
  decide!

/-- C12. Deleting the positions with a non-positive weight changes the result
when a malformed colour is in the list: one part of white, paired by position,
is mixed as black, while on the lists without the non-positive weights both
mixers return white. -/
theorem dropping_non_positive_weights_changes_result :
    mixColorsWithWeights ["oops", "#FFFFFF", "#000000"] [0, 1, 0] = .ok "#000000" ∧
      mixColorsSubtractive ["oops", "#FFFFFF", "#000000"] [0, 1, 0] = .ok "#000000" ∧
      dropNonPositive ["oops", "#FFFFFF", "#000000"] [0, 1, 0] = (["#FFFFFF"], [1]) ∧
      mixColorsWithWeights ["#FFFFFF"] [1] = .ok "#ffffff" ∧
      mixColorsSubtractive ["#FFFFFF"] [1] = .ok "#ffffff" := by
  decide!

theorem colorMap_names_nonempty : ∀ p ∈ colorMap, p.2 ≠ "" := by
  decide

theorem mem_of_lookup_eq_some (l : List (String × String)) (k v : String)
    (h : l.lookup k = some v) : (k, v) ∈ l := by
  induction l with
  | nil => simp [List.lookup] at h
  | cons p ps ih =>
    obtain ⟨a, b⟩ := p
    by_cases hk : k = a
    · subst hk
      simp [List.lookup] at h
      simp [h]
    · have hne : (k == a) = false := by simpa using hk
      simp only [List.lookup, hne] at h
      exact List.mem_cons_of_mem _ (ih h)

/-- Outside the names inherited from `Object.prototype`, `getColorName` is the
exact lookup in the table with `Custom` as the default. -/
theorem getColorName_of_not_inherited (hex : String) (h : hex ∉ objectPrototypeKeys) :
    getColorName hex = .string ((colorMap.lookup hex).getD "Custom") := by
  unfold getColorName
  cases hl : colorMap.lookup hex with
  | none => simp [h]
  | some name =>
    have hmem := mem_of_lookup_eq_some colorMap hex name hl
    simp [colorMap_names_nonempty _ hmem]

/-- C13. `getColorName` does not return `Custom` for every string outside the
table: for a name inherited from `Object.prototype`, such as `constructor`, the
property read finds the inherited function and `||` keeps it.  On the colours
of the spec it returns `Blue` and `Custom`. -/
theorem getColorName_returns_inherited_property :
    getColorName "constructor" = .inherited "constructor" ∧
      getColorName "constructor" ≠ .string "Custom" ∧
      getColorName "toString" ≠ .string "Custom" ∧
      colorMap.lookup "constructor" = none ∧
      getColorName "#2563EB" = .string "Blue" ∧
      getColorName "#123456" = .string "Custom" ∧
      getColorName "#2563eb" = .string "Custom" := by
  decide!

/-! ### Channels stay integers from 0 to 255 -/

theorem mathRound_of_mem_range (x : ℚ) (h0 : 0 ≤ x) (h1 : x ≤ 255) :
    ∃ n : ℕ, n ≤ 255 ∧ mathRound x = (n : ℤ) := by
  have hlo : 0 ≤ mathRound x := by
    unfold mathRound
    apply Int.floor_nonneg.2
    linarith
  have hhi : mathRound x < 256 := by
    unfold mathRound
    rw [Int.floor_lt]
    push_cast
    linarith
  refine ⟨(mathRound x).toNat, by omega, ?_⟩
  rw [Int.toNat_of_nonneg hlo]

theorem isChannel_unchanged (x : Option ℚ) (h : IsChannel x) : Unchanged x := by
  obtain ⟨n, hn, rfl⟩ := h
  refine ⟨clamp_natCast n hn, ?_⟩
  intro q hq
  simp only [Option.some.injEq] at hq
  rw [← hq, mathRound_natCast, Int.cast_natCast]

theorem blend_isChannel (acc channel : Option ℚ) (t : ℚ) (ha : IsChannel acc)
    (hc : IsChannel channel) (h0 : 0 ≤ t) (h1 : t ≤ 1) : IsChannel (blend acc channel t) := by
  obtain ⟨a, ha, rfl⟩ := ha
  obtain ⟨c, hc, rfl⟩ := hc
  have ha1 : (a : ℚ) ≤ 255 := by exact_mod_cast ha
  have hc1 : (c : ℚ) ≤ 255 := by exact_mod_cast hc
  have ha0 : (0 : ℚ) ≤ a := by positivity
  have hc0 : (0 : ℚ) ≤ c := by positivity
  have hlo : 0 ≤ (a : ℚ) * (1 - t) + c * t := by
    have := mul_nonneg ha0 (sub_nonneg.2 h1)
    have := mul_nonneg hc0 h0
    linarith
  have hhi : (a : ℚ) * (1 - t) + c * t ≤ 255 := by
    have h2 : (a : ℚ) * (1 - t) ≤ 255 * (1 - t) :=
      mul_le_mul_of_nonneg_right ha1 (sub_nonneg.2 h1)
    have h3 : (c : ℚ) * t ≤ 255 * t := mul_le_mul_of_nonneg_right hc1 h0
    linarith
  obtain ⟨n, hn, hr⟩ := mathRound_of_mem_range _ hlo hhi
  exact ⟨n, hn, by simp only [blend, Option.some_bind, Option.map_some', hr, Int.cast_natCast]⟩

theorem weightRatio_mem_unit (total w : ℚ) (ht : 0 ≤ total) (hw : 0 < w) :
    0 ≤ w / (total + w) ∧ w / (total + w) ≤ 1 := by
  have hpos : 0 < total + w := by linarith
  constructor
  · exact div_nonneg hw.le hpos.le
  · rw [div_le_one hpos]; linarith

theorem subtractiveStep_byte (vc : List String) (hvalid : ∀ c ∈ vc, isValidColor c = true)
    (st st1 : MixState) (p : ℤ × ℚ) (hst : st.Byte ∧ 0 ≤ st.totalWeight) (hp : 0 < p.2)
    (h : subtractiveStep vc st p = .ok st1) : st1.Byte ∧ 0 ≤ st1.totalWeight := by
  rw [subtractiveStep_eq] at h
  cases hj : jsIndex vc p.1 with
  | none => rw [hj] at h; exact absurd h (by simp)
  | some c =>
    rw [hj] at h
    simp only [Except.ok.injEq] at h
    obtain ⟨gr, gg, gb⟩ := hexToRgb_good c (hvalid c (jsIndex_mem _ _ _ hj))
    obtain ⟨h0, h1⟩ := weightRatio_mem_unit st.totalWeight p.2 hst.2 hp
    rw [← h]
    refine ⟨⟨blend_isChannel _ _ _ hst.1.1 gr h0 h1, blend_isChannel _ _ _ hst.1.2.1 gg h0 h1,
      blend_isChannel _ _ _ hst.1.2.2 gb h0 h1⟩, ?_⟩
    simp only [subtractiveUpdate]
    linarith [hst.2]

theorem foldlM_invariant (step : MixState → ℤ × ℚ → Except JSError MixState)
    (Inv : MixState → Prop) (pairs : List (ℤ × ℚ))
    (hstep : ∀ st st1 p, p ∈ pairs → Inv st → step st p = .ok st1 → Inv st1)
    (st st1 : MixState) (hst : Inv st) (h : pairs.foldlM step st = .ok st1) : Inv st1 := by
  induction pairs generalizing st with
  | nil =>
    simp only [List.foldlM_nil, pure, Except.pure, Except.ok.injEq] at h
    rw [← h]; exact hst
  | cons p ps ih =>
    rw [List.foldlM_cons] at h
    cases hs : step st p with
    | error e => rw [hs] at h; exact absurd h (by simp [bind, Except.bind])
    | ok st2 =>
      rw [hs] at h
      exact ih (fun a b q hq => hstep a b q (List.mem_cons_of_mem _ hq)) st2
        (hstep st st2 p (List.mem_cons_self _ _) hst hs) h

theorem subtractiveInit_byte : subtractiveInit.Byte ∧ 0 ≤ subtractiveInit.totalWeight := by
  refine ⟨⟨⟨255, le_refl _, ?_⟩, ⟨255, le_refl _, ?_⟩, ⟨255, le_refl _, ?_⟩⟩, le_refl _⟩ <;>
    simp [subtractiveInit]

/-- C17. In `mixColorsSubtractive`, after every step of the loop that runs
without an index outside the valid colours (the state `st` reached on any
initial part `pre` of the selected pairs), each accumulator channel is an
integer from 0 to 255, so neither the final clamp nor the rounding inside
`toHex` changes it. -/
theorem subtractive_accumulator_stays_in_range (colors : List String) (weights : List ℚ)
    (pre : List (ℤ × ℚ)) (st : MixState)
    (hpre : pre <+: (validColorIndices weights).zip (validWeights weights))
    (hrun : pre.foldlM (subtractiveStep (validColors colors)) subtractiveInit = .ok st) :
    (IsChannel st.r ∧ IsChannel st.g ∧ IsChannel st.b) ∧
      Unchanged st.r ∧ Unchanged st.g ∧ Unchanged st.b := by
  have hpos : ∀ p ∈ pre, 0 < p.2 := by
    intro p hp
    rw [zip_validColorIndices] at hpre
    exact selectedFrom_weight_pos 0 weights p (hpre.subset hp)
  have hinv := foldlM_invariant (subtractiveStep (validColors colors))
    (fun s => s.Byte ∧ 0 ≤ s.totalWeight) pre
    (fun a b q hq ha hab => subtractiveStep_byte _ (isValidColor_of_mem_validColors colors)
      a b q ha (hpos q hq) hab)
    subtractiveInit st subtractiveInit_byte hrun
  exact ⟨hinv.1, isChannel_unchanged _ hinv.1.1, isChannel_unchanged _ hinv.1.2.1,
    isChannel_unchanged _ hinv.1.2.2⟩

theorem subtractive_accumulator_stays_in_range_witness :
    ([((0 : ℤ), (1 : ℚ)), (1, 3)] <+:
        (validColorIndices [1, 3, 0, 2]).zip (validWeights [1, 3, 0, 2]) ∧
      [((0 : ℤ), (1 : ℚ)), (1, 3)].foldlM
          (subtractiveStep (validColors ["#2563EB", "#EF4444", "#22C55E", "#000000"]))
          subtractiveInit =
        .ok { totalWeight := 4, r := some 189, g := some 76, b := some 110 }) ∧
      ((IsChannel (some 189) ∧ IsChannel (some 76) ∧ IsChannel (some 110)) ∧
        Unchanged (some 189) ∧ Unchanged (some 76) ∧ Unchanged (some 110)) :=
  ⟨⟨by decide!, by decide!⟩,
    subtractive_accumulator_stays_in_range ["#2563EB", "#EF4444", "#22C55E", "#000000"]
      [1, 3, 0, 2] [((0 : ℤ), (1 : ℚ)), (1, 3)]
      { totalWeight := 4, r := some 189, g := some 76, b := some 110 }
      (by decide!) (by decide!)⟩

/-! ### The weighted mean lies between 0 and 255 -/

theorem addWeighted_bounded (sum channel : Option ℚ) (total w : ℚ)
    (hs : SumBounded sum total) (hc : IsChannel channel) (hw : 0 < w) :
    SumBounded (addWeighted sum channel w) (total + w) := by
  obtain ⟨x, rfl, hx0, hx1⟩ := hs
  obtain ⟨n, hn, rfl⟩ := hc
  have hn1 : (n : ℚ) ≤ 255 := by exact_mod_cast hn
  have hn0 : (0 : ℚ) ≤ n := by positivity
  refine ⟨x + n * w, rfl, ?_, ?_⟩
  · have := mul_nonneg hn0 hw.le
    linarith
  · have := mul_le_mul_of_nonneg_right hn1 hw.le
    linarith

theorem weightedStep_bounded (rgbColors : List RGB) (hgood : ∀ c ∈ rgbColors, c.Good)
    (st st1 : MixState) (p : ℤ × ℚ) (hst : st.Bounded) (hp : 0 < p.2)
    (h : weightedStep rgbColors st p = .ok st1) : st1.Bounded := by
  unfold weightedStep at h
  cases hj : jsIndex rgbColors p.1 with
  | none => rw [hj] at h; exact absurd h (by simp)
  | some c =>
    rw [hj] at h
    simp only [Except.ok.injEq] at h
    obtain ⟨gr, gg, gb⟩ := hgood c (jsIndex_mem _ _ _ hj)
    obtain ⟨ht, hr, hg, hb⟩ := hst
    rw [← h]
    exact ⟨by simp only; linarith, addWeighted_bounded _ _ _ _ hr gr hp,
      addWeighted_bounded _ _ _ _ hg gg hp, addWeighted_bounded _ _ _ _ hb gb hp⟩

theorem weightedInit_bounded : weightedInit.Bounded := by
  refine ⟨le_refl _, ⟨0, rfl, le_refl _, ?_⟩, ⟨0, rfl, le_refl _, ?_⟩, ⟨0, rfl, le_refl _, ?_⟩⟩ <;>
    simp [weightedInit]

theorem normalize_isChannel (sum : Option ℚ) (total : ℚ) (hs : SumBounded sum total)
    (ht : 0 < total) : IsChannel (normalize sum total) := by
  obtain ⟨x, rfl, hx0, hx1⟩ := hs
  have hlo : 0 ≤ x / total := div_nonneg hx0 ht.le
  have hhi : x / total ≤ 255 := by
    rw [div_le_iff₀ ht]; exact hx1
  obtain ⟨n, hn, hr⟩ := mathRound_of_mem_range _ hlo hhi
  exact ⟨n, hn, by simp only [normalize, Option.map_some', hr, Int.cast_natCast]⟩

theorem weighted_fold_bounded (colors : List String) (weights : List ℚ) (st : MixState)
    (hrun : (selectedFrom 0 weights).foldlM
      (weightedStep ((validColors colors).map hexToRgb)) weightedInit = .ok st) :
    st.Bounded :=
  foldlM_invariant (weightedStep ((validColors colors).map hexToRgb))
    (fun s => s.Bounded) (selectedFrom 0 weights)
    (fun a b q hq ha hab => weightedStep_bounded _ (good_of_mem_rgbColors colors)
      a b q ha (selectedFrom_weight_pos 0 weights q hq) hab)
    weightedInit st weightedInit_bounded hrun

/-- In exact arithmetic: in `mixColorsWithWeights`, when the loop has run without an index
outside the decoded colours and the total weight is positive, each channel
`round(sum / totalWeight)` is an integer from 0 to 255, so neither the clamp
nor the rounding inside `toHex` changes it. -/
theorem weighted_channels_stay_in_range (colors : List String) (weights : List ℚ)
    (st : MixState)
    (hrun : ((validColorIndices weights).zip (validWeights weights)).foldlM
      (weightedStep ((validColors colors).map hexToRgb)) weightedInit = .ok st)
    (hpos : st.totalWeight > 0) :
    (IsChannel (normalize st.r st.totalWeight) ∧ IsChannel (normalize st.g st.totalWeight) ∧
        IsChannel (normalize st.b st.totalWeight)) ∧
      Unchanged (normalize st.r st.totalWeight) ∧ Unchanged (normalize st.g st.totalWeight) ∧
      Unchanged (normalize st.b st.totalWeight) := by
  rw [zip_validColorIndices] at hrun
  obtain ⟨-, hr, hg, hb⟩ := weighted_fold_bounded colors weights st hrun
  have cr := normalize_isChannel _ _ hr hpos
  have cg := normalize_isChannel _ _ hg hpos
  have cb := normalize_isChannel _ _ hb hpos
  exact ⟨⟨cr, cg, cb⟩, isChannel_unchanged _ cr, isChannel_unchanged _ cg,
    isChannel_unchanged _ cb⟩

/-! ### The total weight, and the letter case of a mixed result -/

theorem selectedFrom_map_snd (n : ℕ) (ws : List ℚ) :
    (selectedFrom n ws).map Prod.snd = validWeights ws := by
  induction ws generalizing n with
  | nil => rfl
  | cons w ws ih =>
    unfold validWeights at ih ⊢
    by_cases hw : w > 0
    · simp only [selectedFrom, hw, if_true, List.map_cons]
      rw [List.filter_cons_of_pos (by simpa using hw), ih]
    · simp only [selectedFrom, hw, if_false]
      rw [List.filter_cons_of_neg (by simpa using hw), ih]

theorem weightedStep_totalWeight (rgbColors : List RGB) (st st1 : MixState) (p : ℤ × ℚ)
    (h : weightedStep rgbColors st p = .ok st1) : st1.totalWeight = st.totalWeight + p.2 := by
  unfold weightedStep at h
  cases hj : jsIndex rgbColors p.1 with
  | none => rw [hj] at h; exact absurd h (by simp)
  | some c =>
    rw [hj] at h
    simp only [Except.ok.injEq] at h
    rw [← h]

theorem foldlM_totalWeight (step : MixState → ℤ × ℚ → Except JSError MixState)
    (hstep : ∀ st st1 p, step st p = .ok st1 → st1.totalWeight = st.totalWeight + p.2)
    (pairs : List (ℤ × ℚ)) (st st1 : MixState) (h : pairs.foldlM step st = .ok st1) :
    st1.totalWeight = st.totalWeight + (pairs.map Prod.snd).sum := by
  induction pairs generalizing st with
  | nil =>
    simp only [List.foldlM_nil, pure, Except.pure, Except.ok.injEq] at h
    rw [← h]; simp
  | cons p ps ih =>
    rw [List.foldlM_cons] at h
    cases hs : step st p with
    | error e => rw [hs] at h; exact absurd h (by simp [bind, Except.bind])
    | ok st2 =>
      rw [hs] at h
      rw [ih st2 h, hstep st st2 p hs, List.map_cons, List.sum_cons]
      ring

theorem sum_validWeights_pos (ws : List ℚ) (h : validWeights ws ≠ []) :
    0 < (validWeights ws).sum := by
  apply List.sum_pos _ _ h
  intro w hw
  unfold validWeights at hw
  simpa using (List.mem_filter.1 hw).2

theorem byteLower_all : ∀ n : Fin 256, byteLower n.val = true := by
  decide!

theorem hexPair_lower (n : ℕ) (hn : n ≤ 255) :
    ∃ x y, hexPair n = String.mk [x, y] ∧ isLowerHexDigit x = true ∧
      isLowerHexDigit y = true := by
  have h := byteLower_all ⟨n, by omega⟩
  simp only [byteLower] at h
  split at h
  · rename_i x y heq
    simp only [Bool.and_eq_true] at h
    exact ⟨x, y, String.ext heq, h.1, h.2⟩
  · exact absurd h (by simp)

theorem toHex_clamp_lower (q : ℚ) :
    ∃ x y, toHex (clamp (some q)) = String.mk [x, y] ∧
      isLowerHexDigit x = true ∧ isLowerHexDigit y = true := by
  obtain ⟨n, hn, hr⟩ := mathRound_clamp q
  obtain ⟨x, y, hxy, hx, hy⟩ := hexPair_lower n hn
  refine ⟨x, y, ?_, hx, hy⟩
  rw [← hxy]
  exact toHex_of_round _ n hr

theorem lower_clamped (r g b : ℚ) :
    isLowerHexColor ("#" ++ toHex (clamp (some r)) ++ toHex (clamp (some g)) ++
      toHex (clamp (some b))) = true := by
  obtain ⟨x1, y1, e1, h1, h2⟩ := toHex_clamp_lower r
  obtain ⟨x2, y2, e2, h3, h4⟩ := toHex_clamp_lower g
  obtain ⟨x3, y3, e3, h5, h6⟩ := toHex_clamp_lower b
  rw [e1, e2, e3]
  have hs : "#" ++ String.mk [x1, y1] ++ String.mk [x2, y2] ++ String.mk [x3, y3] =
      String.mk ['#', x1, y1, x2, y2, x3, y3] := rfl
  rw [hs]
  simp [isLowerHexColor, h1, h2, h3, h4, h5, h6]

theorem weightedLoop_lower (colors : List String) (weights : List ℚ) (s : String)
    (hw : validWeights weights ≠ [])
    (h : weightedLoop ((validColors colors).map hexToRgb) (selectedFrom 0 weights) = .ok s) :
    isLowerHexColor s = true := by
  unfold weightedLoop at h
  cases hf : (selectedFrom 0 weights).foldlM
      (weightedStep ((validColors colors).map hexToRgb)) weightedInit with
  | error e => rw [hf] at h; exact absurd h (by simp)
  | ok st =>
    rw [hf] at h
    simp only [Except.ok.injEq] at h
    have htot := foldlM_totalWeight _ (weightedStep_totalWeight _) _ _ _ hf
    rw [selectedFrom_map_snd] at htot
    have hpos : st.totalWeight > 0 := by
      rw [htot]
      have := sum_validWeights_pos weights hw
      simp only [weightedInit]
      linarith
    obtain ⟨⟨r, hr⟩, ⟨g, hg⟩, ⟨b, hb⟩⟩ := foldlM_defined _
      (fun st st1 p => weightedStep_defined _ (good_of_mem_rgbColors colors) st st1 p)
      _ _ _ weightedInit_defined hf
    rw [← h]
    unfold weightedFinish
    rw [if_pos hpos]
    simp only [hr, hg, hb, normalize, Option.map_some']
    exact lower_clamped _ _ _

theorem subtractiveLoop_lower (colors : List String) (pairs : List (ℤ × ℚ)) (s : String)
    (h : subtractiveLoop (validColors colors) pairs = .ok s) :
    isLowerHexColor s = true := by
  unfold subtractiveLoop at h
  cases hf : pairs.foldlM (subtractiveStep (validColors colors)) subtractiveInit with
  | error e => rw [hf] at h; exact absurd h (by simp)
  | ok st =>
    rw [hf] at h
    simp only [Except.ok.injEq] at h
    obtain ⟨⟨r, hr⟩, ⟨g, hg⟩, ⟨b, hb⟩⟩ := foldlM_defined _
      (fun st st1 p => subtractiveStep_defined _
        (isValidColor_of_mem_validColors colors) st st1 p)
      _ _ _ subtractiveInit_defined hf
    rw [← h]
    unfold subtractiveFinish
    rw [hr, hg, hb]
    exact lower_clamped _ _ _

theorem validColors_ne_nil (colors : List String)
    (h : ∃ c ∈ colors, isValidColor c = true) : validColors colors ≠ [] := by
  obtain ⟨c, hc, hv⟩ := h
  intro hnil
  have : c ∈ validColors colors := List.mem_filter.2 ⟨hc, hv⟩
  rw [hnil] at this
  exact absurd this (List.not_mem_nil c)

theorem validWeights_ne_nil (weights : List ℚ) (h : ∃ w ∈ weights, 0 < w) :
    validWeights weights ≠ [] := by
  obtain ⟨w, hw, hp⟩ := h
  intro hnil
  have : w ∈ validWeights weights := List.mem_filter.2 ⟨hw, by simpa using hp⟩
  rw [hnil] at this
  exact absurd this (List.not_mem_nil w)

/-- In exact arithmetic, with at least one valid colour and one positive weight,
every string a mixer returns is `#` followed by six characters of `[0-9a-f]`: the letters are
lower case, so the string is never the upper-case fallback `#FFFFFF`.  The
single colour `#FFFFFF` with weight 1 is returned as `#ffffff`. -/
theorem mixed_result_is_lower_case (colors : List String) (weights : List ℚ) (s : String)
    (hc : ∃ c ∈ colors, isValidColor c = true) (hw : ∃ w ∈ weights, 0 < w)
    (h : mixColorsWithWeights colors weights = .ok s ∨
      mixColorsSubtractive colors weights = .ok s) :
    isLowerHexColor s = true ∧ s ≠ "#FFFFFF" ∧ isLowerHexColor "#FFFFFF" = false ∧
      mixColorsWithWeights ["#FFFFFF"] [1] = .ok "#ffffff" ∧
      mixColorsSubtractive ["#FFFFFF"] [1] = .ok "#ffffff" := by
  have hvc := validColors_ne_nil colors hc
  have hvw := validWeights_ne_nil weights hw
  have hlow : isLowerHexColor s = true := by
    rcases h with h | h
    · rw [mixColorsWithWeights_of_ne colors weights hvc hvw] at h
      exact weightedLoop_lower colors weights s hvw h
    · rw [mixColorsSubtractive_of_ne colors weights hvc hvw] at h
      exact subtractiveLoop_lower colors _ s h
  refine ⟨hlow, ?_, by decide, by decide!, by decide!⟩
  intro hs
  rw [hs] at hlow
  exact absurd hlow (by decide)

/-! ### The weighted mean that `mixColorsWithWeights` computes -/

theorem positivePositions_cons (w : ℚ) (ws : List ℚ) :
    positivePositions (w :: ws) =
      if w > 0 then 0 :: (positivePositions ws).map Nat.succ
      else (positivePositions ws).map Nat.succ := by
  unfold positivePositions
  rw [List.length_cons, List.range_succ_eq_map, List.filter_cons, List.filter_map]
  have hfun : ((fun i => decide ((w :: ws).getD i 0 > 0)) ∘ Nat.succ) =
      fun i => decide (ws.getD i 0 > 0) := by
    funext i
    simp [List.getD_cons_succ]
  rw [hfun]
  simp [List.getD_cons_zero]

theorem selectedFrom_eq_map (n : ℕ) (ws : List ℚ) :
    selectedFrom n ws =
      (positivePositions ws).map fun i => (((n + i : ℕ) : ℤ), ws.getD i 0) := by
  induction ws generalizing n with
  | nil => rfl
  | cons w ws ih =>
    have hmap : ((positivePositions ws).map Nat.succ).map
        (fun i => (((n + i : ℕ) : ℤ), (w :: ws).getD i 0)) =
        (positivePositions ws).map fun i => (((n + 1 + i : ℕ) : ℤ), ws.getD i 0) := by
      rw [List.map_map]
      apply List.map_congr_left
      intro i _
      simp only [Function.comp, List.getD_cons_succ, Prod.mk.injEq, and_true]
      congr 1
      omega
    rw [positivePositions_cons]
    by_cases hw : w > 0
    · simp only [selectedFrom, hw, if_true, List.map_cons, hmap, ih (n + 1)]
      simp
    · simp only [selectedFrom, hw, if_false, hmap, ih (n + 1)]

theorem foldlM_weightedStep_sums (rgbColors : List RGB) (hgood : ∀ c ∈ rgbColors, c.Good)
    (pairs : List (ℤ × ℚ)) (hin : ∀ p ∈ pairs, 0 ≤ p.1 ∧ p.1 < rgbColors.length)
    (t x y z : ℚ) :
    pairs.foldlM (weightedStep rgbColors)
        { totalWeight := t, r := some x, g := some y, b := some z } =
      .ok (weightedSums rgbColors t x y z pairs) := by
  induction pairs generalizing t x y z with
  | nil => simp [weightedSums, pure, Except.pure]
  | cons p ps ih =>
    obtain ⟨c, hc⟩ := jsIndex_some_of_lt rgbColors p.1 (hin p (List.mem_cons_self _ _)).1
      (hin p (List.mem_cons_self _ _)).2
    obtain ⟨⟨a, -, ha⟩, ⟨b, -, hb⟩, ⟨d, -, hd⟩⟩ := hgood c (jsIndex_mem _ _ _ hc)
    rw [List.foldlM_cons]
    simp only [weightedStep, hc, bind, Except.bind, addWeighted, ha, hb, hd, Option.some_bind,
      Option.map_some']
    rw [ih (fun q hq => hin q (List.mem_cons_of_mem _ hq))]
    simp only [weightedSums, List.map_cons, List.sum_cons, channelOf, hc, Option.some_bind, ha,
      hb, hd, Option.getD_some, add_assoc]

theorem channelOf_map_hexToRgb (ch : RGB → Option ℚ) (V : List String) (i : ℕ) :
    channelOf ch (V.map hexToRgb) (i : ℤ) = channelAt ch V i := by
  simp only [channelOf, channelAt, jsIndex, Int.natCast_nonneg, if_true, Int.toNat_ofNat,
    List.getElem?_map]
  cases V[i]? <;> rfl

theorem selected_weight_sum (ws : List ℚ) :
    ((selectedFrom 0 ws).map Prod.snd).sum = positiveWeightSum ws := by
  rw [selectedFrom_eq_map, List.map_map]
  rfl

theorem selected_channel_sum (ch : RGB → Option ℚ) (V : List String) (ws : List ℚ) :
    ((selectedFrom 0 ws).map fun p => channelOf ch (V.map hexToRgb) p.1 * p.2).sum =
      pairedChannelSum ch V ws := by
  rw [selectedFrom_eq_map, List.map_map]
  unfold pairedChannelSum
  congr 1
  apply List.map_congr_left
  intro i _
  simp only [Function.comp, Nat.zero_add, channelOf_map_hexToRgb]
  ring
theorem mem_positivePositions (ws : List ℚ) (i : ℕ) :
    i ∈ positivePositions ws ↔ i < ws.length ∧ ws.getD i 0 > 0 := by
  simp [positivePositions]

theorem selectedFrom_in_range (ws : List ℚ) (len : ℕ)
    (hrange : ∀ i, i < ws.length → ws.getD i 0 > 0 → i < len) :
    ∀ p ∈ selectedFrom 0 ws, 0 ≤ p.1 ∧ p.1 < (len : ℤ) := by
  intro p hp
  rw [selectedFrom_eq_map, List.mem_map] at hp
  obtain ⟨i, hi, rfl⟩ := hp
  obtain ⟨h1, h2⟩ := (mem_positivePositions ws i).1 hi
  have := hrange i h1 h2
  simp only [Nat.zero_add]
  omega

theorem normalize_weightedSums (ch : RGB → Option ℚ) (V : List String) (ws : List ℚ) :
    normalize
        (some (0 + ((selectedFrom 0 ws).map fun p =>
          channelOf ch (V.map hexToRgb) p.1 * p.2).sum))
        (0 + ((selectedFrom 0 ws).map Prod.snd).sum) =
      some ((mathRound (pairedMean ch V ws) : ℤ) : ℚ) := by
  rw [selected_channel_sum, selected_weight_sum]
  simp only [normalize, Option.map_some', zero_add, pairedMean]

/-- In exact arithmetic: when every index `i` with `weights[i] > 0` is smaller
than the number of valid colours, and there is such an index, `mixColorsWithWeights` returns the
hex encoding of the three channels round-half-up(sum of `weights[i]` times the
channel of `V[i]`, divided by the sum of `weights[i]`), where `V` is the list
of valid colours and `i` ranges over the positions of the original weight list
with a positive weight: the weight at position `i` meets the `i`-th valid
colour. -/
theorem weighted_mix_pairs_weight_with_valid_colour (colors : List String) (weights : List ℚ)
    (hrange : ∀ i, i < weights.length → weights.getD i 0 > 0 →
      i < (validColors colors).length)
    (hex : ∃ i, i < weights.length ∧ weights.getD i 0 > 0) :
    mixColorsWithWeights colors weights =
      .ok (encode
        { r := some ((mathRound (pairedMean RGB.r (validColors colors) weights) : ℤ) : ℚ)
          g := some ((mathRound (pairedMean RGB.g (validColors colors) weights) : ℤ) : ℚ)
          b := some ((mathRound (pairedMean RGB.b (validColors colors) weights) : ℤ) : ℚ) }) := by
  obtain ⟨i, hi, hwi⟩ := hex
  have hvw : validWeights weights ≠ [] := by
    apply validWeights_ne_nil
    refine ⟨weights.getD i 0, ?_, hwi⟩
    rw [List.getD_eq_getElem _ _ hi]
    exact List.getElem_mem _
  have hvc : validColors colors ≠ [] := by
    intro hnil
    have := hrange i hi hwi
    rw [hnil] at this
    exact absurd this (by simp)
  have hin : ∀ p ∈ selectedFrom 0 weights,
      0 ≤ p.1 ∧ p.1 < (((validColors colors).map hexToRgb).length : ℤ) := by
    rw [List.length_map]
    exact selectedFrom_in_range weights _ hrange
  have hrun := foldlM_weightedStep_sums ((validColors colors).map hexToRgb)
    (good_of_mem_rgbColors colors) (selectedFrom 0 weights) hin 0 0 0 0
  have hrun2 : (selectedFrom 0 weights).foldlM
      (weightedStep ((validColors colors).map hexToRgb)) weightedInit =
      .ok (weightedSums ((validColors colors).map hexToRgb) 0 0 0 0 (selectedFrom 0 weights)) :=
    hrun
  have hbounded := weighted_fold_bounded colors weights _ hrun2
  have hpos : (weightedSums ((validColors colors).map hexToRgb) 0 0 0 0
      (selectedFrom 0 weights)).totalWeight > 0 := by
    simp only [weightedSums, selectedFrom_map_snd, zero_add]
    exact sum_validWeights_pos weights hvw
  obtain ⟨-, hr, hg, hb⟩ := hbounded
  have ur := (isChannel_unchanged _ (normalize_isChannel _ _ hr hpos)).1
  have ug := (isChannel_unchanged _ (normalize_isChannel _ _ hg hpos)).1
  have ub := (isChannel_unchanged _ (normalize_isChannel _ _ hb hpos)).1
  rw [mixColorsWithWeights_of_ne colors weights hvc hvw, weightedLoop, hrun2]
  simp only [weightedFinish, if_pos hpos, ur, ug, ub, encode]
  simp only [weightedSums, normalize_weightedSums]

/-! ### At most two colours: the two mixers agree -/

theorem jsIndex_map {α β : Type} (f : α → β) (xs : List α) (i : ℤ) :
    jsIndex (xs.map f) i = (jsIndex xs i).map f := by
  unfold jsIndex
  by_cases h : 0 ≤ i
  · simp only [if_pos h, List.getElem?_map]
  · simp only [if_neg h, Option.map_none']

theorem blend_two (a1 a2 : ℕ) (w1 w2 : ℚ) (h1 : 0 < w1) (h2 : 0 < w2) :
    blend (blend (some 255) (some (a1 : ℚ)) (w1 / (0 + w1))) (some (a2 : ℚ))
        (w2 / (0 + w1 + w2)) =
      normalize (addWeighted (addWeighted (some 0) (some (a1 : ℚ)) w1) (some (a2 : ℚ)) w2)
        (0 + w1 + w2) := by
  rw [blend_single a1 w1 h1]
  have hsum : (0 : ℚ) + w1 + w2 ≠ 0 := by
    have : (0 : ℚ) < 0 + w1 + w2 := by linarith
    exact ne_of_gt this
  have h : (a1 : ℚ) * (1 - w2 / (0 + w1 + w2)) + (a2 : ℚ) * (w2 / (0 + w1 + w2)) =
      (0 + (a1 : ℚ) * w1 + (a2 : ℚ) * w2) / (0 + w1 + w2) := by
    field_simp
  simp only [blend, normalize, addWeighted, Option.some_bind, Option.map_some', h]

theorem finish_single (a b d : ℕ) (w : ℚ) (hw : 0 < w) :
    subtractiveFinish
        { totalWeight := 0 + w
          r := blend (some 255) (some (a : ℚ)) (w / (0 + w))
          g := blend (some 255) (some (b : ℚ)) (w / (0 + w))
          b := blend (some 255) (some (d : ℚ)) (w / (0 + w)) } =
      weightedFinish
        { totalWeight := 0 + w
          r := addWeighted (some 0) (some (a : ℚ)) w
          g := addWeighted (some 0) (some (b : ℚ)) w
          b := addWeighted (some 0) (some (d : ℚ)) w } := by
  have hpos : (0 : ℚ) + w > 0 := by linarith
  simp only [subtractiveFinish, weightedFinish, if_pos hpos, blend_single _ w hw,
    normalize_single _ w hw]

theorem finish_two (a1 b1 d1 a2 b2 d2 : ℕ) (w1 w2 : ℚ) (h1 : 0 < w1) (h2 : 0 < w2) :
    subtractiveFinish
        { totalWeight := 0 + w1 + w2
          r := blend (blend (some 255) (some (a1 : ℚ)) (w1 / (0 + w1))) (some (a2 : ℚ))
            (w2 / (0 + w1 + w2))
          g := blend (blend (some 255) (some (b1 : ℚ)) (w1 / (0 + w1))) (some (b2 : ℚ))
            (w2 / (0 + w1 + w2))
          b := blend (blend (some 255) (some (d1 : ℚ)) (w1 / (0 + w1))) (some (d2 : ℚ))
            (w2 / (0 + w1 + w2)) } =
      weightedFinish
        { totalWeight := 0 + w1 + w2
          r := addWeighted (addWeighted (some 0) (some (a1 : ℚ)) w1) (some (a2 : ℚ)) w2
          g := addWeighted (addWeighted (some 0) (some (b1 : ℚ)) w1) (some (b2 : ℚ)) w2
          b := addWeighted (addWeighted (some 0) (some (d1 : ℚ)) w1) (some (d2 : ℚ)) w2 } := by
  have hpos : (0 : ℚ) + w1 + w2 > 0 := by linarith
  simp only [subtractiveFinish, weightedFinish, if_pos hpos, blend_two _ _ w1 w2 h1 h2]

theorem hexToRgb_eq_of_valid (c : String) (hc : isValidColor c = true) :
    ∃ a b d : ℕ, a ≤ 255 ∧ b ≤ 255 ∧ d ≤ 255 ∧
      hexToRgb c = { r := some (a : ℚ), g := some (b : ℚ), b := some (d : ℚ) } := by
  obtain ⟨⟨a, ha, hr⟩, ⟨b, hb, hg⟩, ⟨d, hd, hbl⟩⟩ := hexToRgb_good c hc
  refine ⟨a, b, d, ha, hb, hd, ?_⟩
  cases hcol : hexToRgb c with
  | mk r g bl =>
    rw [hcol] at hr hg hbl
    simp only at hr hg hbl
    rw [hr, hg, hbl]

/-- On one or two selected pairs with positive weights the two loops have the
same outcome, whether a string or the exception. -/
theorem loops_agree_up_to_two (vc : List String) (hvalid : ∀ c ∈ vc, isValidColor c = true)
    (pairs : List (ℤ × ℚ)) (hne : pairs ≠ []) (hlen : pairs.length ≤ 2)
    (hpos : ∀ p ∈ pairs, 0 < p.2) :
    subtractiveLoop vc pairs = weightedLoop (vc.map hexToRgb) pairs := by
  match pairs, hne, hlen, hpos with
  | [p], _, _, hpos =>
    have hp := hpos p (List.mem_cons_self _ _)
    unfold subtractiveLoop weightedLoop
    simp only [List.foldlM_cons, List.foldlM_nil, subtractiveStep, weightedStep, jsIndex_map]
    cases hj : jsIndex vc p.1 with
    | none => rfl
    | some c =>
      obtain ⟨a, b, d, -, -, -, hrgb⟩ := hexToRgb_eq_of_valid c (hvalid c (jsIndex_mem _ _ _ hj))
      simp only [Option.map_some', bind, Except.bind, pure, Except.pure, hrgb,
        subtractiveInit, weightedInit]
      rw [finish_single a b d p.2 hp]
  | [p, q], _, _, hpos =>
    have hp := hpos p (List.mem_cons_self _ _)
    have hq := hpos q (List.mem_cons_of_mem _ (List.mem_cons_self _ _))
    unfold subtractiveLoop weightedLoop
    simp only [List.foldlM_cons, List.foldlM_nil, subtractiveStep, weightedStep, jsIndex_map]
    cases hj : jsIndex vc p.1 with
    | none => rfl
    | some c =>
      obtain ⟨a, b, d, -, -, -, hrgb⟩ := hexToRgb_eq_of_valid c (hvalid c (jsIndex_mem _ _ _ hj))
      simp only [Option.map_some', bind, Except.bind, pure, Except.pure, hrgb,
        subtractiveInit, weightedInit]
      cases hj2 : jsIndex vc q.1 with
      | none => rfl
      | some c2 =>
        obtain ⟨a2, b2, d2, -, -, -, hrgb2⟩ :=
          hexToRgb_eq_of_valid c2 (hvalid c2 (jsIndex_mem _ _ _ hj2))
        simp only [Option.map_some', hrgb2]
        rw [finish_two a b d a2 b2 d2 p.2 q.2 hp hq]
theorem length_selectedFrom (n : ℕ) (ws : List ℚ) :
    (selectedFrom n ws).length = (validWeights ws).length := by
  rw [← selectedFrom_map_snd n ws, List.length_map]

/-- With at most two positive weights the two mixers have the same outcome on
every input, whether a string or the exception. -/
theorem mixers_agree_up_to_two (colors : List String) (weights : List ℚ)
    (htwo : (validWeights weights).length ≤ 2) :
    mixColorsSubtractive colors weights = mixColorsWithWeights colors weights := by
  rw [mixColorsSubtractive_eq, mixColorsWithWeights_eq]
  by_cases hc : validColors colors = []
  · simp only [hc, if_true]
  · by_cases hw : validWeights weights = []
    · simp only [hc, hw, if_true, if_false]
    · simp only [hc, hw, if_false]
      apply loops_agree_up_to_two _ (isValidColor_of_mem_validColors colors)
      · intro hnil
        apply hw
        rw [← selectedFrom_map_snd 0 weights, hnil]
        rfl
      · rw [length_selectedFrom]; exact htwo
      · exact selectedFrom_weight_pos 0 weights

/-- In exact arithmetic, for a list of valid colours and a weight list of the
same length with at most two strictly positive entries, `mixColorsSubtractive` and
`mixColorsWithWeights` return the same string. -/
theorem subtractive_equals_weighted_up_to_two_colours (colors : List String)
    (weights : List ℚ) (hvalid : ∀ c ∈ colors, isValidColor c = true)
    (hlen : weights.length = colors.length)
    (htwo : weights.countP (fun w => decide (0 < w)) ≤ 2) :
    ∃ s, mixColorsSubtractive colors weights = .ok s ∧
      mixColorsWithWeights colors weights = .ok s := by
  have htwo2 : (validWeights weights).length ≤ 2 := by
    unfold validWeights
    rw [← List.countP_eq_length_filter]
    exact htwo
  obtain ⟨-, s, hs⟩ := mixers_return_on_valid_colours colors weights hvalid (le_of_eq hlen)
  exact ⟨s, hs, by rw [← mixers_agree_up_to_two colors weights htwo2, hs]⟩

/-! ### The subtractive mix against the exact weighted mean -/

theorem mathRound_near (x : ℚ) : |((mathRound x : ℤ) : ℚ) - x| ≤ 1 / 2 := by
  unfold mathRound
  have h1 := Int.floor_le (x + 1 / 2)
  have h2 := Int.lt_floor_add_one (x + 1 / 2)
  rw [abs_le]
  constructor <;> linarith

theorem blend_near (acc : Option ℚ) (c T S E w : ℚ) (hT : 0 < T) (hE : 0 ≤ E) (hw : 0 < w)
    (h : Near acc T S E) :
    Near (blend acc (some c) (w / (T + w))) (T + w) (S + c * w) (E + 1 / 2) := by
  obtain ⟨a, rfl, ha⟩ := h
  have hTw : 0 < T + w := by linarith
  have hx : (a * (1 - w / (T + w)) + c * (w / (T + w))) * (T + w) = a * T + c * w := by
    field_simp
  refine ⟨_, rfl, ?_⟩
  have hr := mathRound_near (a * (1 - w / (T + w)) + c * (w / (T + w)))
  have hsplit : ((mathRound (a * (1 - w / (T + w)) + c * (w / (T + w))) : ℤ) : ℚ) * (T + w) -
      (S + c * w) =
      (((mathRound (a * (1 - w / (T + w)) + c * (w / (T + w))) : ℤ) : ℚ) -
        (a * (1 - w / (T + w)) + c * (w / (T + w)))) * (T + w) + (a * T - S) := by
    rw [sub_mul, hx]
    ring
  rw [hsplit]
  have h1 : |(((mathRound (a * (1 - w / (T + w)) + c * (w / (T + w))) : ℤ) : ℚ) -
        (a * (1 - w / (T + w)) + c * (w / (T + w)))) * (T + w)| ≤ 1 / 2 * (T + w) := by
    rw [abs_mul, abs_of_pos hTw]
    exact mul_le_mul_of_nonneg_right hr hTw.le
  have h2 : T * E ≤ (T + w) * E := by
    apply mul_le_mul_of_nonneg_right _ hE
    linarith
  calc |(((mathRound (a * (1 - w / (T + w)) + c * (w / (T + w))) : ℤ) : ℚ) -
        (a * (1 - w / (T + w)) + c * (w / (T + w)))) * (T + w) + (a * T - S)|
      ≤ |(((mathRound (a * (1 - w / (T + w)) + c * (w / (T + w))) : ℤ) : ℚ) -
        (a * (1 - w / (T + w)) + c * (w / (T + w)))) * (T + w)| + |a * T - S| := abs_add _ _
    _ ≤ 1 / 2 * (T + w) + T * E := add_le_add h1 ha
    _ ≤ (T + w) * (E + 1 / 2) := by linarith

theorem channelOf_of_jsIndex (ch : RGB → Option ℚ) (vc : List String) (i : ℤ)
    (color : String) (c : ℚ) (hj : jsIndex vc i = some color)
    (hc : ch (hexToRgb color) = some c) :
    channelOf ch (vc.map hexToRgb) i = c := by
  simp only [channelOf, jsIndex_map, hj, Option.map_some', Option.some_bind, hc,
    Option.getD_some]

theorem subtractiveStep_near (vc : List String) (hvalid : ∀ c ∈ vc, isValidColor c = true)
    (st st1 : MixState) (p : ℤ × ℚ) (sr sg sb E : ℚ) (hst : NearState st sr sg sb E)
    (hp : 0 < p.2) (h : subtractiveStep vc st p = .ok st1) :
    NearState st1 (sr + channelOf RGB.r (vc.map hexToRgb) p.1 * p.2)
      (sg + channelOf RGB.g (vc.map hexToRgb) p.1 * p.2)
      (sb + channelOf RGB.b (vc.map hexToRgb) p.1 * p.2) (E + 1 / 2) := by
  rw [subtractiveStep_eq] at h
  cases hj : jsIndex vc p.1 with
  | none => rw [hj] at h; exact absurd h (by simp)
  | some color =>
    rw [hj] at h
    simp only [Except.ok.injEq] at h
    obtain ⟨a, b, d, -, -, -, hrgb⟩ :=
      hexToRgb_eq_of_valid color (hvalid color (jsIndex_mem _ _ _ hj))
    obtain ⟨hT, hE, hr, hg, hb⟩ := hst
    rw [channelOf_of_jsIndex RGB.r vc p.1 color a hj (by rw [hrgb]),
      channelOf_of_jsIndex RGB.g vc p.1 color b hj (by rw [hrgb]),
      channelOf_of_jsIndex RGB.b vc p.1 color d hj (by rw [hrgb]), ← h]
    simp only [subtractiveUpdate, hrgb]
    exact ⟨by linarith, by linarith, blend_near _ _ _ _ _ _ hT hE hp hr,
      blend_near _ _ _ _ _ _ hT hE hp hg, blend_near _ _ _ _ _ _ hT hE hp hb⟩

theorem subtractiveStep_first_near (vc : List String)
    (hvalid : ∀ c ∈ vc, isValidColor c = true) (st1 : MixState) (p : ℤ × ℚ) (hp : 0 < p.2)
    (h : subtractiveStep vc subtractiveInit p = .ok st1) :
    NearState st1 (channelOf RGB.r (vc.map hexToRgb) p.1 * p.2)
      (channelOf RGB.g (vc.map hexToRgb) p.1 * p.2)
      (channelOf RGB.b (vc.map hexToRgb) p.1 * p.2) 0 := by
  rw [subtractiveStep_eq] at h
  cases hj : jsIndex vc p.1 with
  | none => rw [hj] at h; exact absurd h (by simp)
  | some color =>
    rw [hj] at h
    simp only [Except.ok.injEq] at h
    obtain ⟨a, b, d, -, -, -, hrgb⟩ :=
      hexToRgb_eq_of_valid color (hvalid color (jsIndex_mem _ _ _ hj))
    rw [channelOf_of_jsIndex RGB.r vc p.1 color a hj (by rw [hrgb]),
      channelOf_of_jsIndex RGB.g vc p.1 color b hj (by rw [hrgb]),
      channelOf_of_jsIndex RGB.b vc p.1 color d hj (by rw [hrgb]), ← h]
    simp only [subtractiveUpdate, hrgb, subtractiveInit, blend_single _ p.2 hp]
    have hpos : (0 : ℚ) < 0 + p.2 := by linarith
    refine ⟨hpos, le_refl _, ⟨_, rfl, ?_⟩, ⟨_, rfl, ?_⟩, ⟨_, rfl, ?_⟩⟩ <;>
      simp

theorem foldlM_subtractiveStep_near (vc : List String)
    (hvalid : ∀ c ∈ vc, isValidColor c = true) (pairs : List (ℤ × ℚ))
    (hpos : ∀ p ∈ pairs, 0 < p.2) (st st1 : MixState) (sr sg sb E : ℚ)
    (hst : NearState st sr sg sb E)
    (h : pairs.foldlM (subtractiveStep vc) st = .ok st1) :
    NearState st1
      (sr + (pairs.map fun p => channelOf RGB.r (vc.map hexToRgb) p.1 * p.2).sum)
      (sg + (pairs.map fun p => channelOf RGB.g (vc.map hexToRgb) p.1 * p.2).sum)
      (sb + (pairs.map fun p => channelOf RGB.b (vc.map hexToRgb) p.1 * p.2).sum)
      (E + (pairs.length : ℚ) / 2) := by
  induction pairs generalizing st sr sg sb E with
  | nil =>
    simp only [List.foldlM_nil, pure, Except.pure, Except.ok.injEq] at h
    rw [← h]
    simpa using hst
  | cons p ps ih =>
    rw [List.foldlM_cons] at h
    cases hs : subtractiveStep vc st p with
    | error e => rw [hs] at h; exact absurd h (by simp [bind, Except.bind])
    | ok st2 =>
      rw [hs] at h
      have h2 := subtractiveStep_near vc hvalid st st2 p sr sg sb E hst
        (hpos p (List.mem_cons_self _ _)) hs
      have h3 := ih (fun q hq => hpos q (List.mem_cons_of_mem _ hq)) st2 _ _ _ _ h2 h
      have hE : E + 1 / 2 + (ps.length : ℚ) / 2 = E + ((p :: ps).length : ℚ) / 2 := by
        rw [List.length_cons]
        push_cast
        ring
      rw [hE] at h3
      simpa only [List.map_cons, List.sum_cons, add_assoc] using h3
theorem near_mean (a T S E : ℚ) (hT : 0 < T) (h : |a * T - S| ≤ T * E) :
    |a - S / T| ≤ E := by
  have hne : T ≠ 0 := ne_of_gt hT
  have he : a - S / T = (a * T - S) / T := by
    field_simp
  rw [he, abs_div, abs_of_pos hT, div_le_iff₀ hT]
  linarith

theorem length_selectedFrom_eq_positions (ws : List ℚ) :
    (selectedFrom 0 ws).length = (positivePositions ws).length := by
  rw [selectedFrom_eq_map, List.length_map]

theorem subtractiveFinish_of_byte (st : MixState) (r g b : ℕ) (hr : r ≤ 255) (hg : g ≤ 255)
    (hb : b ≤ 255) (er : st.r = some (r : ℚ)) (eg : st.g = some (g : ℚ))
    (eb : st.b = some (b : ℚ)) :
    subtractiveFinish st =
      encode { r := some (r : ℚ), g := some (g : ℚ), b := some (b : ℚ) } := by
  simp only [subtractiveFinish, encode, er, eg, eb, clamp_natCast _ hr, clamp_natCast _ hg,
    clamp_natCast _ hb]

/-- In exact arithmetic, for a list of valid colours and a weight list of the
same length with `n ≥ 1` strictly positive entries, `mixColorsSubtractive` returns the encoding
of three integer channels from 0 to 255 (which decoding the result gives back),
each within `(n - 1) / 2` of the exact weighted mean of that channel over the
pairs with a positive weight. -/
theorem subtractive_within_half_per_step (colors : List String) (weights : List ℚ)
    (hvalid : ∀ c ∈ colors, isValidColor c = true) (hlen : weights.length = colors.length)
    (hn : 1 ≤ (positivePositions weights).length) :
    ∃ r g b : ℕ, r ≤ 255 ∧ g ≤ 255 ∧ b ≤ 255 ∧
      mixColorsSubtractive colors weights =
        .ok (encode { r := some (r : ℚ), g := some (g : ℚ), b := some (b : ℚ) }) ∧
      hexToRgb (encode { r := some (r : ℚ), g := some (g : ℚ), b := some (b : ℚ) }) =
        { r := some (r : ℚ), g := some (g : ℚ), b := some (b : ℚ) } ∧
      |(r : ℚ) - pairedMean RGB.r colors weights| ≤
        (((positivePositions weights).length : ℚ) - 1) / 2 ∧
      |(g : ℚ) - pairedMean RGB.g colors weights| ≤
        (((positivePositions weights).length : ℚ) - 1) / 2 ∧
      |(b : ℚ) - pairedMean RGB.b colors weights| ≤
        (((positivePositions weights).length : ℚ) - 1) / 2 := by
  have hvc := validColors_of_all_valid colors hvalid
  have hposw := selectedFrom_weight_pos 0 weights
  have hlenp := length_selectedFrom_eq_positions weights
  have hsr := selected_channel_sum RGB.r colors weights
  have hsg := selected_channel_sum RGB.g colors weights
  have hsb := selected_channel_sum RGB.b colors weights
  have hsw := selected_weight_sum weights
  have hin : ∀ p ∈ selectedFrom 0 weights, 0 ≤ p.1 ∧ p.1 < (colors.length : ℤ) :=
    selectedFrom_in_range weights colors.length (fun i hi _ => by omega)
  obtain ⟨st, hrun⟩ := foldlM_subtractiveStep_ok colors (selectedFrom 0 weights) hin
    subtractiveInit
  have hvw : validWeights weights ≠ [] := by
    intro hnil
    have := length_selectedFrom 0 weights
    rw [hnil, hlenp] at this
    simp only [List.length_nil] at this
    omega
  have hcne : validColors colors ≠ [] := by
    rw [hvc]
    intro hnil
    rw [hnil, List.length_nil] at hlen
    rw [List.length_eq_zero.1 hlen] at hn
    simp [positivePositions] at hn
  have hbyte := foldlM_invariant (subtractiveStep colors)
    (fun s => s.Byte ∧ 0 ≤ s.totalWeight) (selectedFrom 0 weights)
    (fun a b q hq ha hab => subtractiveStep_byte colors hvalid a b q ha (hposw q hq) hab)
    subtractiveInit st subtractiveInit_byte hrun
  obtain ⟨⟨⟨r, hr, er⟩, ⟨g, hg, eg⟩, ⟨b, hb, eb⟩⟩, -⟩ := hbyte
  have htot := foldlM_totalWeight _ (subtractiveStep_totalWeight colors) _ _ _ hrun
  rw [hsw] at htot
  have hmix : mixColorsSubtractive colors weights =
      .ok (encode { r := some (r : ℚ), g := some (g : ℚ), b := some (b : ℚ) }) := by
    rw [mixColorsSubtractive_of_ne colors weights hcne hvw, hvc, subtractiveLoop, hrun]
    simp only [subtractiveFinish_of_byte st r g b hr hg hb er eg eb]
  refine ⟨r, g, b, hr, hg, hb, hmix, hexToRgb_encode r g b hr hg hb, ?_⟩
  cases hpairs : selectedFrom 0 weights with
  | nil =>
    rw [hpairs] at hlenp
    simp only [List.length_nil] at hlenp
    omega
  | cons p ps =>
    rw [hpairs] at hrun hposw hsr hsg hsb hlenp
    rw [List.foldlM_cons] at hrun
    cases hs : subtractiveStep colors subtractiveInit p with
    | error e => rw [hs] at hrun; exact absurd hrun (by simp [bind, Except.bind])
    | ok st0 =>
      rw [hs] at hrun
      have h0 := subtractiveStep_first_near colors hvalid st0 p
        (hposw p (List.mem_cons_self _ _)) hs
      have h1 := foldlM_subtractiveStep_near colors hvalid ps
        (fun q hq => hposw q (List.mem_cons_of_mem _ hq)) st0 st _ _ _ 0 h0 hrun
      simp only [List.map_cons, List.sum_cons] at hsr hsg hsb
      rw [hsr, hsg, hsb] at h1
      obtain ⟨hT, -, ⟨ar, ear, hbr⟩, ⟨ag, eag, hbg⟩, ⟨ab, eab, hbb⟩⟩ := h1
      rw [er] at ear
      rw [eg] at eag
      rw [eb] at eab
      simp only [Option.some.injEq] at ear eag eab
      have hE : (0 : ℚ) + (ps.length : ℚ) / 2 =
          (((positivePositions weights).length : ℚ) - 1) / 2 := by
        rw [← hlenp, List.length_cons]
        push_cast
        ring
      have hTeq : st.totalWeight = positiveWeightSum weights := by
        rw [htot]; simp [subtractiveInit]
      rw [hE, hTeq] at hbr hbg hbb
      rw [hTeq] at hT
      rw [← ear] at hbr
      rw [← eag] at hbg
      rw [← eab] at hbb
      exact ⟨near_mean _ _ _ _ hT hbr, near_mean _ _ _ _ hT hbg, near_mean _ _ _ _ hT hbb⟩

/-! ### Doubles: powers of two, binades and rounding -/

theorem pow2_eq_zpow (e : ℤ) : pow2 e = (2 : ℚ) ^ e := by
  unfold pow2
  by_cases h : 0 ≤ e
  · rw [if_pos h]
    obtain ⟨n, rfl⟩ := Int.eq_ofNat_of_zero_le h
    simp
  · rw [if_neg h]
    have hneg : 0 ≤ -e := by omega
    obtain ⟨n, hn⟩ := Int.eq_ofNat_of_zero_le hneg
    have he : e = -(n : ℤ) := by omega
    rw [hn, he]
    simp

theorem pow2_pos (e : ℤ) : 0 < pow2 e := by
  rw [pow2_eq_zpow]; positivity

theorem pow2_add (a b : ℤ) : pow2 (a + b) = pow2 a * pow2 b := by
  simp only [pow2_eq_zpow]
  exact zpow_add₀ (by norm_num) a b

theorem pow2_le_pow2 {a b : ℤ} (h : a ≤ b) : pow2 a ≤ pow2 b := by
  simp only [pow2_eq_zpow]
  exact zpow_le_zpow_right₀ (by norm_num) h

theorem pow2_lt_pow2 {a b : ℤ} (h : a < b) : pow2 a < pow2 b := by
  simp only [pow2_eq_zpow]
  exact zpow_lt_zpow_right₀ (by norm_num) h

theorem lt_of_pow2_lt_pow2 {a b : ℤ} (h : pow2 a < pow2 b) : a < b := by
  by_contra hn
  exact absurd (pow2_le_pow2 (not_lt.1 hn)) (not_le.2 h)

theorem pow2_natCast (n : ℕ) : pow2 (n : ℤ) = ((2 ^ n : ℕ) : ℚ) := by
  simp [pow2]

theorem halvings_spec (fuel n : ℕ) (hf : n ≤ fuel) (hn : 1 ≤ n) :
    2 ^ halvings fuel n ≤ n ∧ n < 2 ^ (halvings fuel n + 1) := by
  induction fuel generalizing n with
  | zero => omega
  | succ fuel ih =>
    unfold halvings
    by_cases h2 : n < 2
    · rw [if_pos h2]
      simp
      omega
    · rw [if_neg h2]
      have hhalf : n / 2 ≤ fuel := by omega
      have hone : 1 ≤ n / 2 := by omega
      obtain ⟨h1, h3⟩ := ih (n / 2) hhalf hone
      constructor
      · rw [pow_succ]
        omega
      · rw [pow_succ]
        omega

theorem log2_spec (n : ℕ) (hn : 1 ≤ n) : 2 ^ log2 n ≤ n ∧ n < 2 ^ (log2 n + 1) :=
  halvings_spec n n (le_refl n) hn

theorem binade_spec (a : ℚ) (ha : 0 < a) :
    pow2 (binade a) ≤ a ∧ a < pow2 (binade a + 1) := by
  have hnum : 0 < a.num := Rat.num_pos.2 ha
  have hp1 : 1 ≤ a.num.natAbs := by omega
  have hq1 : 1 ≤ a.den := a.den_pos
  obtain ⟨hpl, hpu⟩ := log2_spec a.num.natAbs hp1
  obtain ⟨hql, hqu⟩ := log2_spec a.den hq1
  have hA : (0 : ℚ) < (2 : ℚ) ^ log2 a.num.natAbs := by positivity
  have hB : (0 : ℚ) < (2 : ℚ) ^ log2 a.den := by positivity
  have hQ : (0 : ℚ) < (a.den : ℚ) := by exact_mod_cast hq1
  have hpl' : (2 : ℚ) ^ log2 a.num.natAbs ≤ (a.num.natAbs : ℚ) := by exact_mod_cast hpl
  have hpu' : (a.num.natAbs : ℚ) < 2 * (2 : ℚ) ^ log2 a.num.natAbs := by
    have : ((a.num.natAbs : ℕ) : ℚ) < ((2 ^ (log2 a.num.natAbs + 1) : ℕ) : ℚ) := by
      exact_mod_cast hpu
    rw [pow_succ] at this
    push_cast at this
    linarith
  have hql' : (2 : ℚ) ^ log2 a.den ≤ (a.den : ℚ) := by exact_mod_cast hql
  have hqu' : (a.den : ℚ) < 2 * (2 : ℚ) ^ log2 a.den := by
    have : ((a.den : ℕ) : ℚ) < ((2 ^ (log2 a.den + 1) : ℕ) : ℚ) := by
      exact_mod_cast hqu
    rw [pow_succ] at this
    push_cast at this
    linarith
  have hcast : ((a.num.natAbs : ℕ) : ℚ) = (a.num : ℚ) := by
    have h : (((a.num.natAbs : ℕ) : ℤ) : ℚ) = (a.num : ℚ) := by
      rw [Int.natAbs_of_nonneg hnum.le]
    exact (Int.cast_natCast _).symm.trans h
  have ha_eq : a = (a.num.natAbs : ℚ) / (a.den : ℚ) := by
    rw [hcast]; exact (Rat.num_div_den a).symm
  have hd : pow2 ((log2 a.num.natAbs : ℤ) - (log2 a.den : ℤ)) =
      (2 : ℚ) ^ log2 a.num.natAbs / (2 : ℚ) ^ log2 a.den := by
    rw [pow2_eq_zpow, zpow_sub₀ (by norm_num), zpow_natCast, zpow_natCast]
  have hup : a < pow2 ((log2 a.num.natAbs : ℤ) - (log2 a.den : ℤ) + 1) := by
    rw [pow2_add, hd]
    have h1 : pow2 1 = 2 := by rw [pow2_eq_zpow]; norm_num
    rw [h1]
    calc a = (a.num.natAbs : ℚ) / (a.den : ℚ) := ha_eq
      _ < (2 : ℚ) ^ log2 a.num.natAbs / (2 : ℚ) ^ log2 a.den * 2 := by
        rw [div_mul_eq_mul_div, div_lt_div_iff₀ hQ hB]
        nlinarith
  have hlow : pow2 ((log2 a.num.natAbs : ℤ) - (log2 a.den : ℤ) - 1) ≤ a := by
    have hsub : (log2 a.num.natAbs : ℤ) - (log2 a.den : ℤ) - 1 =
        ((log2 a.num.natAbs : ℤ) - (log2 a.den : ℤ)) + (-1) := by ring
    rw [hsub, pow2_add, hd]
    have h1 : pow2 (-1) = 1 / 2 := by rw [pow2_eq_zpow]; norm_num
    rw [h1]
    calc (2 : ℚ) ^ log2 a.num.natAbs / (2 : ℚ) ^ log2 a.den * (1 / 2)
        ≤ (a.num.natAbs : ℚ) / (a.den : ℚ) := by
          rw [div_mul_eq_mul_div, div_le_div_iff₀ hB hQ]
          nlinarith
      _ = a := ha_eq.symm
  have hb : binade a =
      if pow2 ((log2 a.num.natAbs : ℤ) - (log2 a.den : ℤ)) ≤ a
      then (log2 a.num.natAbs : ℤ) - (log2 a.den : ℤ)
      else (log2 a.num.natAbs : ℤ) - (log2 a.den : ℤ) - 1 := rfl
  by_cases hcmp : pow2 ((log2 a.num.natAbs : ℤ) - (log2 a.den : ℤ)) ≤ a
  · rw [hb, if_pos hcmp]
    exact ⟨hcmp, hup⟩
  · rw [hb, if_neg hcmp]
    refine ⟨hlow, ?_⟩
    rw [sub_add_cancel]
    exact not_le.1 hcmp

theorem binade_le_of_le_pow2 (a : ℚ) (k : ℤ) (ha : 0 < a) (h : a ≤ pow2 k) : binade a ≤ k := by
  by_contra hn
  have h1 := pow2_lt_pow2 (not_le.1 hn)
  have h2 := (binade_spec a ha).1
  linarith

theorem binade_lt_of_lt_pow2 (a : ℚ) (k : ℤ) (ha : 0 < a) (h : a < pow2 k) : binade a < k := by
  by_contra hn
  have h1 := pow2_le_pow2 (not_lt.1 hn)
  have h2 := (binade_spec a ha).1
  linarith

theorem le_binade_of_pow2_le (a : ℚ) (k : ℤ) (ha : 0 < a) (h : pow2 k ≤ a) : k ≤ binade a := by
  by_contra hn
  have hlt : binade a + 1 ≤ k := by omega
  have h1 := pow2_le_pow2 hlt
  have h2 := (binade_spec a ha).2
  linarith

theorem roundHalfEven_cases (x : ℚ) :
    roundHalfEven x = ⌊x⌋ ∧ x - ⌊x⌋ ≤ 1 / 2 ∨ roundHalfEven x = ⌊x⌋ + 1 ∧ 1 / 2 ≤ x - ⌊x⌋ := by
  unfold roundHalfEven
  by_cases h1 : x - ⌊x⌋ < 1 / 2
  · left; rw [if_pos h1]; exact ⟨rfl, h1.le⟩
  · rw [if_neg h1]
    by_cases h2 : 1 / 2 < x - ⌊x⌋
    · right; rw [if_pos h2]; exact ⟨rfl, h2.le⟩
    · rw [if_neg h2]
      have heq : x - ⌊x⌋ = 1 / 2 := le_antisymm (not_lt.1 h2) (not_lt.1 h1)
      by_cases h3 : ⌊x⌋ % 2 = 0
      · left; rw [if_pos h3]; exact ⟨rfl, heq.le⟩
      · right; rw [if_neg h3]; exact ⟨rfl, heq.ge⟩

theorem roundHalfEven_near (x : ℚ) : |((roundHalfEven x : ℤ) : ℚ) - x| ≤ 1 / 2 := by
  have h1 := Int.floor_le x
  have h2 := Int.lt_floor_add_one x
  rw [abs_le]
  rcases roundHalfEven_cases x with ⟨h, hf⟩ | ⟨h, hf⟩
  · rw [h]; constructor <;> linarith
  · rw [h]; push_cast; constructor <;> linarith

theorem roundHalfEven_intCast (z : ℤ) : roundHalfEven (z : ℚ) = z := by
  unfold roundHalfEven
  simp

theorem roundHalfEven_le (x : ℚ) (N : ℤ) (h : x ≤ N) : roundHalfEven x ≤ N := by
  have h1 := Int.floor_le x
  have h2 := Int.lt_floor_add_one x
  rcases roundHalfEven_cases x with ⟨hr, hf⟩ | ⟨hr, hf⟩
  · rw [hr]
    exact Int.floor_le_iff.2 (by linarith : x < (N : ℚ) + 1) |> fun h3 => by
      have : (⌊x⌋ : ℚ) ≤ N := by linarith
      exact_mod_cast this
  · rw [hr]
    have hlt : (⌊x⌋ : ℚ) < N := by linarith
    have : ⌊x⌋ < N := by exact_mod_cast hlt
    omega

theorem roundHalfEven_nonneg (x : ℚ) (h : 0 ≤ x) : 0 ≤ roundHalfEven x := by
  have h0 : 0 ≤ ⌊x⌋ := Int.floor_nonneg.2 h
  rcases roundHalfEven_cases x with ⟨hr, -⟩ | ⟨hr, -⟩ <;> rw [hr] <;> omega

theorem ofRat_of_pos (x : ℚ) (hx : 0 < x) :
    Double.ofRat x =
      if pow2 1024 ≤ (roundHalfEven (x / pow2 (max (binade x) (-1022) - 52)) : ℚ) *
          pow2 (max (binade x) (-1022) - 52)
      then .inf
      else .fin ((roundHalfEven (x / pow2 (max (binade x) (-1022) - 52)) : ℚ) *
          pow2 (max (binade x) (-1022) - 52)) := by
  unfold Double.ofRat
  rw [if_neg (ne_of_gt hx), abs_of_pos hx]
  simp only [hx, if_true]

/-- Rounding a number between 0 and `2 ^ k` gives a finite double between 0 and
`2 ^ k`, at most `2 ^ (k - 53)` away. -/
theorem ofRat_approx (x : ℚ) (k : ℤ) (hx0 : 0 ≤ x) (hxk : x ≤ pow2 k) (hk1 : -1022 ≤ k)
    (hk2 : k ≤ 1023) :
    ∃ y, Double.ofRat x = .fin y ∧ 0 ≤ y ∧ y ≤ pow2 k ∧ |y - x| ≤ pow2 (k - 53) := by
  rcases eq_or_lt_of_le hx0 with h0 | hpos
  · refine ⟨0, ?_, le_refl _, (pow2_pos k).le, ?_⟩
    · rw [← h0]; simp [Double.ofRat]
    · rw [← h0]; simp only [sub_self, abs_zero]; exact (pow2_pos _).le
  · have hbk : binade x ≤ k := binade_le_of_le_pow2 x k hpos hxk
    have hek : max (binade x) (-1022) ≤ k := max_le hbk hk1
    have hs : 0 < pow2 (max (binade x) (-1022) - 52) := pow2_pos _
    have hnear := roundHalfEven_near (x / pow2 (max (binade x) (-1022) - 52))
    have hnn : 0 ≤ roundHalfEven (x / pow2 (max (binade x) (-1022) - 52)) :=
      roundHalfEven_nonneg _ (div_nonneg hx0 hs.le)
    -- the quotient of `2 ^ k` by the spacing is an integer
    have hn : 0 ≤ k - (max (binade x) (-1022) - 52) := by omega
    obtain ⟨n, hnat⟩ := Int.eq_ofNat_of_zero_le hn
    have hquot : pow2 k / pow2 (max (binade x) (-1022) - 52) = (((2 ^ n : ℕ) : ℤ) : ℚ) := by
      rw [div_eq_iff (ne_of_gt hs)]
      have : k = (n : ℤ) + (max (binade x) (-1022) - 52) := by omega
      rw [this, pow2_add, pow2_natCast]
      push_cast
      ring_nf
    have hle : roundHalfEven (x / pow2 (max (binade x) (-1022) - 52)) ≤ ((2 ^ n : ℕ) : ℤ) := by
      apply roundHalfEven_le
      rw [← hquot]
      exact div_le_div_of_nonneg_right hxk hs.le
    have hyk : (roundHalfEven (x / pow2 (max (binade x) (-1022) - 52)) : ℚ) *
        pow2 (max (binade x) (-1022) - 52) ≤ pow2 k := by
      have h1 : (roundHalfEven (x / pow2 (max (binade x) (-1022) - 52)) : ℚ) ≤
          (((2 ^ n : ℕ) : ℤ) : ℚ) := by exact_mod_cast hle
      calc (roundHalfEven (x / pow2 (max (binade x) (-1022) - 52)) : ℚ) *
            pow2 (max (binade x) (-1022) - 52)
          ≤ (((2 ^ n : ℕ) : ℤ) : ℚ) * pow2 (max (binade x) (-1022) - 52) :=
            mul_le_mul_of_nonneg_right h1 hs.le
        _ = pow2 k := by rw [← hquot, div_mul_cancel₀ _ (ne_of_gt hs)]
    have hno : ¬ pow2 1024 ≤ (roundHalfEven (x / pow2 (max (binade x) (-1022) - 52)) : ℚ) *
        pow2 (max (binade x) (-1022) - 52) := by
      have h1 : pow2 k < pow2 1024 := pow2_lt_pow2 (by omega)
      intro h
      linarith
    refine ⟨_, by rw [ofRat_of_pos x hpos, if_neg hno], ?_, hyk, ?_⟩
    · exact mul_nonneg (by exact_mod_cast hnn) hs.le
    · have hsplit : (roundHalfEven (x / pow2 (max (binade x) (-1022) - 52)) : ℚ) *
          pow2 (max (binade x) (-1022) - 52) - x =
          ((roundHalfEven (x / pow2 (max (binade x) (-1022) - 52)) : ℚ) -
            x / pow2 (max (binade x) (-1022) - 52)) * pow2 (max (binade x) (-1022) - 52) := by
        rw [sub_mul, div_mul_cancel₀ _ (ne_of_gt hs)]
      rw [hsplit, abs_mul, abs_of_pos hs]
      have hhalf : pow2 (k - 53) = 1 / 2 * pow2 (k - 52) := by
        have : k - 53 = (-1) + (k - 52) := by ring
        have h1 : pow2 (-1) = 1 / 2 := by rw [pow2_eq_zpow]; norm_num
        rw [this, pow2_add, h1]
      rw [hhalf]
      have hmono : pow2 (max (binade x) (-1022) - 52) ≤ pow2 (k - 52) :=
        pow2_le_pow2 (by omega)
      calc |(roundHalfEven (x / pow2 (max (binade x) (-1022) - 52)) : ℚ) -
            x / pow2 (max (binade x) (-1022) - 52)| * pow2 (max (binade x) (-1022) - 52)
          ≤ 1 / 2 * pow2 (max (binade x) (-1022) - 52) :=
            mul_le_mul_of_nonneg_right hnear hs.le
        _ ≤ 1 / 2 * pow2 (k - 52) := by linarith

/-- A natural number below `2 ^ 53` is a double: rounding does not change
it. -/
theorem ofRat_natCast (n : ℕ) (hn : n < 2 ^ 53) : Double.ofRat (n : ℚ) = .fin (n : ℚ) := by
  rcases Nat.eq_zero_or_pos n with h0 | hpos
  · subst h0; simp [Double.ofRat]
  · have hx : (0 : ℚ) < (n : ℚ) := by exact_mod_cast hpos
    have hlt : (n : ℚ) < pow2 53 := by
      have : pow2 53 = ((2 ^ 53 : ℕ) : ℚ) := pow2_natCast 53
      rw [this]; exact_mod_cast hn
    have hb1 : binade (n : ℚ) < 53 := binade_lt_of_lt_pow2 _ 53 hx hlt
    have hb0 : 0 ≤ binade (n : ℚ) := by
      apply le_binade_of_pow2_le _ 0 hx
      have : pow2 0 = 1 := by simp [pow2]
      rw [this]; exact_mod_cast hpos
    have he : max (binade (n : ℚ)) (-1022) = binade (n : ℚ) := max_eq_left (by omega)
    have hm : 0 ≤ 52 - binade (n : ℚ) := by omega
    obtain ⟨m, hmeq⟩ := Int.eq_ofNat_of_zero_le hm
    have hs : 0 < pow2 (binade (n : ℚ) - 52) := pow2_pos _
    have hinv : pow2 (binade (n : ℚ) - 52) * ((2 ^ m : ℕ) : ℚ) = 1 := by
      rw [← pow2_natCast, ← pow2_add]
      have : binade (n : ℚ) - 52 + (m : ℤ) = 0 := by omega
      rw [this]; simp [pow2]
    have hquot : (n : ℚ) / pow2 (binade (n : ℚ) - 52) = (((n * 2 ^ m : ℕ) : ℤ) : ℚ) := by
      rw [div_eq_iff (ne_of_gt hs)]
      push_cast
      rw [mul_assoc, mul_comm ((2 : ℚ) ^ m), ]
      have h2 : pow2 (binade (n : ℚ) - 52) * (2 : ℚ) ^ m = 1 := by
        have := hinv
        push_cast at this
        exact this
      rw [h2, mul_one]
    have hy : (roundHalfEven ((n : ℚ) / pow2 (binade (n : ℚ) - 52)) : ℚ) *
        pow2 (binade (n : ℚ) - 52) = (n : ℚ) := by
      rw [hquot, roundHalfEven_intCast, ← hquot, div_mul_cancel₀ _ (ne_of_gt hs)]
    rw [ofRat_of_pos _ hx, he, hy]
    have hno : ¬ pow2 1024 ≤ (n : ℚ) := by
      have h1 : pow2 53 < pow2 1024 := pow2_lt_pow2 (by norm_num)
      intro h
      linarith
    rw [if_neg hno]

/-! ### Rounding and overflow of doubles at concrete inputs -/

/-- C6. For a weight whose product with a channel exceeds the largest double,
`mixColorsWithWeights` does not return the single colour: `#020202` with the
weight `2 ^ 1023` (a finite double) comes back as `#ffffff`, because each sum
`2 * weight` is `Infinity`, the quotient is `Infinity` and the clamp turns it
into 255.  The sibling `mixColorsSubtractive` returns `#020202` on the same
input, and so does `mixColorsWithWeights` with the weight 1. -/
theorem single_colour_lost_on_overflow :
    isValidColor "#020202" = true ∧ Double.ofRat (pow2 1023) = .fin (pow2 1023) ∧
      Double.isPositive (.fin (pow2 1023)) = true ∧
      IEEE.mixColorsWithWeights ["#020202"] [.fin (pow2 1023)] = .ok "#ffffff" ∧
      hexToRgb "#ffffff" = { r := some 255, g := some 255, b := some 255 } ∧
      hexToRgb "#020202" = { r := some 2, g := some 2, b := some 2 } ∧
      IEEE.mixColorsSubtractive ["#020202"] [.fin (pow2 1023)] = .ok "#020202" ∧
      IEEE.mixColorsWithWeights ["#020202"] [.fin 1] = .ok "#020202" := by
  decide!

/-- C8. The returned string is not always a colour: two whites with the finite
weights `2 ^ 1023` and `2 ^ 1023` give the total weight and the three sums
`Infinity`, their quotient is `NaN`, the clamp keeps `NaN`, and
`mixColorsWithWeights` returns the ten characters `#NaNNaNNaN`. -/
theorem overflow_returns_nan_string :
    Double.ofRat (pow2 1023) = .fin (pow2 1023) ∧
      IEEE.mixColorsWithWeights ["#FFFFFF", "#FFFFFF"] [.fin (pow2 1023), .fin (pow2 1023)] =
        .ok "#NaNNaNNaN" ∧
      "#NaNNaNNaN".length = 10 ∧ isValidColor "#NaNNaNNaN" = false ∧
      (Double.div .inf .inf).round = .nan ∧ Double.clamp .nan = .nan := by
  decide!

/-- C19. With valid colours and positive finite weights the loop can return a
string that is not `#` and six lower-case hexadecimal digits: red and green
with the weights `2 ^ 1023` and `2 ^ 1023` give `#NaNNaN00` from
`mixColorsWithWeights` (the sums of red and of green are `Infinity`, as is the
total weight).  With the weight 1 the single colour `#FFFFFF` comes back as
`#ffffff`. -/
theorem overflow_result_is_not_lower_case_hex :
    (∃ c ∈ ["#FF0000", "#00FF00"], isValidColor c = true) ∧
      (∃ w ∈ [Double.fin (pow2 1023), Double.fin (pow2 1023)], w.isPositive = true) ∧
      IEEE.mixColorsWithWeights ["#FF0000", "#00FF00"] [.fin (pow2 1023), .fin (pow2 1023)] =
        .ok "#NaNNaN00" ∧
      isLowerHexColor "#NaNNaN00" = false ∧
      IEEE.mixColorsWithWeights ["#FFFFFF"] [.fin 1] = .ok "#ffffff" ∧
      IEEE.mixColorsSubtractive ["#FFFFFF"] [.fin 1] = .ok "#ffffff" :=
  ⟨⟨"#FF0000", by decide, by decide⟩, ⟨.fin (pow2 1023), by decide!, by decide!⟩,
    by decide!, by decide, by decide!, by decide!⟩

/-- C5, as stated: scaling the weights 1 and 1 of `#000000` and `#030303` by
the double nearest to 0.7 changes the result from `#020202` to `#010101`: the
product `3 * 0.7` rounds to `2.0999999999999996`, and its quotient by `1.4`
lies below `1.5`. -/
theorem scaling_by_seven_tenths_changes_result :
    Double.ofRat (7 / 10) = .fin (3152519739159347 / 4503599627370496) ∧
      Double.isPositive (Double.ofRat (7 / 10)) = true ∧
      IEEE.mixColorsWithWeights ["#000000", "#030303"] [.fin 1, .fin 1] = .ok "#020202" ∧
      IEEE.mixColorsWithWeights ["#000000", "#030303"]
        ([Double.fin 1, Double.fin 1].map fun w => (Double.ofRat (7 / 10)).mul w) =
        .ok "#010101" := by
  decide!

/-- C14, as stated: with the weights `2 ^ 53 + 2` and `2 ^ 53` (both doubles,
at the positions 0 and 1 of two valid colours) the total weight rounds to
`2 ^ 54`, the quotient is exactly `1 / 2` and the result is `#010101`, while
the exact mean lies below `1 / 2` and rounds to 0, encoded as `#000000`. -/
theorem rounded_total_changes_the_mean :
    Double.ofRat (pow2 53 + 2) = .fin (pow2 53 + 2) ∧
      positivePositions [pow2 53 + 2, pow2 53] = [0, 1] ∧
      validColors ["#000000", "#010101"] = ["#000000", "#010101"] ∧
      IEEE.mixColorsWithWeights ["#000000", "#010101"]
        ([pow2 53 + 2, pow2 53].map Double.fin) = .ok "#010101" ∧
      mathRound (pairedMean RGB.r (validColors ["#000000", "#010101"])
        [pow2 53 + 2, pow2 53]) = 0 ∧
      mathRound (pairedMean RGB.g (validColors ["#000000", "#010101"])
        [pow2 53 + 2, pow2 53]) = 0 ∧
      mathRound (pairedMean RGB.b (validColors ["#000000", "#010101"])
        [pow2 53 + 2, pow2 53]) = 0 ∧
      encode { r := some 0, g := some 0, b := some 0 } = "#000000" := by
  decide!

/-- C15, as stated: on `#666666` and `#000000` with the weights 5 and 7
`mixColorsSubtractive` returns `#2a2a2a` (`102 * (1 - 7 / 12)` is computed as
`42.49999999999999`) and `mixColorsWithWeights` returns `#2b2b2b` (`510 / 12`
is exactly `42.5`). -/
theorem two_colours_can_differ_by_one :
    (∀ c ∈ ["#666666", "#000000"], isValidColor c = true) ∧
      IEEE.mixColorsSubtractive ["#666666", "#000000"] [.fin 5, .fin 7] = .ok "#2a2a2a" ∧
      IEEE.mixColorsWithWeights ["#666666", "#000000"] [.fin 5, .fin 7] = .ok "#2b2b2b" := by
  decide!

/-- C16, as stated: on black and white with the weights `2 ^ 1023` and
`2 ^ 1023` the total weight overflows in the second pass, the ratio
`weight / Infinity` is 0 and `mixColorsSubtractive` returns black, 127.5 away
from the exact mean where the claim allows `(2 - 1) / 2`. -/
theorem overflow_breaks_the_error_bound :
    IEEE.mixColorsSubtractive ["#000000", "#FFFFFF"] [.fin (pow2 1023), .fin (pow2 1023)] =
        .ok "#000000" ∧
      hexToRgb "#000000" = { r := some 0, g := some 0, b := some 0 } ∧
      pairedMean RGB.r ["#000000", "#FFFFFF"] [pow2 1023, pow2 1023] = 255 / 2 ∧
      ((positivePositions [pow2 1023, pow2 1023]).length : ℚ) = 2 ∧
      ¬ |(0 : ℚ) - 255 / 2| ≤ (2 - 1) / 2 := by
  refine ⟨by decide!, by decide!, by decide!, by decide!, ?_⟩
  norm_num [abs_of_neg]

/-- C18, as stated: on `#020202` with the weight `2 ^ 1023` the loop ends with
the three sums `Infinity` and a positive total weight, the channel
`Math.round(sum / totalWeight)` is `Infinity`, not a number from 0 to 255, and
the clamp changes it to 255. -/
theorem clamp_acts_on_overflow :
    ((IEEE.validColorIndices [.fin (pow2 1023)]).zip
          (IEEE.validWeights [.fin (pow2 1023)])).foldlM
        (IEEE.weightedStep ((validColors ["#020202"]).map hexToRgb)) IEEE.weightedInit =
        .ok { totalWeight := .fin (pow2 1023), r := .inf, g := .inf, b := .inf } ∧
      Double.isPositive (.fin (pow2 1023)) = true ∧
      (Double.div .inf (.fin (pow2 1023))).round = .inf ∧
      Double.clamp .inf = .fin 255 ∧ Double.clamp .inf ≠ .inf := by
  decide!

/-! ### The mixers over doubles in terms of their loops -/

theorem isPositive_fin (q : ℚ) : (Double.fin q).isPositive = decide (q > 0) := rfl

theorem ieee_validWeights_map_fin (qs : List ℚ) :
    IEEE.validWeights (qs.map Double.fin) = (validWeights qs).map Double.fin := by
  unfold IEEE.validWeights validWeights
  rw [List.filter_map]
  rfl

theorem ieee_validColorIndices_map_fin (qs : List ℚ) :
    IEEE.validColorIndices (qs.map Double.fin) = validColorIndices qs := by
  unfold IEEE.validColorIndices validColorIndices
  rw [List.enum_map, List.map_map]
  congr 1
  apply List.map_congr_left
  intro p _
  simp [isPositive_fin]

theorem ieee_zip_validColorIndices (qs : List ℚ) :
    (IEEE.validColorIndices (qs.map Double.fin)).zip (IEEE.validWeights (qs.map Double.fin)) =
      IEEE.selected qs := by
  rw [ieee_validColorIndices_map_fin, ieee_validWeights_map_fin, IEEE.selected,
    ← zip_validColorIndices, List.zip_map_right]
  rfl

theorem ieee_mixColorsWithWeights_eq (colors : List String) (qs : List ℚ) :
    IEEE.mixColorsWithWeights colors (qs.map Double.fin) =
      if validColors colors = [] then .ok "#FFFFFF"
      else if validWeights qs = [] then .ok "#FFFFFF"
      else IEEE.weightedLoop ((validColors colors).map hexToRgb) (IEEE.selected qs) := by
  unfold IEEE.mixColorsWithWeights IEEE.weightedLoop
  by_cases h0 : colors.length = 0
  · rw [if_pos h0, if_pos (validColors_eq_nil_of_nil colors h0)]
  · rw [if_neg h0]
    simp only [ieee_zip_validColorIndices]
    simp only [List.length_eq_zero, ieee_validWeights_map_fin, List.map_eq_nil_iff]

theorem ieee_mixColorsSubtractive_eq (colors : List String) (qs : List ℚ) :
    IEEE.mixColorsSubtractive colors (qs.map Double.fin) =
      if validColors colors = [] then .ok "#FFFFFF"
      else if validWeights qs = [] then .ok "#FFFFFF"
      else IEEE.subtractiveLoop (validColors colors) (IEEE.selected qs) := by
  unfold IEEE.mixColorsSubtractive IEEE.subtractiveLoop
  by_cases h0 : colors.length = 0
  · rw [if_pos h0, if_pos (validColors_eq_nil_of_nil colors h0)]
  · rw [if_neg h0]
    simp only [ieee_zip_validColorIndices]
    simp only [List.length_eq_zero, ieee_validWeights_map_fin, List.map_eq_nil_iff]

theorem natWeights_eq (ws : List ℕ) : natWeights ws = (ratWeights ws).map Double.fin := by
  simp [natWeights, ratWeights]

/-! ### Natural weights: the loop of `mixColorsWithWeights` does not round -/

theorem ofRat_eq_of_natCast (q : ℚ) (n : ℕ) (h : q = (n : ℚ)) (hn : n < 2 ^ 53) :
    Double.ofRat q = .fin q := by
  rw [h]; exact ofRat_natCast n hn

theorem double_add_natCast (a b : ℕ) (h : a + b < 2 ^ 53) :
    (Double.fin (a : ℚ)).add (.fin (b : ℚ)) = .fin ((a : ℚ) + (b : ℚ)) := by
  simp only [Double.add]
  exact ofRat_eq_of_natCast _ (a + b) (by push_cast; ring) h

theorem double_mul_natCast (a b : ℕ) (h : a * b < 2 ^ 53) :
    (Double.fin (a : ℚ)).mul (.fin (b : ℚ)) = .fin ((a : ℚ) * (b : ℚ)) := by
  simp only [Double.mul]
  exact ofRat_eq_of_natCast _ (a * b) (by push_cast; ring) h

theorem addWeighted_exact (x c n : ℕ) (h : x + c * n < 2 ^ 53) :
    (Double.ofChannel (some (x : ℚ))).add
        ((Double.ofChannel (some (c : ℚ))).mul (.fin (n : ℚ))) =
      Double.ofChannel (addWeighted (some (x : ℚ)) (some (c : ℚ)) (n : ℚ)) := by
  have h1 : c * n < 2 ^ 53 := Nat.lt_of_le_of_lt (Nat.le_add_left _ _) h
  simp only [Double.ofChannel, addWeighted, Option.some_bind, Option.map_some']
  rw [double_mul_natCast c n h1]
  simp only [Double.add]
  exact ofRat_eq_of_natCast _ (x + c * n) (by push_cast; ring) h

theorem weightedStep_exact (rgbColors : List RGB) (hgood : ∀ c ∈ rgbColors, c.Good)
    (st : MixState) (i : ℤ) (n : ℕ) (hst : st.NatBounded)
    (hsum : 255 * (st.totalWeight + (n : ℚ)) < 2 ^ 53) :
    IEEE.weightedStep rgbColors (IEEE.ofExact st) (i, .fin (n : ℚ)) =
        Except.map IEEE.ofExact (weightedStep rgbColors st (i, (n : ℚ))) ∧
      ∀ st1, weightedStep rgbColors st (i, (n : ℚ)) = .ok st1 →
        st1.NatBounded ∧ st1.totalWeight = st.totalWeight + (n : ℚ) := by
  obtain ⟨t, x, y, z, rfl, hx, hy, hz⟩ := hst
  have hs : 255 * (t + n) < 2 ^ 53 := by
    have : ((255 * (t + n) : ℕ) : ℚ) < ((2 ^ 53 : ℕ) : ℚ) := by
      push_cast; exact hsum
    exact_mod_cast this
  unfold IEEE.weightedStep weightedStep
  cases hj : jsIndex rgbColors i with
  | none => exact ⟨rfl, fun st1 h => absurd h (by simp)⟩
  | some c =>
    obtain ⟨⟨a, ha, ea⟩, ⟨b, hb, eb⟩, ⟨d, hd, ed⟩⟩ := hgood c (jsIndex_mem _ _ _ hj)
    have han : a * n ≤ 255 * n := Nat.mul_le_mul_right _ ha
    have hbn : b * n ≤ 255 * n := Nat.mul_le_mul_right _ hb
    have hdn : d * n ≤ 255 * n := Nat.mul_le_mul_right _ hd
    constructor
    · simp only [IEEE.ofExact, Except.map, ea, eb, ed]
      rw [double_add_natCast t n (by omega), addWeighted_exact x a n (by omega),
        addWeighted_exact y b n (by omega), addWeighted_exact z d n (by omega)]
    · intro st1 h
      simp only [Except.ok.injEq] at h
      subst h
      refine ⟨⟨t + n, x + a * n, y + b * n, z + d * n, ?_, by omega, by omega, by omega⟩, rfl⟩
      simp only [ea, eb, ed, addWeighted, Option.some_bind, Option.map_some']
      push_cast
      rfl

theorem foldlM_weightedStep_exact (rgbColors : List RGB) (hgood : ∀ c ∈ rgbColors, c.Good)
    (pairs : List (ℤ × ℚ)) (hnat : ∀ p ∈ pairs, ∃ n : ℕ, p.2 = (n : ℚ)) (st : MixState)
    (hst : st.NatBounded)
    (hsum : 255 * (st.totalWeight + (pairs.map Prod.snd).sum) < 2 ^ 53) :
    (pairs.map fun p => (p.1, Double.fin p.2)).foldlM (IEEE.weightedStep rgbColors)
        (IEEE.ofExact st) =
        Except.map IEEE.ofExact (pairs.foldlM (weightedStep rgbColors) st) ∧
      ∀ st1, pairs.foldlM (weightedStep rgbColors) st = .ok st1 →
        st1.NatBounded ∧ st1.totalWeight = st.totalWeight + (pairs.map Prod.snd).sum := by
  induction pairs generalizing st with
  | nil =>
    refine ⟨rfl, fun st1 h => ?_⟩
    simp only [List.foldlM_nil, pure, Except.pure, Except.ok.injEq] at h
    subst h
    exact ⟨hst, by simp⟩
  | cons p ps ih =>
    obtain ⟨n, hn⟩ := hnat p (List.mem_cons_self _ _)
    obtain ⟨i, w⟩ := p
    simp only at hn
    subst hn
    simp only [List.map_cons, List.sum_cons] at hsum
    have hrest : 0 ≤ (ps.map Prod.snd).sum := by
      apply List.sum_nonneg
      intro q hq
      obtain ⟨p, hp, rfl⟩ := List.mem_map.1 hq
      obtain ⟨m, hm⟩ := hnat p (List.mem_cons_of_mem _ hp)
      rw [hm]; exact Nat.cast_nonneg m
    obtain ⟨h1, h2⟩ := weightedStep_exact rgbColors hgood st i n hst (by linarith)
    simp only [List.map_cons, List.foldlM_cons, h1]
    cases hs : weightedStep rgbColors st (i, (n : ℚ)) with
    | error e =>
      exact ⟨rfl, fun st1 h => absurd h (by simp [bind, Except.bind])⟩
    | ok st2 =>
      obtain ⟨hb2, ht2⟩ := h2 st2 hs
      obtain ⟨h3, h4⟩ := ih (fun q hq => hnat q (List.mem_cons_of_mem _ hq)) st2 hb2
        (by rw [ht2]; linarith)
      constructor
      · simp only [Except.map, bind, Except.bind]
        exact h3
      · intro st1 h
        simp only [bind, Except.bind] at h
        obtain ⟨h5, h6⟩ := h4 st1 h
        exact ⟨h5, by rw [h6, ht2, List.sum_cons]; ring⟩

/-! ### Rounding a quotient of small natural numbers -/

/-- A positive number below `2 ^ 1024` that is an integer multiple of the
spacing of its binade is a double. -/
theorem ofRat_exact (x : ℚ) (hx : 0 < x) (hlt : x < pow2 1024) (z : ℤ)
    (hz : x = (z : ℚ) * pow2 (max (binade x) (-1022) - 52)) : Double.ofRat x = .fin x := by
  have hs : 0 < pow2 (max (binade x) (-1022) - 52) := pow2_pos _
  have hquot : x / pow2 (max (binade x) (-1022) - 52) = (z : ℚ) := by
    rw [div_eq_iff (ne_of_gt hs)]; exact hz
  rw [ofRat_of_pos x hx, hquot, roundHalfEven_intCast, ← hz, if_neg (not_le.2 hlt)]

/-- Half of a natural number below `2 ^ 53` is a double. -/
theorem ofRat_half (n : ℕ) (hn : n < 2 ^ 53) :
    Double.ofRat ((n : ℚ) / 2) = .fin ((n : ℚ) / 2) := by
  rcases Nat.eq_zero_or_pos n with h0 | hpos
  · subst h0; simp [Double.ofRat]
  · have hn1 : (1 : ℚ) ≤ (n : ℚ) := by exact_mod_cast hpos
    have hx : (0 : ℚ) < (n : ℚ) / 2 := by linarith
    have h52 : pow2 52 = ((2 ^ 52 : ℕ) : ℚ) := pow2_natCast 52
    have hlt : (n : ℚ) / 2 < pow2 52 := by
      have : (n : ℚ) < ((2 ^ 53 : ℕ) : ℚ) := by exact_mod_cast hn
      rw [h52]
      push_cast at this ⊢
      linarith
    have hm1 : pow2 (-1) = 1 / 2 := by rw [pow2_eq_zpow]; norm_num
    have hb1 : binade ((n : ℚ) / 2) < 52 := binade_lt_of_lt_pow2 _ 52 hx hlt
    have hb0 : -1 ≤ binade ((n : ℚ) / 2) := by
      apply le_binade_of_pow2_le _ (-1) hx
      rw [hm1]; linarith
    have he : max (binade ((n : ℚ) / 2)) (-1022) = binade ((n : ℚ) / 2) :=
      max_eq_left (by omega)
    have hm : 0 ≤ 51 - binade ((n : ℚ) / 2) := by omega
    obtain ⟨m, hmeq⟩ := Int.eq_ofNat_of_zero_le hm
    have hinv : pow2 (binade ((n : ℚ) / 2) - 52) * ((2 ^ m : ℕ) : ℚ) = 1 / 2 := by
      rw [← pow2_natCast, ← pow2_add]
      have : binade ((n : ℚ) / 2) - 52 + (m : ℤ) = -1 := by omega
      rw [this, hm1]
    apply ofRat_exact _ hx (lt_trans hlt (pow2_lt_pow2 (by norm_num))) ((n * 2 ^ m : ℕ) : ℤ)
    rw [he]
    push_cast
    push_cast at hinv
    rw [mul_assoc, mul_comm ((2 : ℚ) ^ m), hinv]
    ring

/-- A number within `δ` of the fraction `N / D`, with `δ` below `1 / (2 D)`,
rounds to an integer within `1 / 2` of the fraction. -/
theorem mathRound_near_of_close (N : ℤ) (D : ℕ) (hD : 0 < D) (s δ : ℚ)
    (h : |s - (N : ℚ) / D| ≤ δ) (hδ : δ * (2 * D) < 1) :
    |((mathRound s : ℤ) : ℚ) - (N : ℚ) / D| ≤ 1 / 2 := by
  have hDq : (0 : ℚ) < (D : ℚ) := by exact_mod_cast hD
  have h1 : ((mathRound s : ℤ) : ℚ) ≤ s + 1 / 2 := Int.floor_le (s + 1 / 2)
  have h2 : s + 1 / 2 < ((mathRound s : ℤ) : ℚ) + 1 := Int.lt_floor_add_one (s + 1 / 2)
  obtain ⟨hlo, hhi⟩ := abs_le.1 h
  have hxD : (N : ℚ) / D * D = N := div_mul_cancel₀ _ (ne_of_gt hDq)
  have hup : 2 * (D : ℤ) * mathRound s ≤ 2 * N + D := by
    have : ((2 * (D : ℤ) * mathRound s : ℤ) : ℚ) < ((2 * N + D + 1 : ℤ) : ℚ) := by
      push_cast
      have e1 : ((mathRound s : ℤ) : ℚ) * (2 * D) ≤ ((N : ℚ) / D + δ + 1 / 2) * (2 * D) :=
        mul_le_mul_of_nonneg_right (by linarith) (by positivity)
      have e2 : ((N : ℚ) / D + δ + 1 / 2) * (2 * D) = 2 * ((N : ℚ) / D * D) + δ * (2 * D) + D := by
        ring
      rw [e2, hxD] at e1
      linarith
    exact Int.lt_add_one_iff.1 (by exact_mod_cast this)
  have hdn : 2 * N - D ≤ 2 * (D : ℤ) * mathRound s := by
    have : ((2 * N - D - 1 : ℤ) : ℚ) < ((2 * (D : ℤ) * mathRound s : ℤ) : ℚ) := by
      push_cast
      have e1 : ((N : ℚ) / D - δ - 1 / 2) * (2 * D) < ((mathRound s : ℤ) : ℚ) * (2 * D) :=
        mul_lt_mul_of_pos_right (by linarith) (by positivity)
      have e2 : ((N : ℚ) / D - δ - 1 / 2) * (2 * D) = 2 * ((N : ℚ) / D * D) - δ * (2 * D) - D := by
        ring
      rw [e2, hxD] at e1
      linarith
    have h3 : 2 * N - D - 1 < 2 * (D : ℤ) * mathRound s := by exact_mod_cast this
    omega
  have hupq : ((2 * (D : ℤ) * mathRound s : ℤ) : ℚ) ≤ ((2 * N + D : ℤ) : ℚ) := by
    exact_mod_cast hup
  have hdnq : ((2 * N - D : ℤ) : ℚ) ≤ ((2 * (D : ℤ) * mathRound s : ℤ) : ℚ) := by
    exact_mod_cast hdn
  push_cast at hupq hdnq
  have e3 : ((mathRound s : ℤ) : ℚ) - (N : ℚ) / D =
      (2 * (D : ℚ) * (mathRound s : ℤ) - 2 * N) / (2 * D) := by
    field_simp
    ring
  rw [e3, abs_le]
  constructor
  · rw [le_div_iff₀ (by positivity)]; linarith
  · rw [div_le_iff₀ (by positivity)]; linarith

/-- The quotient `R / T` of two natural numbers with `R ≤ 255 T` and
`T ≤ 2 ^ 40`, computed in doubles, rounds to the same integer as the exact
quotient. -/
theorem ofRat_div_round (R T : ℕ) (hT : 0 < T) (hT40 : T ≤ 2 ^ 40) (hR : R ≤ 255 * T) :
    ∃ y, Double.ofRat ((R : ℚ) / T) = .fin y ∧ mathRound y = mathRound ((R : ℚ) / T) := by
  have hTq : (0 : ℚ) < (T : ℚ) := by exact_mod_cast hT
  have hRq : (R : ℚ) ≤ 255 * T := by exact_mod_cast hR
  have hT40q : (T : ℚ) ≤ 2 ^ 40 := by exact_mod_cast hT40
  have hx0 : (0 : ℚ) ≤ (R : ℚ) / T := by positivity
  have hx1 : (R : ℚ) / T ≤ 255 := by rw [div_le_iff₀ hTq]; exact hRq
  have h8 : pow2 8 = 256 := by rw [pow2_eq_zpow]; norm_num
  have h45 : pow2 (8 - 53) = 1 / 2 ^ 45 := by rw [pow2_eq_zpow]; norm_num
  obtain ⟨y, hy, -, -, hclose⟩ := ofRat_approx ((R : ℚ) / T) 8 hx0 (by rw [h8]; linarith)
    (by norm_num) (by norm_num)
  rw [h45] at hclose
  refine ⟨y, hy, ?_⟩
  have hnear := mathRound_near_of_close (R : ℤ) T hT y (1 / 2 ^ 45)
    (by simpa using hclose) (by
      have : (1 : ℚ) / 2 ^ 45 * (2 * T) ≤ 1 / 2 ^ 45 * (2 * 2 ^ 40) :=
        mul_le_mul_of_nonneg_left (by linarith) (by positivity)
      have e : (1 : ℚ) / 2 ^ 45 * (2 * 2 ^ 40) = 1 / 16 := by norm_num
      linarith)
  simp only [Int.cast_natCast] at hnear
  obtain ⟨nlo, nhi⟩ := abs_le.1 hnear
  have m1 : ((mathRound ((R : ℚ) / T) : ℤ) : ℚ) ≤ (R : ℚ) / T + 1 / 2 := Int.floor_le _
  have m2 : (R : ℚ) / T + 1 / 2 < ((mathRound ((R : ℚ) / T) : ℤ) : ℚ) + 1 :=
    Int.lt_floor_add_one _
  have hle : mathRound y ≤ mathRound ((R : ℚ) / T) := by
    have : ((mathRound y : ℤ) : ℚ) < ((mathRound ((R : ℚ) / T) + 1 : ℤ) : ℚ) := by
      push_cast; linarith
    have := Int.lt_add_one_iff.1 (by exact_mod_cast this : mathRound y < mathRound ((R : ℚ) / T) + 1)
    exact this
  have hge : mathRound ((R : ℚ) / T) - 1 ≤ mathRound y := by
    have : ((mathRound ((R : ℚ) / T) - 1 : ℤ) : ℚ) ≤ ((mathRound y : ℤ) : ℚ) := by
      push_cast; linarith
    exact_mod_cast this
  rcases eq_or_lt_of_le hle with heq | hlt
  · exact heq
  · exfalso
    have hm : mathRound y = mathRound ((R : ℚ) / T) - 1 := by omega
    have hmq : ((mathRound y : ℤ) : ℚ) = ((mathRound ((R : ℚ) / T) : ℤ) : ℚ) - 1 := by
      rw [hm]; push_cast; ring
    -- the exact quotient is a half-integer, hence a double
    have hxeq : (R : ℚ) / T = ((mathRound ((R : ℚ) / T) : ℤ) : ℚ) - 1 / 2 := by linarith
    have hpos : 0 ≤ 2 * mathRound ((R : ℚ) / T) - 1 := by
      have : (0 : ℚ) ≤ ((2 * mathRound ((R : ℚ) / T) - 1 : ℤ) : ℚ) := by
        push_cast; linarith
      exact_mod_cast this
    obtain ⟨k, hk⟩ := Int.eq_ofNat_of_zero_le hpos
    have hkq : (R : ℚ) / T = (k : ℚ) / 2 := by
      have : ((k : ℤ) : ℚ) = 2 * ((mathRound ((R : ℚ) / T) : ℤ) : ℚ) - 1 := by
        rw [← hk]; push_cast; ring
      rw [Int.cast_natCast] at this
      linarith
    have hk510 : k < 2 ^ 53 := by
      have : (k : ℚ) ≤ 510 := by linarith
      have : k ≤ 510 := by exact_mod_cast this
      omega
    rw [hkq, ofRat_half k hk510] at hy
    simp only [Double.fin.injEq] at hy
    rw [← hy, ← hkq] at hm
    omega

/-! ### Natural weights: `mixColorsWithWeights` in doubles and in exact numbers -/

theorem double_round_natCast (k : ℕ) : (Double.fin (k : ℚ)).round = .fin (k : ℚ) := by
  simp only [Double.round, mathRound_natCast, Int.cast_natCast]

theorem double_clamp_natCast (k : ℕ) (hk : k ≤ 255) :
    (Double.fin (k : ℚ)).clamp = .fin (k : ℚ) := by
  have h1 : min (255 : ℚ) (k : ℚ) = k := min_eq_right (by exact_mod_cast hk)
  have h2 : max (0 : ℚ) (k : ℚ) = k := max_eq_right (by positivity)
  simp only [Double.clamp, Double.min, Double.max, h1, h2]

theorem double_toHex_natCast (k : ℕ) : (Double.fin (k : ℚ)).toHex = hexPair k := by
  simp only [Double.toHex, double_round_natCast, hexPair, Int.floor_natCast, toString16_natCast]

theorem double_div_natCast (R T : ℕ) (hT : 0 < T) (hT40 : T ≤ 2 ^ 40) (hR : R ≤ 255 * T) :
    ∃ k : ℕ, k ≤ 255 ∧ mathRound ((R : ℚ) / T) = (k : ℤ) ∧
      ((Double.fin (R : ℚ)).div (.fin (T : ℚ))).round = .fin (k : ℚ) := by
  have hTq : (0 : ℚ) < (T : ℚ) := by exact_mod_cast hT
  have hRq : (R : ℚ) ≤ 255 * T := by exact_mod_cast hR
  obtain ⟨k, hk, hm⟩ := mathRound_of_mem_range ((R : ℚ) / T) (by positivity)
    (by rw [div_le_iff₀ hTq]; exact hRq)
  obtain ⟨y, hy, hyr⟩ := ofRat_div_round R T hT hT40 hR
  refine ⟨k, hk, hm, ?_⟩
  simp only [Double.div, if_neg (ne_of_gt hTq), hy, Double.round, hyr, hm, Int.cast_natCast]

theorem normalize_exact (R T : ℕ) (hT : 0 < T) (hT40 : T ≤ 2 ^ 40) (hR : R ≤ 255 * T) :
    (((Double.fin (R : ℚ)).div (.fin (T : ℚ))).round).clamp.toHex =
      toHex (clamp (normalize (some (R : ℚ)) (T : ℚ))) := by
  obtain ⟨k, hk, hm, hd⟩ := double_div_natCast R T hT hT40 hR
  rw [hd, double_clamp_natCast k hk, double_toHex_natCast]
  simp only [normalize, Option.map_some', hm, Int.cast_natCast, clamp_natCast k hk,
    toHex_natCast]

theorem weightedFinish_exact (st : MixState) (hst : st.NatBounded)
    (hT : st.totalWeight ≤ 2 ^ 40) :
    IEEE.weightedFinish (IEEE.ofExact st) = weightedFinish st := by
  obtain ⟨t, x, y, z, rfl, hx, hy, hz⟩ := hst
  simp only [IEEE.weightedFinish, weightedFinish, IEEE.ofExact, Double.ofChannel,
    isPositive_fin]
  have ht40 : t ≤ 2 ^ 40 := by
    have : (t : ℚ) ≤ ((2 ^ 40 : ℕ) : ℚ) := by push_cast; exact hT
    exact_mod_cast this
  rcases Nat.eq_zero_or_pos t with h0 | hpos
  · subst h0
    simp
  · have hq : (t : ℚ) > 0 := by exact_mod_cast hpos
    simp only [hq, decide_True, if_true]
    rw [normalize_exact x t hpos ht40 hx, normalize_exact y t hpos ht40 hy,
      normalize_exact z t hpos ht40 hz]

theorem weightedInit_natBounded : weightedInit.NatBounded :=
  ⟨0, 0, 0, 0, by simp [weightedInit], le_refl _, le_refl _, le_refl _⟩

theorem selectedFrom_ratWeights_nat (n : ℕ) (ws : List ℕ) :
    ∀ p ∈ selectedFrom n (ratWeights ws), ∃ m : ℕ, p.2 = (m : ℚ) := by
  induction ws generalizing n with
  | nil => intro p hp; simp [ratWeights, selectedFrom] at hp
  | cons w ws ih =>
    intro p hp
    simp only [ratWeights, List.map_cons, selectedFrom] at hp
    split at hp
    · rcases List.mem_cons.1 hp with rfl | hp
      · exact ⟨w, rfl⟩
      · exact ih _ p hp
    · exact ih _ p hp

theorem sum_validWeights_ratWeights (ws : List ℕ) :
    (validWeights (ratWeights ws)).sum = (ws.sum : ℚ) := by
  induction ws with
  | nil => simp [ratWeights, validWeights]
  | cons w ws ih =>
    have hc : ratWeights (w :: ws) = (w : ℚ) :: ratWeights ws := rfl
    rw [hc, List.sum_cons, Nat.cast_add, ← ih]
    unfold validWeights
    by_cases hw : (w : ℚ) > 0
    · rw [List.filter_cons_of_pos (by simpa using hw), List.sum_cons]
    · rw [List.filter_cons_of_neg (by simpa using hw)]
      have : (w : ℚ) = 0 := le_antisymm (not_lt.1 hw) (Nat.cast_nonneg w)
      rw [this, zero_add]

/-- For natural weights whose sum is at most `2 ^ 40` the loop of
`mixColorsWithWeights` computes in doubles what it computes in exact numbers:
no sum rounds, and the rounded quotients are the same. -/
theorem weightedLoop_exact (colors : List String) (ws : List ℕ) (hsum : ws.sum ≤ 2 ^ 40) :
    IEEE.weightedLoop ((validColors colors).map hexToRgb) (IEEE.selected (ratWeights ws)) =
      weightedLoop ((validColors colors).map hexToRgb) (selectedFrom 0 (ratWeights ws)) := by
  have hq : ((ws.sum : ℕ) : ℚ) ≤ 2 ^ 40 := by exact_mod_cast hsum
  have htot : ((selectedFrom 0 (ratWeights ws)).map Prod.snd).sum = (ws.sum : ℚ) := by
    rw [selectedFrom_map_snd, sum_validWeights_ratWeights]
  obtain ⟨h1, h2⟩ := foldlM_weightedStep_exact ((validColors colors).map hexToRgb)
    (good_of_mem_rgbColors colors) (selectedFrom 0 (ratWeights ws))
    (selectedFrom_ratWeights_nat 0 ws) weightedInit weightedInit_natBounded
    (by rw [htot]; simp only [weightedInit, zero_add]
        have : (255 : ℚ) * 2 ^ 40 < 2 ^ 53 := by norm_num
        linarith)
  have hinit : IEEE.ofExact weightedInit = IEEE.weightedInit := rfl
  rw [hinit] at h1
  unfold IEEE.weightedLoop weightedLoop IEEE.selected
  rw [h1]
  cases hs : (selectedFrom 0 (ratWeights ws)).foldlM
      (weightedStep ((validColors colors).map hexToRgb)) weightedInit with
  | error e => rfl
  | ok st =>
    obtain ⟨hb, ht⟩ := h2 st hs
    simp only [Except.map]
    rw [weightedFinish_exact st hb (by rw [ht, htot]; simp only [weightedInit, zero_add]; exact hq)]

theorem mixColorsWithWeights_exact (colors : List String) (ws : List ℕ)
    (hsum : ws.sum ≤ 2 ^ 40) :
    IEEE.mixColorsWithWeights colors (natWeights ws) =
      mixColorsWithWeights colors (ratWeights ws) := by
  rw [natWeights_eq, ieee_mixColorsWithWeights_eq, mixColorsWithWeights_eq,
    weightedLoop_exact colors ws hsum]

/-! ### Natural weights: scaling, the weighted mean and the range of a channel -/

theorem ratWeights_length (ws : List ℕ) : (ratWeights ws).length = ws.length := by
  simp [ratWeights]

theorem ratWeights_getD (ws : List ℕ) (i : ℕ) :
    (ratWeights ws).getD i 0 = ((ws.getD i 0 : ℕ) : ℚ) := by
  unfold ratWeights
  rw [List.getD_eq_getElem?_getD, List.getD_eq_getElem?_getD, List.getElem?_map]
  cases ws[i]? <;> simp

theorem ratWeights_getD_pos (ws : List ℕ) (i : ℕ) :
    (ratWeights ws).getD i 0 > 0 ↔ 0 < ws.getD i 0 := by
  rw [ratWeights_getD]
  exact Nat.cast_pos

theorem le_sum_of_mem_nat (ws : List ℕ) (w : ℕ) (h : w ∈ ws) : w ≤ ws.sum :=
  List.single_le_sum (fun _ _ => Nat.zero_le _) w h

theorem natWeights_scale (ws : List ℕ) (k : ℕ) (hsum : k * ws.sum < 2 ^ 53) :
    ((natWeights ws).map fun w => (Double.fin (k : ℚ)).mul w) =
      natWeights (ws.map fun w => k * w) := by
  unfold natWeights
  rw [List.map_map, List.map_map]
  apply List.map_congr_left
  intro w hw
  have h1 : k * w ≤ k * ws.sum := Nat.mul_le_mul_left _ (le_sum_of_mem_nat ws w hw)
  simp only [Function.comp]
  rw [double_mul_natCast k w (by omega)]
  push_cast
  rfl

theorem ratWeights_scale (ws : List ℕ) (k : ℕ) :
    ratWeights (ws.map fun w => k * w) = (ratWeights ws).map fun w => (k : ℚ) * w := by
  unfold ratWeights
  rw [List.map_map, List.map_map]
  apply List.map_congr_left
  intro w _
  simp

theorem sum_map_mul_nat (ws : List ℕ) (k : ℕ) : (ws.map fun w => k * w).sum = k * ws.sum := by
  induction ws with
  | nil => simp
  | cons w ws ih => simp only [List.map_cons, List.sum_cons, ih]; ring

/-- C5, amended. For weights that are natural numbers and a natural factor
`k > 0` with `k` times the sum of the weights at most `2 ^ 40`, multiplying
every weight by `k` does not change the outcome of `mixColorsWithWeights`
computed in doubles: every sum of the loop is exact, and both runs round the
same quotients. -/
theorem scale_invariant_for_natural_weights (colors : List String) (ws : List ℕ) (k : ℕ)
    (hk : 0 < k) (hsum : k * ws.sum ≤ 2 ^ 40) :
    IEEE.mixColorsWithWeights colors
        ((natWeights ws).map fun w => (Double.fin (k : ℚ)).mul w) =
      IEEE.mixColorsWithWeights colors (natWeights ws) := by
  have h1 : ws.sum ≤ 2 ^ 40 := le_trans (Nat.le_mul_of_pos_left _ hk) hsum
  rw [natWeights_scale ws k (by omega),
    mixColorsWithWeights_exact colors _ (by rw [sum_map_mul_nat]; exact hsum),
    mixColorsWithWeights_exact colors ws h1, ratWeights_scale]
  exact mixColorsWithWeights_scale_invariant colors (ratWeights ws) (k : ℚ)
    (by exact_mod_cast hk)

theorem scale_invariant_for_natural_weights_witness :
    (0 < 3 ∧ 3 * [1, 0, 3].sum ≤ 2 ^ 40) ∧
      IEEE.mixColorsWithWeights ["#2563EB", "#EF4444", "#22C55E"]
          ((natWeights [1, 0, 3]).map fun w => (Double.fin ((3 : ℕ) : ℚ)).mul w) =
        IEEE.mixColorsWithWeights ["#2563EB", "#EF4444", "#22C55E"] (natWeights [1, 0, 3]) :=
  ⟨⟨by decide, by decide⟩,
    scale_invariant_for_natural_weights ["#2563EB", "#EF4444", "#22C55E"] [1, 0, 3] 3
      (by decide) (by decide)⟩

/-- C14, amended. For weights that are natural numbers with a sum of at most
`2 ^ 40`: when every index `i` with `weights[i] > 0` is smaller than the number
of valid colours, and there is such an index, `mixColorsWithWeights` computed
in doubles returns the hex encoding of the three channels
round-half-up(sum of `weights[i]` times the channel of `V[i]`, divided by the
sum of `weights[i]`), where `V` is the list of valid colours and `i` ranges
over the positions of the original weight list with a positive weight. -/
theorem weighted_mix_of_natural_weights (colors : List String) (ws : List ℕ)
    (hrange : ∀ i, i < ws.length → 0 < ws.getD i 0 → i < (validColors colors).length)
    (hex : ∃ i, i < ws.length ∧ 0 < ws.getD i 0) (hsum : ws.sum ≤ 2 ^ 40) :
    IEEE.mixColorsWithWeights colors (natWeights ws) =
      .ok (encode
        { r := some ((mathRound (pairedMean RGB.r (validColors colors) (ratWeights ws)) : ℤ) : ℚ)
          g := some ((mathRound (pairedMean RGB.g (validColors colors) (ratWeights ws)) : ℤ) : ℚ)
          b := some
            ((mathRound (pairedMean RGB.b (validColors colors) (ratWeights ws)) : ℤ) : ℚ) }) := by
  rw [mixColorsWithWeights_exact colors ws hsum]
  apply weighted_mix_pairs_weight_with_valid_colour
  · intro i hi hw
    rw [ratWeights_length] at hi
    exact hrange i hi ((ratWeights_getD_pos ws i).1 hw)
  · obtain ⟨i, hi, hw⟩ := hex
    exact ⟨i, by rw [ratWeights_length]; exact hi, (ratWeights_getD_pos ws i).2 hw⟩

theorem weighted_mix_of_natural_weights_witness :
    ((∀ i, i < [0, 1, 3].length → 0 < [0, 1, 3].getD i 0 →
          i < (validColors ["#102030", "oops", "#FFFFFF", "#000000"]).length) ∧
        (∃ i, i < [0, 1, 3].length ∧ 0 < [0, 1, 3].getD i 0) ∧ [0, 1, 3].sum ≤ 2 ^ 40) ∧
      IEEE.mixColorsWithWeights ["#102030", "oops", "#FFFFFF", "#000000"]
          (natWeights [0, 1, 3]) =
        .ok (encode
          { r := some ((mathRound (pairedMean RGB.r
              (validColors ["#102030", "oops", "#FFFFFF", "#000000"])
              (ratWeights [0, 1, 3])) : ℤ) : ℚ)
            g := some ((mathRound (pairedMean RGB.g
              (validColors ["#102030", "oops", "#FFFFFF", "#000000"])
              (ratWeights [0, 1, 3])) : ℤ) : ℚ)
            b := some ((mathRound (pairedMean RGB.b
              (validColors ["#102030", "oops", "#FFFFFF", "#000000"])
              (ratWeights [0, 1, 3])) : ℤ) : ℚ) }) :=
  ⟨⟨by decide, ⟨1, by decide⟩, by decide⟩,
    weighted_mix_of_natural_weights ["#102030", "oops", "#FFFFFF", "#000000"]
      [0, 1, 3] (by decide) ⟨1, by decide⟩ (by decide)⟩

theorem double_isByte_unchanged (d : Double) (h : d.IsByte) : d.Unchanged := by
  obtain ⟨k, hk, rfl⟩ := h
  exact ⟨double_clamp_natCast k hk, double_round_natCast k⟩

/-- C18, amended. In `mixColorsWithWeights` computed in doubles, for weights
that are natural numbers with a sum of at most `2 ^ 40`: when the loop has run
without an index outside the decoded colours and the total weight is positive,
each channel `Math.round(sum / totalWeight)` is an integer from 0 to 255, so
neither the clamp nor the rounding inside `toHex` changes it. -/
theorem natural_weights_keep_channels_in_range (colors : List String) (ws : List ℕ)
    (st : IEEE.MixState) (hsum : ws.sum ≤ 2 ^ 40)
    (hrun : ((IEEE.validColorIndices (natWeights ws)).zip
        (IEEE.validWeights (natWeights ws))).foldlM
      (IEEE.weightedStep ((validColors colors).map hexToRgb)) IEEE.weightedInit = .ok st)
    (hpos : st.totalWeight.isPositive = true) :
    ((st.r.div st.totalWeight).round.IsByte ∧ (st.g.div st.totalWeight).round.IsByte ∧
        (st.b.div st.totalWeight).round.IsByte) ∧
      (st.r.div st.totalWeight).round.Unchanged ∧
      (st.g.div st.totalWeight).round.Unchanged ∧
      (st.b.div st.totalWeight).round.Unchanged := by
  have hq : ((ws.sum : ℕ) : ℚ) ≤ 2 ^ 40 := by exact_mod_cast hsum
  have htot : ((selectedFrom 0 (ratWeights ws)).map Prod.snd).sum = (ws.sum : ℚ) := by
    rw [selectedFrom_map_snd, sum_validWeights_ratWeights]
  obtain ⟨h1, h2⟩ := foldlM_weightedStep_exact ((validColors colors).map hexToRgb)
    (good_of_mem_rgbColors colors) (selectedFrom 0 (ratWeights ws))
    (selectedFrom_ratWeights_nat 0 ws) weightedInit weightedInit_natBounded
    (by rw [htot]; simp only [weightedInit, zero_add]
        have : (255 : ℚ) * 2 ^ 40 < 2 ^ 53 := by norm_num
        linarith)
  have hinit : IEEE.ofExact weightedInit = IEEE.weightedInit := rfl
  rw [natWeights_eq, ieee_zip_validColorIndices, IEEE.selected, ← hinit, h1] at hrun
  cases hs : (selectedFrom 0 (ratWeights ws)).foldlM
      (weightedStep ((validColors colors).map hexToRgb)) weightedInit with
  | error e => rw [hs] at hrun; exact absurd hrun (by simp [Except.map])
  | ok st0 =>
    rw [hs] at hrun
    simp only [Except.map, Except.ok.injEq] at hrun
    obtain ⟨⟨t, x, y, z, rfl, hx, hy, hz⟩, ht⟩ := h2 st0 hs
    subst hrun
    simp only [IEEE.ofExact, Double.ofChannel, isPositive_fin, decide_eq_true_eq] at hpos ⊢
    have htpos : 0 < t := by exact_mod_cast hpos
    have ht40 : t ≤ 2 ^ 40 := by
      simp only [weightedInit, zero_add, htot] at ht
      have : (t : ℚ) ≤ ((2 ^ 40 : ℕ) : ℚ) := by push_cast; rw [ht]; exact hq
      exact_mod_cast this
    obtain ⟨kr, hkr, -, er⟩ := double_div_natCast x t htpos ht40 hx
    obtain ⟨kg, hkg, -, eg⟩ := double_div_natCast y t htpos ht40 hy
    obtain ⟨kb, hkb, -, eb⟩ := double_div_natCast z t htpos ht40 hz
    have br : ((Double.fin (x : ℚ)).div (.fin (t : ℚ))).round.IsByte := ⟨kr, hkr, er⟩
    have bg : ((Double.fin (y : ℚ)).div (.fin (t : ℚ))).round.IsByte := ⟨kg, hkg, eg⟩
    have bb : ((Double.fin (z : ℚ)).div (.fin (t : ℚ))).round.IsByte := ⟨kb, hkb, eb⟩
    exact ⟨⟨br, bg, bb⟩, double_isByte_unchanged _ br, double_isByte_unchanged _ bg,
      double_isByte_unchanged _ bb⟩

theorem natural_weights_keep_channels_in_range_witness :
    ([2, 0, 2].sum ≤ 2 ^ 40 ∧
      ((IEEE.validColorIndices (natWeights [2, 0, 2])).zip
          (IEEE.validWeights (natWeights [2, 0, 2]))).foldlM
        (IEEE.weightedStep ((validColors ["#2563EB", "#EF4444", "#22C55E"]).map hexToRgb))
        IEEE.weightedInit =
        .ok { totalWeight := .fin 4, r := .fin 142, g := .fin 592, b := .fin 658 } ∧
      (Double.fin 4).isPositive = true) ∧
      (((Double.fin 142).div (.fin 4)).round.IsByte ∧
          ((Double.fin 592).div (.fin 4)).round.IsByte ∧
          ((Double.fin 658).div (.fin 4)).round.IsByte) ∧
        ((Double.fin 142).div (.fin 4)).round.Unchanged ∧
        ((Double.fin 592).div (.fin 4)).round.Unchanged ∧
        ((Double.fin 658).div (.fin 4)).round.Unchanged :=
  ⟨⟨by decide, by decide!, by decide!⟩,
    natural_weights_keep_channels_in_range ["#2563EB", "#EF4444", "#22C55E"] [2, 0, 2]
      { totalWeight := .fin 4, r := .fin 142, g := .fin 592, b := .fin 658 }
      (by decide) (by decide!) (by decide!)⟩

/-! ### Natural weights: one pass of the loop of `mixColorsSubtractive` in doubles -/

theorem abs_mul_le_255 (a e ε : ℚ) (h0 : 0 ≤ a) (h1 : a ≤ 255) (he : |e| ≤ ε) :
    |a * e| ≤ 255 * ε := by
  rw [abs_mul, abs_of_nonneg h0]
  exact mul_le_mul h1 he (abs_nonneg _) (by norm_num)

theorem pow2_zero : pow2 0 = 1 := by simp [pow2]

theorem pow2_neg53 : pow2 (0 - 53) = 1 / 2 ^ 53 := by rw [pow2_eq_zpow]; norm_num

/-- The weight ratio `weight / totalWeight` of one pass, in doubles: a number
from 0 to 1, at most `2 ^ -53` away from the exact ratio. -/
theorem ieee_ratio (T w : ℕ) (hw : 0 < w) (h53 : T + w < 2 ^ 53) :
    ∃ t, (Double.fin (w : ℚ)).div ((Double.fin (T : ℚ)).add (.fin (w : ℚ))) = .fin t ∧
      0 ≤ t ∧ t ≤ 1 ∧ |t - (w : ℚ) / ((T : ℚ) + w)| ≤ 1 / 2 ^ 53 := by
  have hwq : (0 : ℚ) < (w : ℚ) := by exact_mod_cast hw
  have hTq : (0 : ℚ) ≤ (T : ℚ) := Nat.cast_nonneg T
  have hpos : (0 : ℚ) < (T : ℚ) + w := by linarith
  have hx1 : (w : ℚ) / ((T : ℚ) + w) ≤ 1 := by rw [div_le_one hpos]; linarith
  obtain ⟨t, ht, h0, h1, hc⟩ := ofRat_approx ((w : ℚ) / ((T : ℚ) + w)) 0 (by positivity)
    (by rw [pow2_zero]; exact hx1) (by norm_num) (by norm_num)
  rw [pow2_zero] at h1
  rw [pow2_neg53] at hc
  refine ⟨t, ?_, h0, h1, hc⟩
  rw [double_add_natCast T w h53]
  simp only [Double.div, if_neg (ne_of_gt hpos), ht]

theorem pow2_eight : pow2 8 = 256 := by rw [pow2_eq_zpow]; norm_num

theorem pow2_nine : pow2 9 = 512 := by rw [pow2_eq_zpow]; norm_num

theorem pow2_neg45 : pow2 (8 - 53) = 1 / 2 ^ 45 := by rw [pow2_eq_zpow]; norm_num

theorem pow2_neg44 : pow2 (9 - 53) = 1 / 2 ^ 44 := by rw [pow2_eq_zpow]; norm_num

/-- The sum `acc * (1 - weightRatio) + channel * weightRatio` of line 97 in
doubles, for an accumulator and a channel that are integers from 0 to 255 and
a ratio from 0 to 1 that is at most `2 ^ -53` away from `t0`: the four
roundings move the sum at most `2 ^ -42` away from the exact
`acc * (1 - t0) + channel * t0`. -/
theorem ieee_blend_close (a c : ℕ) (ha : a ≤ 255) (hc : c ≤ 255) (t t0 : ℚ) (ht0 : 0 ≤ t)
    (ht1 : t ≤ 1) (hclose : |t - t0| ≤ 1 / 2 ^ 53) :
    ∃ s, ((Double.fin (a : ℚ)).mul ((Double.fin 1).sub (.fin t))).add
        ((Double.fin (c : ℚ)).mul (.fin t)) = .fin s ∧
      |s - ((a : ℚ) * (1 - t0) + (c : ℚ) * t0)| ≤ 1 / 2 ^ 42 := by
  have haq0 : (0 : ℚ) ≤ (a : ℚ) := Nat.cast_nonneg a
  have hcq0 : (0 : ℚ) ≤ (c : ℚ) := Nat.cast_nonneg c
  have haq : (a : ℚ) ≤ 255 := by exact_mod_cast ha
  have hcq : (c : ℚ) ≤ 255 := by exact_mod_cast hc
  -- 1 - weightRatio
  obtain ⟨u, hu, hu0, hu1, huc⟩ := ofRat_approx (1 + -t) 0 (by linarith)
    (by rw [pow2_zero]; linarith) (by norm_num) (by norm_num)
  rw [pow2_zero] at hu1
  rw [pow2_neg53] at huc
  -- acc * (1 - weightRatio)
  have hau : (a : ℚ) * u ≤ 255 := by
    calc (a : ℚ) * u ≤ 255 * 1 := mul_le_mul haq hu1 hu0 (by norm_num)
      _ = 255 := by norm_num
  obtain ⟨p, hp, hp0, hp1, hpc⟩ := ofRat_approx ((a : ℚ) * u) 8 (mul_nonneg haq0 hu0)
    (by rw [pow2_eight]; linarith) (by norm_num) (by norm_num)
  rw [pow2_eight] at hp1
  rw [pow2_neg45] at hpc
  -- channel * weightRatio
  have hct : (c : ℚ) * t ≤ 255 := by
    calc (c : ℚ) * t ≤ 255 * 1 := mul_le_mul hcq ht1 ht0 (by norm_num)
      _ = 255 := by norm_num
  obtain ⟨q, hq, hq0, hq1, hqc⟩ := ofRat_approx ((c : ℚ) * t) 8 (mul_nonneg hcq0 ht0)
    (by rw [pow2_eight]; linarith) (by norm_num) (by norm_num)
  rw [pow2_eight] at hq1
  rw [pow2_neg45] at hqc
  -- the sum
  obtain ⟨s, hs, -, -, hsc⟩ := ofRat_approx (p + q) 9 (by linarith)
    (by rw [pow2_nine]; linarith) (by norm_num) (by norm_num)
  rw [pow2_neg44] at hsc
  refine ⟨s, ?_, ?_⟩
  · simp only [Double.sub, Double.neg, Double.add, Double.mul, hu, hp, hq, hs]
  · have e1 := abs_mul_le_255 (a : ℚ) (u - (1 + -t)) _ haq0 haq huc
    have e2 := abs_mul_le_255 (a : ℚ) (t - t0) _ haq0 haq hclose
    have e3 := abs_mul_le_255 (c : ℚ) (t - t0) _ hcq0 hcq hclose
    have hsplit : s - ((a : ℚ) * (1 - t0) + (c : ℚ) * t0) =
        (s - (p + q)) + (p - (a : ℚ) * u) + (q - (c : ℚ) * t) + (a : ℚ) * (u - (1 + -t)) -
          (a : ℚ) * (t - t0) + (c : ℚ) * (t - t0) := by ring
    rw [hsplit]
    obtain ⟨a1, b1⟩ := abs_le.1 hsc
    obtain ⟨a2, b2⟩ := abs_le.1 hpc
    obtain ⟨a3, b3⟩ := abs_le.1 hqc
    obtain ⟨a4, b4⟩ := abs_le.1 e1
    obtain ⟨a5, b5⟩ := abs_le.1 e2
    obtain ⟨a6, b6⟩ := abs_le.1 e3
    have hnum : (1 : ℚ) / 2 ^ 44 + 1 / 2 ^ 45 + 1 / 2 ^ 45 + 255 * (1 / 2 ^ 53) +
        255 * (1 / 2 ^ 53) + 255 * (1 / 2 ^ 53) ≤ 1 / 2 ^ 42 := by norm_num
    rw [abs_le]
    constructor <;> linarith

/-- The update of line 97 in doubles, for natural weights with a total of at
most `2 ^ 40`: the new accumulator is an integer from 0 to 255 within `1 / 2`
of the exact blend `(acc * T + channel * w) / (T + w)`. -/
theorem ieee_blend_near (a c T w : ℕ) (ha : a ≤ 255) (hc : c ≤ 255) (hw : 0 < w)
    (h40 : T + w ≤ 2 ^ 40) :
    ∃ m : ℕ, m ≤ 255 ∧
      IEEE.blend (.fin (a : ℚ)) (.fin (c : ℚ))
          ((Double.fin (w : ℚ)).div ((Double.fin (T : ℚ)).add (.fin (w : ℚ)))) =
        .fin (m : ℚ) ∧
      |(m : ℚ) - ((a : ℚ) * T + (c : ℚ) * w) / ((T : ℚ) + w)| ≤ 1 / 2 := by
  have hwq : (0 : ℚ) < (w : ℚ) := by exact_mod_cast hw
  have hTq : (0 : ℚ) ≤ (T : ℚ) := Nat.cast_nonneg T
  have hpos : (0 : ℚ) < (T : ℚ) + w := by linarith
  have haq0 : (0 : ℚ) ≤ (a : ℚ) := Nat.cast_nonneg a
  have hcq0 : (0 : ℚ) ≤ (c : ℚ) := Nat.cast_nonneg c
  have haq : (a : ℚ) ≤ 255 := by exact_mod_cast ha
  have hcq : (c : ℚ) ≤ 255 := by exact_mod_cast hc
  have h40q : (T : ℚ) + w ≤ 2 ^ 40 := by exact_mod_cast h40
  obtain ⟨t, ht, ht0, ht1, htc⟩ := ieee_ratio T w hw (by omega)
  obtain ⟨s, hs, hsc⟩ := ieee_blend_close a c ha hc t ((w : ℚ) / ((T : ℚ) + w)) ht0 ht1 htc
  have hexact : (a : ℚ) * (1 - (w : ℚ) / ((T : ℚ) + w)) + (c : ℚ) * ((w : ℚ) / ((T : ℚ) + w)) =
      (((a * T + c * w : ℕ) : ℤ) : ℚ) / ((T + w : ℕ) : ℚ) := by
    push_cast
    field_simp
  rw [hexact] at hsc
  have hnear := mathRound_near_of_close ((a * T + c * w : ℕ) : ℤ) (T + w) (by omega) s
    (1 / 2 ^ 42) hsc (by
      push_cast
      have : (1 : ℚ) / 2 ^ 42 * (2 * ((T : ℚ) + w)) ≤ 1 / 2 ^ 42 * (2 * 2 ^ 40) :=
        mul_le_mul_of_nonneg_left (by linarith) (by positivity)
      have e : (1 : ℚ) / 2 ^ 42 * (2 * 2 ^ 40) = 1 / 2 := by norm_num
      linarith)
  have hx : (((a * T + c * w : ℕ) : ℤ) : ℚ) / ((T + w : ℕ) : ℚ) =
      ((a : ℚ) * T + (c : ℚ) * w) / ((T : ℚ) + w) := by push_cast; rfl
  rw [hx] at hnear
  have hx0 : (0 : ℚ) ≤ ((a : ℚ) * T + (c : ℚ) * w) / ((T : ℚ) + w) := by positivity
  have hx1 : ((a : ℚ) * T + (c : ℚ) * w) / ((T : ℚ) + w) ≤ 255 := by
    rw [div_le_iff₀ hpos]
    have h1 : (a : ℚ) * T ≤ 255 * T := mul_le_mul_of_nonneg_right haq hTq
    have h2 : (c : ℚ) * w ≤ 255 * w := mul_le_mul_of_nonneg_right hcq hwq.le
    linarith
  obtain ⟨nlo, nhi⟩ := abs_le.1 hnear
  have hm0 : 0 ≤ mathRound s := by
    have : ((-1 : ℤ) : ℚ) < ((mathRound s : ℤ) : ℚ) := by push_cast; linarith
    have : (-1 : ℤ) < mathRound s := by exact_mod_cast this
    omega
  have hm1 : mathRound s ≤ 255 := by
    have : ((mathRound s : ℤ) : ℚ) < ((256 : ℤ) : ℚ) := by push_cast; linarith
    have : mathRound s < 256 := by exact_mod_cast this
    omega
  obtain ⟨m, hm⟩ := Int.eq_ofNat_of_zero_le hm0
  refine ⟨m, by omega, ?_, ?_⟩
  · simp only [IEEE.blend]
    rw [ht, hs]
    simp only [Double.round, hm, Int.cast_natCast]
  · rw [hm, Int.cast_natCast] at hnear
    exact hnear

/-! ### Natural weights: the subtractive mix in doubles against the exact mean -/

theorem near_step (m a c T w S E : ℚ) (hT : 0 ≤ T) (hw : 0 < w) (hE : 0 ≤ E)
    (hm : |m - (a * T + c * w) / (T + w)| ≤ 1 / 2) (ha : |a * T - S| ≤ T * E) :
    |m * (T + w) - (S + c * w)| ≤ (T + w) * (E + 1 / 2) := by
  have hTw : 0 < T + w := by linarith
  have hx : (a * T + c * w) / (T + w) * (T + w) = a * T + c * w :=
    div_mul_cancel₀ _ (ne_of_gt hTw)
  have hsplit : m * (T + w) - (S + c * w) =
      (m - (a * T + c * w) / (T + w)) * (T + w) + (a * T - S) := by
    rw [sub_mul, hx]; ring
  rw [hsplit]
  have h1 : |(m - (a * T + c * w) / (T + w)) * (T + w)| ≤ 1 / 2 * (T + w) := by
    rw [abs_mul, abs_of_pos hTw]
    exact mul_le_mul_of_nonneg_right hm hTw.le
  have h2 : T * E ≤ (T + w) * E := mul_le_mul_of_nonneg_right (by linarith) hE
  calc |(m - (a * T + c * w) / (T + w)) * (T + w) + (a * T - S)|
      ≤ |(m - (a * T + c * w) / (T + w)) * (T + w)| + |a * T - S| := abs_add _ _
    _ ≤ 1 / 2 * (T + w) + T * E := add_le_add h1 ha
    _ ≤ (T + w) * (E + 1 / 2) := by linarith

theorem ieee_subtractiveStep_eq (vc : List String) (st : IEEE.MixState) (i : ℤ) (w : Double) :
    IEEE.subtractiveStep vc st (i, w) =
      match jsIndex vc i with
      | none => .error .typeError
      | some color =>
        .ok { totalWeight := st.totalWeight.add w
              r := IEEE.blend st.r (Double.ofChannel (hexToRgb color).r)
                (w.div (st.totalWeight.add w))
              g := IEEE.blend st.g (Double.ofChannel (hexToRgb color).g)
                (w.div (st.totalWeight.add w))
              b := IEEE.blend st.b (Double.ofChannel (hexToRgb color).b)
                (w.div (st.totalWeight.add w)) } := rfl

theorem ieee_subtractiveStep_near (vc : List String)
    (hvalid : ∀ c ∈ vc, isValidColor c = true) (st st1 : IEEE.MixState) (i : ℤ) (w T : ℕ)
    (sr sg sb E : ℚ) (hst : IEEE.NearState st T sr sg sb E) (hw : 0 < w)
    (h40 : T + w ≤ 2 ^ 40)
    (h : IEEE.subtractiveStep vc st (i, .fin (w : ℚ)) = .ok st1) :
    IEEE.NearState st1 (T + w) (sr + channelOf RGB.r (vc.map hexToRgb) i * w)
      (sg + channelOf RGB.g (vc.map hexToRgb) i * w)
      (sb + channelOf RGB.b (vc.map hexToRgb) i * w) (E + 1 / 2) := by
  rw [ieee_subtractiveStep_eq] at h
  cases hj : jsIndex vc i with
  | none => rw [hj] at h; exact absurd h (by simp)
  | some color =>
    rw [hj] at h
    simp only [Except.ok.injEq] at h
    obtain ⟨ca, cb, cd, hca, hcb, hcd, hrgb⟩ :=
      hexToRgb_eq_of_valid color (hvalid color (jsIndex_mem _ _ _ hj))
    obtain ⟨hT, hE, a, b, d, ha, hb, hd, rfl, na, nb, nd⟩ := hst
    rw [channelOf_of_jsIndex RGB.r vc i color ca hj (by rw [hrgb]),
      channelOf_of_jsIndex RGB.g vc i color cb hj (by rw [hrgb]),
      channelOf_of_jsIndex RGB.b vc i color cd hj (by rw [hrgb]), ← h]
    simp only [hrgb, Double.ofChannel]
    obtain ⟨mr, hmr, er, nr⟩ := ieee_blend_near a ca T w ha hca hw h40
    obtain ⟨mg, hmg, eg, ng⟩ := ieee_blend_near b cb T w hb hcb hw h40
    obtain ⟨mb, hmb, eb, nbl⟩ := ieee_blend_near d cd T w hd hcd hw h40
    have hTq : (0 : ℚ) ≤ (T : ℚ) := Nat.cast_nonneg T
    have hwq : (0 : ℚ) < (w : ℚ) := by exact_mod_cast hw
    refine ⟨by omega, by linarith, mr, mg, mb, hmr, hmg, hmb, ?_, ?_, ?_, ?_⟩
    · rw [er, eg, eb, double_add_natCast T w (by omega)]
      push_cast
      rfl
    · push_cast
      exact near_step _ _ _ _ _ _ _ hTq hwq hE nr na
    · push_cast
      exact near_step _ _ _ _ _ _ _ hTq hwq hE ng nb
    · push_cast
      exact near_step _ _ _ _ _ _ _ hTq hwq hE nbl nd

theorem natCast_eq_of_near (m c : ℕ) (w : ℚ) (hw : 0 < w)
    (h : |(m : ℚ) - ((255 : ℚ) * 0 + (c : ℚ) * w) / (0 + w)| ≤ 1 / 2) : m = c := by
  have hx : ((255 : ℚ) * 0 + (c : ℚ) * w) / (0 + w) = (c : ℚ) := by
    field_simp
  rw [hx] at h
  obtain ⟨lo, hi⟩ := abs_le.1 h
  have h1 : ((m : ℤ) : ℚ) < ((c + 1 : ℤ) : ℚ) := by push_cast; linarith
  have h2 : ((c : ℤ) : ℚ) < ((m + 1 : ℤ) : ℚ) := by push_cast; linarith
  have h3 : (m : ℤ) < c + 1 := by exact_mod_cast h1
  have h4 : (c : ℤ) < m + 1 := by exact_mod_cast h2
  omega

theorem double_add_zero_natCast (w : ℕ) (h : w < 2 ^ 53) :
    (Double.fin 0).add (.fin (w : ℚ)) = .fin (w : ℚ) := by
  have := double_add_natCast 0 w (by omega)
  simpa using this

/-- The first pass of the loop of `mixColorsSubtractive` in doubles: the ratio
is exactly 1, and the accumulator becomes the decoded colour. -/
theorem ieee_subtractiveStep_first_near (vc : List String)
    (hvalid : ∀ c ∈ vc, isValidColor c = true) (st1 : IEEE.MixState) (i : ℤ) (w : ℕ)
    (hw : 0 < w) (h40 : w ≤ 2 ^ 40)
    (h : IEEE.subtractiveStep vc IEEE.subtractiveInit (i, .fin (w : ℚ)) = .ok st1) :
    IEEE.NearState st1 w (channelOf RGB.r (vc.map hexToRgb) i * w)
      (channelOf RGB.g (vc.map hexToRgb) i * w)
      (channelOf RGB.b (vc.map hexToRgb) i * w) 0 := by
  rw [ieee_subtractiveStep_eq] at h
  cases hj : jsIndex vc i with
  | none => rw [hj] at h; exact absurd h (by simp)
  | some color =>
    rw [hj] at h
    simp only [Except.ok.injEq] at h
    obtain ⟨ca, cb, cd, hca, hcb, hcd, hrgb⟩ :=
      hexToRgb_eq_of_valid color (hvalid color (jsIndex_mem _ _ _ hj))
    rw [channelOf_of_jsIndex RGB.r vc i color ca hj (by rw [hrgb]),
      channelOf_of_jsIndex RGB.g vc i color cb hj (by rw [hrgb]),
      channelOf_of_jsIndex RGB.b vc i color cd hj (by rw [hrgb]), ← h]
    simp only [hrgb, Double.ofChannel, IEEE.subtractiveInit]
    have hwq : (0 : ℚ) < (w : ℚ) := by exact_mod_cast hw
    obtain ⟨mr, -, er, nr⟩ := ieee_blend_near 255 ca 0 w (le_refl _) hca hw (by omega)
    obtain ⟨mg, -, eg, ng⟩ := ieee_blend_near 255 cb 0 w (le_refl _) hcb hw (by omega)
    obtain ⟨mb, -, eb, nbl⟩ := ieee_blend_near 255 cd 0 w (le_refl _) hcd hw (by omega)
    push_cast at er eg eb nr ng nbl
    have e1 := natCast_eq_of_near mr ca w hwq nr
    have e2 := natCast_eq_of_near mg cb w hwq ng
    have e3 := natCast_eq_of_near mb cd w hwq nbl
    subst e1 e2 e3
    refine ⟨hw, le_refl _, mr, mg, mb, hca, hcb, hcd, ?_, ?_, ?_, ?_⟩
    · rw [er, eg, eb, double_add_zero_natCast w (by omega)]
    · simp
    · simp
    · simp

theorem ieee_foldlM_subtractiveStep_near (vc : List String)
    (hvalid : ∀ c ∈ vc, isValidColor c = true) (pairs : List (ℤ × ℚ))
    (hnat : ∀ p ∈ pairs, ∃ n : ℕ, 0 < n ∧ p.2 = (n : ℚ)) (st st1 : IEEE.MixState) (T : ℕ)
    (sr sg sb E : ℚ) (hst : IEEE.NearState st T sr sg sb E)
    (h40 : (T : ℚ) + (pairs.map Prod.snd).sum ≤ 2 ^ 40)
    (h : (pairs.map fun p => (p.1, Double.fin p.2)).foldlM (IEEE.subtractiveStep vc) st =
      .ok st1) :
    ∃ T1 : ℕ, (T1 : ℚ) = (T : ℚ) + (pairs.map Prod.snd).sum ∧
      IEEE.NearState st1 T1
        (sr + (pairs.map fun p => channelOf RGB.r (vc.map hexToRgb) p.1 * p.2).sum)
        (sg + (pairs.map fun p => channelOf RGB.g (vc.map hexToRgb) p.1 * p.2).sum)
        (sb + (pairs.map fun p => channelOf RGB.b (vc.map hexToRgb) p.1 * p.2).sum)
        (E + (pairs.length : ℚ) / 2) := by
  induction pairs generalizing st T sr sg sb E with
  | nil =>
    simp only [List.map_nil, List.foldlM_nil, pure, Except.pure, Except.ok.injEq] at h
    rw [← h]
    exact ⟨T, by simp, by simpa using hst⟩
  | cons p ps ih =>
    obtain ⟨n, hn, hpn⟩ := hnat p (List.mem_cons_self _ _)
    obtain ⟨i, w⟩ := p
    simp only at hpn
    subst hpn
    simp only [List.map_cons, List.sum_cons] at h40
    have hrest : 0 ≤ (ps.map Prod.snd).sum := by
      apply List.sum_nonneg
      intro q hq
      obtain ⟨p, hp, rfl⟩ := List.mem_map.1 hq
      obtain ⟨m, -, hm⟩ := hnat p (List.mem_cons_of_mem _ hp)
      rw [hm]; exact Nat.cast_nonneg m
    have hTn : T + n ≤ 2 ^ 40 := by
      have : ((T + n : ℕ) : ℚ) ≤ ((2 ^ 40 : ℕ) : ℚ) := by push_cast; linarith
      exact_mod_cast this
    simp only [List.map_cons, List.foldlM_cons] at h
    cases hs : IEEE.subtractiveStep vc st (i, .fin (n : ℚ)) with
    | error e => rw [hs] at h; exact absurd h (by simp [bind, Except.bind])
    | ok st2 =>
      rw [hs] at h
      have h2 := ieee_subtractiveStep_near vc hvalid st st2 i n T sr sg sb E hst hn hTn hs
      simp only [bind, Except.bind] at h
      obtain ⟨T1, hT1, h3⟩ := ih (fun q hq => hnat q (List.mem_cons_of_mem _ hq)) st2
        (T + n) _ _ _ _ h2 (by push_cast; linarith) h
      refine ⟨T1, by rw [hT1, List.map_cons, List.sum_cons]; push_cast; ring, ?_⟩
      have hE : E + 1 / 2 + (ps.length : ℚ) / 2 = E + (((i, (n : ℚ)) :: ps).length : ℚ) / 2 := by
        rw [List.length_cons]
        push_cast
        ring
      rw [hE] at h3
      simpa only [List.map_cons, List.sum_cons, add_assoc] using h3

/-- The loop of `mixColorsSubtractive` in doubles runs to its end when every
selected index lies inside the list of valid colours. -/
theorem ieee_foldlM_subtractiveStep_ok (vc : List String) (pairs : List (ℤ × Double))
    (h : ∀ p ∈ pairs, 0 ≤ p.1 ∧ p.1 < vc.length) (st : IEEE.MixState) :
    ∃ st1, pairs.foldlM (IEEE.subtractiveStep vc) st = .ok st1 := by
  induction pairs generalizing st with
  | nil => exact ⟨st, rfl⟩
  | cons p ps ih =>
    obtain ⟨c, hc⟩ := jsIndex_some_of_lt vc p.1 (h p (List.mem_cons_self _ _)).1
      (h p (List.mem_cons_self _ _)).2
    rw [List.foldlM_cons]
    simp only [IEEE.subtractiveStep, hc, bind, Except.bind]
    exact ih (fun q hq => h q (List.mem_cons_of_mem _ hq)) _

theorem ieee_subtractiveFinish_of_byte (r g b : ℕ) (hr : r ≤ 255) (hg : g ≤ 255)
    (hb : b ≤ 255) (T : Double) :
    IEEE.subtractiveFinish ⟨T, .fin (r : ℚ), .fin (g : ℚ), .fin (b : ℚ)⟩ =
      encode { r := some (r : ℚ), g := some (g : ℚ), b := some (b : ℚ) } := by
  simp only [IEEE.subtractiveFinish, encode, double_clamp_natCast _ hr,
    double_clamp_natCast _ hg, double_clamp_natCast _ hb, double_toHex_natCast, toHex_natCast]

theorem selectedFrom_ratWeights_pos_nat (ws : List ℕ) :
    ∀ p ∈ selectedFrom 0 (ratWeights ws), ∃ n : ℕ, 0 < n ∧ p.2 = (n : ℚ) := by
  intro p hp
  obtain ⟨n, hn⟩ := selectedFrom_ratWeights_nat 0 ws p hp
  have hpos := selectedFrom_weight_pos 0 (ratWeights ws) p hp
  rw [hn] at hpos
  exact ⟨n, by exact_mod_cast hpos, hn⟩

/-- The run of `mixColorsSubtractive` in doubles on valid colours and natural
weights with a sum of at most `2 ^ 40`: the first pass stores the first
selected colour exactly, every later pass adds at most `1 / 2` to the distance
from the exact weighted mean, and the result is the encoding of the three
integers the loop ends with. -/
theorem ieee_subtractive_near (colors : List String) (ws : List ℕ)
    (hvalid : ∀ c ∈ colors, isValidColor c = true) (hlen : ws.length = colors.length)
    (hn : 1 ≤ (positivePositions (ratWeights ws)).length) (hsum : ws.sum ≤ 2 ^ 40) :
    ∃ r g b : ℕ, r ≤ 255 ∧ g ≤ 255 ∧ b ≤ 255 ∧
      IEEE.mixColorsSubtractive colors (natWeights ws) =
        .ok (encode { r := some (r : ℚ), g := some (g : ℚ), b := some (b : ℚ) }) ∧
      |(r : ℚ) - pairedMean RGB.r colors (ratWeights ws)| ≤
        (((positivePositions (ratWeights ws)).length : ℚ) - 1) / 2 ∧
      |(g : ℚ) - pairedMean RGB.g colors (ratWeights ws)| ≤
        (((positivePositions (ratWeights ws)).length : ℚ) - 1) / 2 ∧
      |(b : ℚ) - pairedMean RGB.b colors (ratWeights ws)| ≤
        (((positivePositions (ratWeights ws)).length : ℚ) - 1) / 2 := by
  have hvc := validColors_of_all_valid colors hvalid
  have hposw := selectedFrom_ratWeights_pos_nat ws
  have hlenp := length_selectedFrom_eq_positions (ratWeights ws)
  have hsr := selected_channel_sum RGB.r colors (ratWeights ws)
  have hsg := selected_channel_sum RGB.g colors (ratWeights ws)
  have hsb := selected_channel_sum RGB.b colors (ratWeights ws)
  have hsw := selected_weight_sum (ratWeights ws)
  have hq : ((ws.sum : ℕ) : ℚ) ≤ 2 ^ 40 := by exact_mod_cast hsum
  have htot : ((selectedFrom 0 (ratWeights ws)).map Prod.snd).sum = (ws.sum : ℚ) := by
    rw [selectedFrom_map_snd, sum_validWeights_ratWeights]
  have hin : ∀ p ∈ selectedFrom 0 (ratWeights ws), 0 ≤ p.1 ∧ p.1 < (colors.length : ℤ) :=
    selectedFrom_in_range (ratWeights ws) colors.length
      (fun i hi _ => by rw [ratWeights_length] at hi; omega)
  have hvw : validWeights (ratWeights ws) ≠ [] := by
    intro hnil
    have := length_selectedFrom 0 (ratWeights ws)
    rw [hnil, hlenp] at this
    simp only [List.length_nil] at this
    omega
  have hcne : validColors colors ≠ [] := by
    rw [hvc]
    intro hnil
    rw [hnil, List.length_nil] at hlen
    rw [List.length_eq_zero.1 hlen] at hn
    simp [positivePositions, ratWeights] at hn
  have hmixeq : IEEE.mixColorsSubtractive colors (natWeights ws) =
      IEEE.subtractiveLoop colors (IEEE.selected (ratWeights ws)) := by
    rw [natWeights_eq, ieee_mixColorsSubtractive_eq, if_neg hcne, if_neg hvw, hvc]
  cases hpairs : selectedFrom 0 (ratWeights ws) with
  | nil =>
    rw [hpairs] at hlenp
    simp only [List.length_nil] at hlenp
    omega
  | cons p ps =>
    rw [hpairs] at hposw hsr hsg hsb hlenp htot hin hsw
    obtain ⟨n, hn0, hpn⟩ := hposw p (List.mem_cons_self _ _)
    obtain ⟨i, w⟩ := p
    simp only at hpn
    subst hpn
    simp only [List.map_cons, List.sum_cons] at htot hsr hsg hsb hsw
    have hrest : 0 ≤ (ps.map Prod.snd).sum := by
      apply List.sum_nonneg
      intro q hq
      obtain ⟨p, hp, rfl⟩ := List.mem_map.1 hq
      obtain ⟨m, -, hm⟩ := hposw p (List.mem_cons_of_mem _ hp)
      rw [hm]; exact Nat.cast_nonneg m
    have hn40 : n ≤ 2 ^ 40 := by
      have : ((n : ℕ) : ℚ) ≤ ((2 ^ 40 : ℕ) : ℚ) := by push_cast; linarith
      exact_mod_cast this
    obtain ⟨st, hrun⟩ := ieee_foldlM_subtractiveStep_ok colors
      (((i, (n : ℚ)) :: ps).map fun p => (p.1, Double.fin p.2))
      (by
        intro q hq
        obtain ⟨p, hp, rfl⟩ := List.mem_map.1 hq
        exact hin p hp) IEEE.subtractiveInit
    have hrun0 := hrun
    simp only [List.map_cons, List.foldlM_cons] at hrun
    cases hs : IEEE.subtractiveStep colors IEEE.subtractiveInit (i, .fin (n : ℚ)) with
    | error e => rw [hs] at hrun; exact absurd hrun (by simp [bind, Except.bind])
    | ok st0 =>
      rw [hs] at hrun
      simp only [bind, Except.bind] at hrun
      have h0 := ieee_subtractiveStep_first_near colors hvalid st0 i n hn0 hn40 hs
      obtain ⟨T1, hT1, h1⟩ := ieee_foldlM_subtractiveStep_near colors hvalid ps
        (fun q hq => hposw q (List.mem_cons_of_mem _ hq)) st0 st n _ _ _ 0 h0
        (by linarith) hrun
      rw [hsr, hsg, hsb] at h1
      obtain ⟨hT, -, r, g, b, hr, hg, hb, rfl, nr, ng, nb⟩ := h1
      have hmix : IEEE.mixColorsSubtractive colors (natWeights ws) =
          .ok (encode { r := some (r : ℚ), g := some (g : ℚ), b := some (b : ℚ) }) := by
        rw [hmixeq, IEEE.subtractiveLoop, IEEE.selected, hpairs, hrun0]
        simp only [ieee_subtractiveFinish_of_byte r g b hr hg hb]
      refine ⟨r, g, b, hr, hg, hb, hmix, ?_⟩
      have hE : (0 : ℚ) + (ps.length : ℚ) / 2 =
          (((positivePositions (ratWeights ws)).length : ℚ) - 1) / 2 := by
        rw [← hlenp, List.length_cons]
        push_cast
        ring
      have hTeq : (T1 : ℚ) = positiveWeightSum (ratWeights ws) := by
        rw [hT1, ← hsw]
      have hTq : (0 : ℚ) < (T1 : ℚ) := by exact_mod_cast hT
      rw [hE, hTeq] at nr ng nb
      rw [hTeq] at hTq
      exact ⟨near_mean _ _ _ _ hTq nr, near_mean _ _ _ _ hTq ng, near_mean _ _ _ _ hTq nb⟩

/-- C16, amended. For a list of valid colours and a list of natural weights of
the same length, with `n ≥ 1` strictly positive entries and a sum of at most
`2 ^ 40`, `mixColorsSubtractive` computed in doubles returns the encoding of
three integer channels from 0 to 255 (which decoding the result gives back),
each within `(n - 1) / 2` of the exact weighted mean of that channel over the
pairs with a positive weight. -/
theorem subtractive_near_mean_for_natural_weights (colors : List String) (ws : List ℕ)
    (hvalid : ∀ c ∈ colors, isValidColor c = true) (hlen : ws.length = colors.length)
    (hn : 1 ≤ (positivePositions (ratWeights ws)).length) (hsum : ws.sum ≤ 2 ^ 40) :
    ∃ r g b : ℕ, r ≤ 255 ∧ g ≤ 255 ∧ b ≤ 255 ∧
      IEEE.mixColorsSubtractive colors (natWeights ws) =
        .ok (encode { r := some (r : ℚ), g := some (g : ℚ), b := some (b : ℚ) }) ∧
      hexToRgb (encode { r := some (r : ℚ), g := some (g : ℚ), b := some (b : ℚ) }) =
        { r := some (r : ℚ), g := some (g : ℚ), b := some (b : ℚ) } ∧
      |(r : ℚ) - pairedMean RGB.r colors (ratWeights ws)| ≤
        (((positivePositions (ratWeights ws)).length : ℚ) - 1) / 2 ∧
      |(g : ℚ) - pairedMean RGB.g colors (ratWeights ws)| ≤
        (((positivePositions (ratWeights ws)).length : ℚ) - 1) / 2 ∧
      |(b : ℚ) - pairedMean RGB.b colors (ratWeights ws)| ≤
        (((positivePositions (ratWeights ws)).length : ℚ) - 1) / 2 := by
  obtain ⟨r, g, b, hr, hg, hb, hmix, hnear⟩ :=
    ieee_subtractive_near colors ws hvalid hlen hn hsum
  exact ⟨r, g, b, hr, hg, hb, hmix, hexToRgb_encode r g b hr hg hb, hnear⟩

theorem subtractive_near_mean_for_natural_weights_witness :
    ((∀ c ∈ ["#666666", "#000000", "#030303"], isValidColor c = true) ∧
        [5, 7, 1].length = ["#666666", "#000000", "#030303"].length ∧
        1 ≤ (positivePositions (ratWeights [5, 7, 1])).length ∧ [5, 7, 1].sum ≤ 2 ^ 40) ∧
      ∃ r g b : ℕ, r ≤ 255 ∧ g ≤ 255 ∧ b ≤ 255 ∧
        IEEE.mixColorsSubtractive ["#666666", "#000000", "#030303"] (natWeights [5, 7, 1]) =
          .ok (encode { r := some (r : ℚ), g := some (g : ℚ), b := some (b : ℚ) }) ∧
        hexToRgb (encode { r := some (r : ℚ), g := some (g : ℚ), b := some (b : ℚ) }) =
          { r := some (r : ℚ), g := some (g : ℚ), b := some (b : ℚ) } ∧
        |(r : ℚ) - pairedMean RGB.r ["#666666", "#000000", "#030303"]
            (ratWeights [5, 7, 1])| ≤
          (((positivePositions (ratWeights [5, 7, 1])).length : ℚ) - 1) / 2 ∧
        |(g : ℚ) - pairedMean RGB.g ["#666666", "#000000", "#030303"]
            (ratWeights [5, 7, 1])| ≤
          (((positivePositions (ratWeights [5, 7, 1])).length : ℚ) - 1) / 2 ∧
        |(b : ℚ) - pairedMean RGB.b ["#666666", "#000000", "#030303"]
            (ratWeights [5, 7, 1])| ≤
          (((positivePositions (ratWeights [5, 7, 1])).length : ℚ) - 1) / 2 :=
  ⟨⟨by decide, by decide, by decide!, by decide⟩,
    subtractive_near_mean_for_natural_weights ["#666666", "#000000", "#030303"] [5, 7, 1]
      (by decide) (by decide) (by decide!) (by decide)⟩

/-! ### At most two natural weights: the two mixers in doubles -/

theorem countP_pos_eq (ws : List ℕ) :
    ws.countP (fun w => decide (0 < w)) = (positivePositions (ratWeights ws)).length := by
  rw [← length_selectedFrom_eq_positions, length_selectedFrom, validWeights,
    ← List.countP_eq_length_filter, ratWeights, List.countP_map]
  congr 1
  funext w
  simp

/-- An integer within `1 / 2` of `x` is what `Math.round` gives on `x`, or one
less when `x` lies exactly half way. -/
theorem mathRound_of_near (r : ℕ) (x : ℚ) (h : |(r : ℚ) - x| ≤ 1 / 2) :
    ∃ m : ℕ, mathRound x = (m : ℤ) ∧ (m = r ∨ m = r + 1 ∧ x = (r : ℚ) + 1 / 2) := by
  obtain ⟨lo, hi⟩ := abs_le.1 h
  rcases eq_or_lt_of_le (by linarith : x ≤ (r : ℚ) + 1 / 2) with heq | hlt
  · refine ⟨r + 1, ?_, Or.inr ⟨rfl, heq⟩⟩
    unfold mathRound
    rw [Int.floor_eq_iff]
    push_cast
    constructor <;> linarith
  · refine ⟨r, ?_, Or.inl rfl⟩
    unfold mathRound
    rw [Int.floor_eq_iff]
    push_cast
    constructor <;> linarith

/-- The rounded exact means are integers from 0 to 255 when every selected
index lies inside the list of valid colours. -/
theorem pairedMean_round_le (colors : List String) (weights : List ℚ)
    (hrange : ∀ i, i < weights.length → weights.getD i 0 > 0 →
      i < (validColors colors).length)
    (hex : ∃ i, i < weights.length ∧ weights.getD i 0 > 0) :
    mathRound (pairedMean RGB.r (validColors colors) weights) ≤ 255 ∧
      mathRound (pairedMean RGB.g (validColors colors) weights) ≤ 255 ∧
      mathRound (pairedMean RGB.b (validColors colors) weights) ≤ 255 := by
  obtain ⟨i, hi, hwi⟩ := hex
  have hvw : validWeights weights ≠ [] := by
    apply validWeights_ne_nil
    refine ⟨weights.getD i 0, ?_, hwi⟩
    rw [List.getD_eq_getElem _ _ hi]
    exact List.getElem_mem _
  have hin : ∀ p ∈ selectedFrom 0 weights,
      0 ≤ p.1 ∧ p.1 < (((validColors colors).map hexToRgb).length : ℤ) := by
    rw [List.length_map]
    exact selectedFrom_in_range weights _ hrange
  have hrun : (selectedFrom 0 weights).foldlM
      (weightedStep ((validColors colors).map hexToRgb)) weightedInit =
      .ok (weightedSums ((validColors colors).map hexToRgb) 0 0 0 0 (selectedFrom 0 weights)) :=
    foldlM_weightedStep_sums ((validColors colors).map hexToRgb)
      (good_of_mem_rgbColors colors) (selectedFrom 0 weights) hin 0 0 0 0
  have hpos : (weightedSums ((validColors colors).map hexToRgb) 0 0 0 0
      (selectedFrom 0 weights)).totalWeight > 0 := by
    simp only [weightedSums, selectedFrom_map_snd, zero_add]
    exact sum_validWeights_pos weights hvw
  obtain ⟨-, hr, hg, hb⟩ := weighted_fold_bounded colors weights _ hrun
  obtain ⟨a, ha, ea⟩ := normalize_isChannel _ _ hr hpos
  obtain ⟨b, hb2, eb⟩ := normalize_isChannel _ _ hg hpos
  obtain ⟨d, hd, ed⟩ := normalize_isChannel _ _ hb hpos
  simp only [weightedSums, normalize_weightedSums, Option.some.injEq] at ea eb ed
  have ea2 : mathRound (pairedMean RGB.r (validColors colors) weights) = (a : ℤ) := by
    exact_mod_cast ea
  have eb2 : mathRound (pairedMean RGB.g (validColors colors) weights) = (b : ℤ) := by
    exact_mod_cast eb
  have ed2 : mathRound (pairedMean RGB.b (validColors colors) weights) = (d : ℤ) := by
    exact_mod_cast ed
  rw [ea2, eb2, ed2]
  omega

/-- C15, amended. For a list of valid colours and a list of natural weights of
the same length, with at most two strictly positive entries and a sum of at
most `2 ^ 40`, computed in doubles: without a positive weight both mixers
return `#FFFFFF`; otherwise both return the encoding of three integer channels
from 0 to 255, and each channel of `mixColorsWithWeights` is the channel of
`mixColorsSubtractive` or that channel plus one, the latter only where the
exact weighted mean of the channel lies exactly half way between the two
integers. -/
theorem subtractive_within_one_of_weighted (colors : List String) (ws : List ℕ)
    (hvalid : ∀ c ∈ colors, isValidColor c = true) (hlen : ws.length = colors.length)
    (htwo : ws.countP (fun w => decide (0 < w)) ≤ 2) (hsum : ws.sum ≤ 2 ^ 40) :
    (ws.countP (fun w => decide (0 < w)) = 0 →
        IEEE.mixColorsSubtractive colors (natWeights ws) = .ok "#FFFFFF" ∧
          IEEE.mixColorsWithWeights colors (natWeights ws) = .ok "#FFFFFF") ∧
      (1 ≤ ws.countP (fun w => decide (0 < w)) →
        ∃ r g b r' g' b' : ℕ, (r ≤ 255 ∧ g ≤ 255 ∧ b ≤ 255) ∧
          (r' ≤ 255 ∧ g' ≤ 255 ∧ b' ≤ 255) ∧
          IEEE.mixColorsSubtractive colors (natWeights ws) =
            .ok (encode { r := some (r : ℚ), g := some (g : ℚ), b := some (b : ℚ) }) ∧
          IEEE.mixColorsWithWeights colors (natWeights ws) =
            .ok (encode { r := some (r' : ℚ), g := some (g' : ℚ), b := some (b' : ℚ) }) ∧
          (r' = r ∨ r' = r + 1 ∧ pairedMean RGB.r colors (ratWeights ws) = (r : ℚ) + 1 / 2) ∧
          (g' = g ∨ g' = g + 1 ∧ pairedMean RGB.g colors (ratWeights ws) = (g : ℚ) + 1 / 2) ∧
          (b' = b ∨ b' = b + 1 ∧ pairedMean RGB.b colors (ratWeights ws) = (b : ℚ) + 1 / 2)) := by
  have hvc := validColors_of_all_valid colors hvalid
  rw [countP_pos_eq] at htwo ⊢
  constructor
  · intro h0
    have hvw : validWeights (ratWeights ws) = [] := by
      have := length_selectedFrom 0 (ratWeights ws)
      rw [length_selectedFrom_eq_positions, h0] at this
      exact List.length_eq_zero.1 this.symm
    rw [natWeights_eq, ieee_mixColorsSubtractive_eq, ieee_mixColorsWithWeights_eq, hvw]
    simp
  · intro h1
    obtain ⟨r, g, b, hr, hg, hb, hsub, nr, ng, nb⟩ :=
      ieee_subtractive_near colors ws hvalid hlen h1 hsum
    have hE : (((positivePositions (ratWeights ws)).length : ℚ) - 1) / 2 ≤ 1 / 2 := by
      have : ((positivePositions (ratWeights ws)).length : ℚ) ≤ 2 := by exact_mod_cast htwo
      linarith
    obtain ⟨r', er, hr'⟩ := mathRound_of_near r _ (le_trans nr hE)
    obtain ⟨g', eg, hg'⟩ := mathRound_of_near g _ (le_trans ng hE)
    obtain ⟨b', eb, hb'⟩ := mathRound_of_near b _ (le_trans nb hE)
    have hrange : ∀ i, i < (ratWeights ws).length → (ratWeights ws).getD i 0 > 0 →
        i < (validColors colors).length := by
      intro i hi _
      rw [ratWeights_length] at hi
      rw [hvc]; omega
    have hex : ∃ i, i < (ratWeights ws).length ∧ (ratWeights ws).getD i 0 > 0 := by
      cases hpp : positivePositions (ratWeights ws) with
      | nil => rw [hpp] at h1; simp at h1
      | cons i is =>
        have hi : i ∈ positivePositions (ratWeights ws) := by rw [hpp]; exact List.mem_cons_self _ _
        exact ⟨i, (mem_positivePositions _ i).1 hi⟩
    have hw := weighted_mix_pairs_weight_with_valid_colour colors (ratWeights ws) hrange hex
    obtain ⟨lr, lg, lb⟩ := pairedMean_round_le colors (ratWeights ws) hrange hex
    rw [hvc] at hw lr lg lb
    rw [er, eg, eb] at hw
    rw [er] at lr
    rw [eg] at lg
    rw [eb] at lb
    simp only [Int.cast_natCast] at hw
    refine ⟨r, g, b, r', g', b', ⟨hr, hg, hb⟩, ⟨by omega, by omega, by omega⟩, hsub, ?_,
      hr', hg', hb'⟩
    rw [mixColorsWithWeights_exact colors ws hsum]
    exact hw

theorem subtractive_within_one_of_weighted_witness :
    ((∀ c ∈ ["#666666", "#000000", "#22C55E"], isValidColor c = true) ∧
        [5, 7, 0].length = ["#666666", "#000000", "#22C55E"].length ∧
        [5, 7, 0].countP (fun w => decide (0 < w)) ≤ 2 ∧ [5, 7, 0].sum ≤ 2 ^ 40) ∧
      ([5, 7, 0].countP (fun w => decide (0 < w)) = 0 →
        IEEE.mixColorsSubtractive ["#666666", "#000000", "#22C55E"] (natWeights [5, 7, 0]) =
            .ok "#FFFFFF" ∧
          IEEE.mixColorsWithWeights ["#666666", "#000000", "#22C55E"] (natWeights [5, 7, 0]) =
            .ok "#FFFFFF") ∧
      (1 ≤ [5, 7, 0].countP (fun w => decide (0 < w)) →
        ∃ r g b r' g' b' : ℕ, (r ≤ 255 ∧ g ≤ 255 ∧ b ≤ 255) ∧
          (r' ≤ 255 ∧ g' ≤ 255 ∧ b' ≤ 255) ∧
          IEEE.mixColorsSubtractive ["#666666", "#000000", "#22C55E"] (natWeights [5, 7, 0]) =
            .ok (encode { r := some (r : ℚ), g := some (g : ℚ), b := some (b : ℚ) }) ∧
          IEEE.mixColorsWithWeights ["#666666", "#000000", "#22C55E"] (natWeights [5, 7, 0]) =
            .ok (encode { r := some (r' : ℚ), g := some (g' : ℚ), b := some (b' : ℚ) }) ∧
          (r' = r ∨ r' = r + 1 ∧
            pairedMean RGB.r ["#666666", "#000000", "#22C55E"] (ratWeights [5, 7, 0]) =
              (r : ℚ) + 1 / 2) ∧
          (g' = g ∨ g' = g + 1 ∧
            pairedMean RGB.g ["#666666", "#000000", "#22C55E"] (ratWeights [5, 7, 0]) =
              (g : ℚ) + 1 / 2) ∧
          (b' = b ∨ b' = b + 1 ∧
            pairedMean RGB.b ["#666666", "#000000", "#22C55E"] (ratWeights [5, 7, 0]) =
              (b : ℚ) + 1 / 2)) :=
  ⟨⟨by decide, by decide, by decide, by decide⟩,
    subtractive_within_one_of_weighted ["#666666", "#000000", "#22C55E"] [5, 7, 0]
      (by decide) (by decide) (by decide) (by decide)⟩

/-! ### Natural weights: a single colour, and the shape of the weighted result -/

theorem positivePositions_singleton (w : ℚ) (hw : 0 < w) : positivePositions [w] = [0] := by
  simp [positivePositions, List.range_succ, hw]

theorem pairedMean_singleton (ch : RGB → Option ℚ) (c : String) (w : ℚ) (hw : 0 < w) :
    pairedMean ch [c] [w] = channelAt ch [c] 0 := by
  have hne : w ≠ 0 := ne_of_gt hw
  simp only [pairedMean, pairedChannelSum, positiveWeightSum, positivePositions_singleton w hw,
    List.map_cons, List.map_nil, List.sum_cons, List.sum_nil, add_zero, List.getD_cons_zero]
  field_simp

/-- In doubles, a single valid colour with a natural weight from 1 to `2 ^ 40`
is returned by both mixers as the hex encoding of its three decoded
channels. -/
theorem single_colour_returned_for_natural_weight (c : String) (w : ℕ)
    (hc : isValidColor c = true) (hw : 0 < w) (h40 : w ≤ 2 ^ 40) :
    IEEE.mixColorsWithWeights [c] (natWeights [w]) = .ok (encode (hexToRgb c)) ∧
      IEEE.mixColorsSubtractive [c] (natWeights [w]) = .ok (encode (hexToRgb c)) := by
  have hwq : (0 : ℚ) < (w : ℚ) := by exact_mod_cast hw
  have hrat : ratWeights [w] = [(w : ℚ)] := rfl
  constructor
  · rw [mixColorsWithWeights_exact [c] [w] (by simpa using h40), hrat]
    exact (single_colour_round_trip c (w : ℚ) hc hwq).1
  · obtain ⟨a, b, d, -, -, -, hrgb⟩ := hexToRgb_eq_of_valid c hc
    have hvalid : ∀ x ∈ [c], isValidColor x = true := by
      intro x hx
      rw [List.mem_singleton.1 hx]; exact hc
    obtain ⟨r, g, bl, -, -, -, hsub, nr, ng, nb⟩ :=
      ieee_subtractive_near [c] [w] hvalid rfl
        (by rw [hrat, positivePositions_singleton _ hwq]; simp) (by simpa using h40)
    rw [hrat, positivePositions_singleton _ hwq, pairedMean_singleton _ c _ hwq] at nr ng nb
    simp only [channelAt, List.getElem?_cons_zero, Option.some_bind, hrgb, Option.getD_some,
      List.length_singleton, Nat.cast_one, sub_self, zero_div, abs_nonpos_iff, sub_eq_zero]
      at nr ng nb
    rw [hsub, hrgb, nr, ng, nb]

/-- In doubles, for natural weights with a sum of at most `2 ^ 40`, every
string returned by `mixColorsWithWeights` has exactly seven characters and
matches the colour pattern. -/
theorem weighted_result_is_hex_colour_for_natural_weights (colors : List String)
    (ws : List ℕ) (hsum : ws.sum ≤ 2 ^ 40) (s : String)
    (h : IEEE.mixColorsWithWeights colors (natWeights ws) = .ok s) :
    s.length = 7 ∧ isValidColor s = true := by
  rw [mixColorsWithWeights_exact colors ws hsum] at h
  exact returned_string_is_hex_colour colors (ratWeights ws) s (Or.inl h)

end ColorMix
